import Mathlib

/-!
# jlcfabtool: pattern tables, placement correction, parts catalogue, record decoder

A shallow embedding of `jlcpcb/package.go`, `jlcpcb/jlcpcb_placement.go`,
`partsdb/partsdb.go` and `csvx/unmarshal.go`.

* Go strings are Lean strings (valid UTF-8).
* A compiled `*regexp.Regexp` is represented by its `MatchString` predicate.
* `sort.Slice` is a library routine: it is a parameter, constrained by what its
  documentation promises (a permutation of the input, ordered by the comparator,
  with no stability guarantee).
* A finite `float64` is represented by the rational number it denotes; each arithmetic
  operation returns the rounding of the exact result.  `math.Cos` and `math.Sin` are
  library routines and stay parameters.
* The SQLite database is the list of rows of `parts` and of `parts_fts`; a statement
  is the list of clauses the code puts together, run with the meaning SQL gives them.
  The full-text `MATCH` and the sort behind `ORDER BY` stay parameters.
* The CSV reader hands `Unmarshal` the fields of each line, or an error; reflection on
  the record type is the list of its fields, each integer and float kind with its width;
  `strings.ToLower`, the `strconv` parsers and `regexp.Compile` stay parameters.
-/

namespace Jlcfabtool

/-! ## Pattern entries (`jlcpcb/package.go`) -/

/-- Go's compiled `*regexp.Regexp`, reduced to the one method the code calls. -/
structure Regexp where
  MatchString : String → Bool

/-- `UnmarshallableRegexp`: a compiled pattern with the length of its source text. -/
structure UnmarshallableRegexp where
  Regexp : Regexp
  Length : Nat

/-- The promoted method `rx.MatchString(s)` of the embedded `*regexp.Regexp`. -/
def UnmarshallableRegexp.MatchString (rx : UnmarshallableRegexp) (s : String) : Bool :=
  rx.Regexp.MatchString s

/-- `FootprintMapping` maps a KiCad footprint to an LCSC category and package. -/
structure FootprintMapping where
  FootprintPattern : UnmarshallableRegexp
  Category : String
  Package : String

/-! ## `sort.Slice` -/

/-- The comparator both call sites hand to `sort.Slice`:
`matches[i].FootprintPattern.Length > matches[j].FootprintPattern.Length`. -/
def lengthGreater {α : Type} (pat : α → UnmarshallableRegexp) (a b : α) : Bool :=
  decide ((pat a).Length > (pat b).Length)

/-- A `sort.Slice` routine.  The library promises that the result is a reordering of the
input in which no element is `less` than one placed before it; it does not promise
stability.  The ordering promise is recorded for the comparator used in this program. -/
structure SliceSort where
  sort : {α : Type} → (α → α → Bool) → List α → List α
  perm : ∀ {α : Type} (less : α → α → Bool) (l : List α), (sort less l).Perm l
  sorted : ∀ {α : Type} (pat : α → UnmarshallableRegexp) (l : List α),
    (sort (lengthGreater pat) l).Pairwise (fun a b => lengthGreater pat b a = false)

/-- Insertion sort in the order given by `less` (what Go runs on slices of at most
twelve elements); elements that compare equal keep their order. -/
def insertionSortSlice : SliceSort where
  sort less l := l.insertionSort (fun a b => less b a = false)
  perm less l := List.perm_insertionSort _ l
  sorted pat l := by
    have : IsTotal _ (fun a b => lengthGreater pat b a = false) :=
      ⟨fun a b => by simp only [lengthGreater, decide_eq_false_iff_not]; omega⟩
    have : IsTrans _ (fun a b => lengthGreater pat b a = false) :=
      ⟨fun a b c => by simp only [lengthGreater, decide_eq_false_iff_not]; omega⟩
    exact List.sorted_insertionSort _ l

/-- Another routine within the library's promise: it sorts the reversed input, so
elements that compare equal come out in reverse order. -/
def reversingSortSlice : SliceSort where
  sort less l := l.reverse.insertionSort (fun a b => less b a = false)
  perm _ l := (List.perm_insertionSort _ l.reverse).trans (List.reverse_perm l)
  sorted pat l := insertionSortSlice.sorted pat l.reverse

/-! ## `FromKiCadFootprint` -/

/-- The first step of `FromKiCadFootprint`: drop everything up to and including the
first `':'`, when there is one. -/
def removeLibraryPrefix (footprint : String) : String :=
  let i := footprint.toList.indexOf ':'
  if i < footprint.toList.length then String.mk (footprint.toList.drop (i + 1)) else footprint

/-- `FromKiCadFootprint` returns the LCSC category and package for a KiCad footprint. -/
def FromKiCadFootprint (S : SliceSort) (footprintDB : List FootprintMapping)
    (footprint : String) : String × String :=
  let footprint := removeLibraryPrefix footprint
  let ms := footprintDB.filter (fun mapping => mapping.FootprintPattern.MatchString footprint)
  let ms := S.sort (lengthGreater FootprintMapping.FootprintPattern) ms
  match ms with
  | m :: _ => (m.Category, m.Package)
  | [] => ("", "")

/-- A pattern without metacharacters matches exactly the strings that contain it. -/
def literalRegexp (text : String) : Regexp where
  MatchString s := s.toList.tails.any (fun t => text.toList.isPrefixOf t)

/-- What `UnmarshalText` yields for a pattern without metacharacters. -/
def literalPattern (text : String) : UnmarshallableRegexp where
  Regexp := literalRegexp text
  Length := text.utf8ByteSize

/-! ## float64 arithmetic -/

/-- The integer nearest to `y`, a tie going to the even neighbour. -/
def roundHalfEven (y : ℚ) : ℤ :=
  let f := ⌊y⌋
  let r := y - f
  if r < 1 / 2 then f
  else if 1 / 2 < r then f + 1
  else if f % 2 = 0 then f else f + 1

/-- The binary64 value nearest to the exact result `x`: 53 significant bits, ties to
even, spacing never below `2 ^ (-1074)`.  Overflow to an infinity is not represented:
the statements below keep magnitudes far under `2 ^ 1024`. -/
def round64 (x : ℚ) : ℚ :=
  if x = 0 then 0
  else
    let e := Int.log 2 |x|
    let q : ℚ := 2 ^ max (e - 52) (-1074)
    roundHalfEven (x / q) * q

/-- The arithmetic the placement code runs on: how an exact result is rounded, the
constant `math.Pi / 180.0`, and the library routines `math.Cos` and `math.Sin`. -/
structure FloatOps where
  rnd : ℚ → ℚ
  radPerDeg : ℚ
  Cos : ℚ → ℚ
  Sin : ℚ → ℚ

/-- Float addition `a + b`. -/
def FloatOps.add (F : FloatOps) (a b : ℚ) : ℚ := F.rnd (a + b)

/-- Float subtraction `a - b`. -/
def FloatOps.sub (F : FloatOps) (a b : ℚ) : ℚ := F.rnd (a - b)

/-- Float multiplication `a * b`. -/
def FloatOps.mul (F : FloatOps) (a b : ℚ) : ℚ := F.rnd (a * b)

/-- The constant `math.Pi` as the `math` package writes it. -/
def mathPi : ℚ :=
  314159265358979323846264338327950288419716939937510582097494459 / 10 ^ 62

/-- Go's float64: every operation rounds to binary64; the constant expression
`math.Pi / 180.0` is evaluated exactly and rounded once. -/
def binary64 (Cos Sin : ℚ → ℚ) : FloatOps where
  rnd := round64
  radPerDeg := round64 (mathPi / 180)
  Cos := Cos
  Sin := Sin

/-- Rounding that keeps a non-negative result non-negative and moves a result of
magnitude below `B` by at most 256 (half the spacing of binary64 just below `2 ^ 62`). -/
structure FloatOps.RoundsNear (F : FloatOps) (B : ℚ) : Prop where
  nonneg : ∀ v, 0 ≤ v → 0 ≤ F.rnd v
  near : ∀ v, |v| < B → |F.rnd v - v| ≤ 256

/-! ## Placement correction (`jlcpcb/jlcpcb_placement.go`) -/

/-- `RotationCorrection`: how far a footprint is rotated relative to the JLCPCB
orientation, and where its centre lies relative to KiCad's origin. -/
structure RotationCorrection where
  FootprintPattern : UnmarshallableRegexp
  Rotation : ℚ
  CenterX : ℚ
  CenterY : ℚ

/-- `rotatePoint` rotates a point (x, y) around an origin (x0, y0) by theta degrees. -/
def rotatePoint (F : FloatOps) (x y x0 y0 theta : ℚ) : ℚ × ℚ :=
  let thetaRad := F.mul theta F.radPerDeg
  let xPrime := F.sub x x0
  let yPrime := F.sub y y0
  let xRotated := F.sub (F.mul xPrime (F.Cos thetaRad)) (F.mul yPrime (F.Sin thetaRad))
  let yRotated := F.add (F.mul xPrime (F.Sin thetaRad)) (F.mul yPrime (F.Cos thetaRad))
  let xNew := F.add xRotated x0
  let yNew := F.add yRotated y0
  (xNew, yNew)

/-- The first loop of `clampRotation`: `for angle < 0 { angle += 360 }`.  One unit of
fuel pays for one test of the loop condition; `none` means the fuel ran out. -/
def clampRotationUp (F : FloatOps) : Nat → ℚ → Option ℚ
  | 0, _ => none
  | fuel + 1, angle =>
    if angle < 0 then clampRotationUp F fuel (F.add angle 360) else some angle

/-- The second loop of `clampRotation`: `for angle >= 360 { angle -= 360 }`. -/
def clampRotationDown (F : FloatOps) : Nat → ℚ → Option ℚ
  | 0, _ => none
  | fuel + 1, angle =>
    if 360 ≤ angle then clampRotationDown F fuel (F.sub angle 360) else some angle

/-- `clampRotation` clamps an angle to the range [0, 360). -/
def clampRotation (F : FloatOps) (fuel : Nat) (angle : ℚ) : Option ℚ :=
  (clampRotationUp F fuel angle).bind (clampRotationDown F fuel)

/-- The element `sort.Slice` leaves at index 0 of a non-empty slice. -/
def SliceSort.first (S : SliceSort) {α : Type} (less : α → α → Bool) (l : List α)
    (h : l ≠ []) : α :=
  (S.sort less l).head (fun h0 => h ((h0 ▸ S.perm less l).nil_eq).symm)

/-- `ApplyRotationCorrection` applies a rotation correction to a component's position
and rotation.  The result is `none` when `fuel` does not cover `clampRotation`. -/
def ApplyRotationCorrection (F : FloatOps) (S : SliceSort)
    (rotationDB : List RotationCorrection) (fuel : Nat) (pkg : String)
    (x y rotation : ℚ) : Option (ℚ × ℚ × ℚ) :=
  let ms := rotationDB.filter (fun correction => correction.FootprintPattern.MatchString pkg)
  if h : 0 < ms.length then
    let correction := S.first (lengthGreater RotationCorrection.FootprintPattern) ms
      (List.ne_nil_of_length_pos h)
    let rotated := rotatePoint F (F.add x correction.CenterX) (F.add y correction.CenterY)
      x y rotation
    (clampRotation F fuel (F.add rotation correction.Rotation)).map
      (fun finalRotation => (rotated.1, rotated.2, finalRotation))
  else
    some (x, y, rotation)

/-! ## Example tables -/

/-- Two entries that both match `C_0603_1608Metric`, of pattern lengths 4 and 17. -/
def capacitorDB : List FootprintMapping :=
  [⟨literalPattern "0603", "Resistors", "0603"⟩,
   ⟨literalPattern "C_0603_1608Metric", "Capacitors", "0603"⟩]

/-- Thirteen entries that all match `C_0603_1608Metric`; the two longest patterns,
`0603` first and `1608` fourth, have the same length. -/
def tiedDB : List FootprintMapping :=
  [⟨literalPattern "0603", "first", "0603"⟩,
   ⟨literalPattern "C", "other", "C"⟩,
   ⟨literalPattern "_", "other", "_"⟩,
   ⟨literalPattern "1608", "fourth", "1608"⟩,
   ⟨literalPattern "0", "other", "0"⟩,
   ⟨literalPattern "6", "other", "6"⟩,
   ⟨literalPattern "3", "other", "3"⟩,
   ⟨literalPattern "1", "other", "1"⟩,
   ⟨literalPattern "8", "other", "8"⟩,
   ⟨literalPattern "M", "other", "M"⟩,
   ⟨literalPattern "e", "other", "e"⟩,
   ⟨literalPattern "t", "other", "t"⟩,
   ⟨literalPattern "r", "other", "r"⟩]

/-- The entry for `IDC-Header.*` (twelve characters; it matches the strings that
contain `IDC-Header`) with the payload the specification's scenario gives it: rotation
-90, centre (11.55, 1.25), as float64 values. -/
def idcHeaderEntry : RotationCorrection :=
  ⟨⟨literalRegexp "IDC-Header", 12⟩, -90, round64 (1155 / 100), 125 / 100⟩

/-- The table that holds just the entry for `IDC-Header.*`. -/
def idcHeaderDB : List RotationCorrection := [idcHeaderEntry]

/-- One entry, for `R_0603`, that moves the centre by half a unit along x. -/
def halfOffsetDB : List RotationCorrection :=
  [⟨literalPattern "R_0603", 0, 1 / 2, 0⟩]

/-- Two rotation entries of pattern length 12, `IDC-Header.*` and `.*Vertical.*`, that
both match `IDC-Header_2x10_P2.54mm_Vertical`. -/
def tiedRotationDB : List RotationCorrection :=
  [idcHeaderEntry, ⟨⟨literalRegexp "Vertical", 12⟩, 180, 0, 0⟩]

/-- The entry for `SOT-223.*` (nine characters): a half turn, no change of centre. -/
def sot223DB : List RotationCorrection :=
  [⟨⟨literalRegexp "SOT-223", 9⟩, 180, 0, 0⟩]

/-- A sorting routine keeps ties of `l` in place when, for every length, the entries of
that pattern length come out in the order they went in. -/
def SliceSort.KeepsTies (S : SliceSort) {α : Type} (pat : α → UnmarshallableRegexp)
    (l : List α) : Prop :=
  ∀ k : Nat, (S.sort (lengthGreater pat) l).filter (fun e => decide ((pat e).Length = k))
    = l.filter (fun e => decide ((pat e).Length = k))

/-- The position the specification states: the point (x + CenterX, y + CenterY) turned
about (x, y) by `rotation` degrees.  The cosine and sine are the values `math.Cos` and
`math.Sin` return at the float64 angle `rotation * (math.Pi / 180.0)`; the sums and
products are exact. -/
def specPosition (F : FloatOps) (c : RotationCorrection) (x y rotation : ℚ) : ℚ × ℚ :=
  let t := F.mul rotation F.radPerDeg
  (x + c.CenterX * F.Cos t - c.CenterY * F.Sin t,
   y + c.CenterX * F.Sin t + c.CenterY * F.Cos t)

/-- What `ApplyRotationCorrection` computes once `correction` has been selected. -/
def applyCorrection (F : FloatOps) (fuel : Nat) (correction : RotationCorrection)
    (x y rotation : ℚ) : Option (ℚ × ℚ × ℚ) :=
  let rotated := rotatePoint F (F.add x correction.CenterX) (F.add y correction.CenterY)
    x y rotation
  (clampRotation F fuel (F.add rotation correction.Rotation)).map
    (fun finalRotation => (rotated.1, rotated.2, finalRotation))

/-! ## The parts catalogue (`partsdb/partsdb.go`) -/

namespace partsdb

/-- `Part` represents a JLCPCB part; a row of the table `parts`. -/
structure Part where
  LCSC : Int
  CategoryID : Int
  Category : String
  Subcategory : String
  Mfr : String
  Package : String
  Joints : Int
  Manufacturer : String
  Basic : Int
  Preferred : Int
  Description : String
  Datasheet : String
  Stock : Int
  LastOnStock : Int
  Price : String
  Extra : String
  AssemblyProcess : String
  MinOrderQty : Int
  AttritionQty : Int
deriving DecidableEq

/-- A row of the virtual table `parts_fts`. -/
structure FtsRow where
  lcsc : Int
  description : String
  mfr : String
  manufacturer : String
  category : String
  subcategory : String
deriving DecidableEq

/-- The database behind `PartsDB`: the table `parts`, whose primary key is `lcsc`, and
the full-text table `parts_fts`. -/
structure PartsDB where
  parts : List Part
  parts_fts : List FtsRow

/-- The row the trigger `parts_ai` adds to `parts_fts` after an insert into `parts`. -/
def ftsRowOf (p : Part) : FtsRow :=
  ⟨p.LCSC, p.Description, p.Mfr, p.Manufacturer, p.Category, p.Subcategory⟩

/-- `INSERT OR IGNORE INTO parts (...) VALUES (...)` for one row: a row whose `lcsc` is
already a key of `parts` is skipped, and then no trigger runs; otherwise the row is
added and the trigger `parts_ai` adds its full-text row. -/
def insertOrIgnore (db : PartsDB) (p : Part) : PartsDB :=
  if db.parts.any (fun q => decide (q.LCSC = p.LCSC)) then db
  else ⟨db.parts ++ [p], db.parts_fts ++ [ftsRowOf p]⟩

/-- The insert step of `CreateFromCSV`: what `db.NamedExec(insertSQL, parts)` does to
the database, one row of the slice after the other. -/
def insertParts (db : PartsDB) (parts : List Part) : PartsDB :=
  parts.foldl insertOrIgnore db

/-- `Filter` represents a filter to apply to the search query. -/
structure Filter where
  Category : String
  Package : String

/-- A condition `Search` appends to the statement, with its argument:
`AND p.category = ?` or `AND p.package = ?`. -/
inductive Cond where
  | categoryEq (arg : String)
  | packageEq (arg : String)

/-- Whether a row of `parts` meets a condition (text equality). -/
def Cond.holds : Cond → Part → Bool
  | .categoryEq arg, p => decide (p.Category = arg)
  | .packageEq arg, p => decide (p.Package = arg)

/-- A term of the `ORDER BY` clause: `p.basic DESC` or `p.preferred DESC`. -/
inductive OrderTerm where
  | basicDesc
  | preferredDesc

/-- The column an `ORDER BY` term reads. -/
def OrderTerm.key : OrderTerm → Part → Int
  | .basicDesc, p => p.Basic
  | .preferredDesc, p => p.Preferred

/-- Whether `a` may come before `b` under the `ORDER BY` terms, each descending. -/
def mayPrecede : List OrderTerm → Part → Part → Bool
  | [], _, _ => true
  | t :: ts, a, b =>
    decide (t.key a > t.key b) || (decide (t.key a = t.key b) && mayPrecede ts a b)

/-- The statement `Search` builds:
`SELECT p.* FROM parts p JOIN parts_fts fts ON p.lcsc = fts.lcsc WHERE parts_fts MATCH ?`
followed by the conditions and the `ORDER BY` clause. -/
structure SelectQuery where
  matchArg : String
  conds : List Cond
  orderBy : List OrderTerm

/-- What SQLite contributes to a `SELECT`: the full-text `MATCH` of a query text (an
error for a malformed query) and the sort behind `ORDER BY`, which returns the rows
in some order that respects the terms. -/
structure SqlEngine where
  ftsMatch : String → Except String (FtsRow → Bool)
  sort : (Part → Part → Bool) → List Part → List Part
  sort_perm : ∀ (le : Part → Part → Bool) (l : List Part), (sort le l).Perm l
  sort_sorted : ∀ (le : Part → Part → Bool) (l : List Part),
    (∀ a b, le a b = true ∨ le b a = true) →
    (∀ a b c, le a b = true → le b c = true → le a c = true) →
    (sort le l).Pairwise (fun a b => le a b = true)

/-- The rows a statement selects: the join of `parts` with the matching rows of
`parts_fts` on `lcsc`, the conditions applied, in `ORDER BY` order. -/
def runSelect (E : SqlEngine) (db : PartsDB) (q : SelectQuery) : Except String (List Part) :=
  match E.ftsMatch q.matchArg with
  | .error err => .error err
  | .ok matchFts =>
    let joined := db.parts.flatMap (fun p =>
      (db.parts_fts.filter (fun fts => decide (p.LCSC = fts.lcsc) && matchFts fts)).map
        (fun _ => p))
    let kept := joined.filter (fun p => q.conds.all (fun c => c.holds p))
    .ok (E.sort (mayPrecede q.orderBy) kept)

/-- The body of the loop over the filters: the conditions one filter appends. -/
def appendFilterConds (conds : List Cond) (filter : Filter) : List Cond :=
  let conds := if filter.Category ≠ "" then conds ++ [Cond.categoryEq filter.Category]
    else conds
  if filter.Package ≠ "" then conds ++ [Cond.packageEq filter.Package] else conds

/-- The conditions the loop over the filters appends. -/
def filterConds (filters : List Filter) : List Cond :=
  filters.foldl appendFilterConds []

/-- `Search` searches the database for parts matching the query and filters. -/
def Search (E : SqlEngine) (pdb : PartsDB) (query : String) (filters : List Filter) :
    Except String (List Part) :=
  let selectSQL : SelectQuery :=
    ⟨query, filterConds filters, [OrderTerm.basicDesc, OrderTerm.preferredDesc]⟩
  match runSelect E pdb selectSQL with
  | .error err => .error ("could not search database: " ++ err)
  | .ok parts => .ok parts

/-- An engine for examples: a row matches when its description contains the query
text, and rows are sorted by insertion. -/
def exampleEngine : SqlEngine where
  ftsMatch query := .ok (fun fts => (literalRegexp query).MatchString fts.description)
  sort le l := l.insertionSort (fun a b => le a b = true)
  sort_perm le l := List.perm_insertionSort _ l
  sort_sorted le l htotal htrans := by
    have : IsTotal Part (fun a b => le a b = true) := ⟨htotal⟩
    have : IsTrans Part (fun a b => le a b = true) := ⟨htrans⟩
    exact List.sorted_insertionSort _ l

/-- A capacitor with the given key, package and flags. -/
def capacitor (lcsc : Int) (package : String) (basic preferred : Int) : Part :=
  { LCSC := lcsc, CategoryID := 1, Category := "Capacitors",
    Subcategory := "Multilayer Ceramic Capacitors MLCC - SMD/SMT", Mfr := "",
    Package := package, Joints := 2, Manufacturer := "", Basic := basic,
    Preferred := preferred, Description := "100nF 50V X7R", Datasheet := "", Stock := 0,
    LastOnStock := 0, Price := "", Extra := "", AssemblyProcess := "", MinOrderQty := 0,
    AttritionQty := 0 }

/-- Three capacitors to load. -/
def exampleParts : List Part :=
  [capacitor 14663 "0603" 1 0, capacitor 49678 "0805" 0 1, capacitor 28233 "0805" 1 0]

/-- The database that holds the three capacitors. -/
def exampleDB : PartsDB := insertParts ⟨[], []⟩ exampleParts

end partsdb

/-! ## Loading a pattern (`UnmarshalText`, `jlcpcb/package.go`) -/

/-- The receiver of `UnmarshalText` after the call, and the error the call returns.
The regexp is absent (a nil pointer) when `regexp.Compile` failed. -/
structure UnmarshalTextResult where
  Regexp : Option Jlcfabtool.Regexp
  Length : Nat
  err : Option String

/-- `UnmarshalText` compiles the text and records `len(text)`, the number of bytes of
the text.  `regexp.Compile` is a library routine and stays a parameter. -/
def UnmarshallableRegexp.UnmarshalText (compile : String → Except String Jlcfabtool.Regexp)
    (text : String) : UnmarshalTextResult :=
  match compile text with
  | .ok re => ⟨some re, text.utf8ByteSize, none⟩
  | .error err => ⟨none, text.utf8ByteSize, some err⟩

/-- `UnmarshalText` as the record decoder sees it: the error, or the value the field
holds afterwards. -/
def UnmarshallableRegexp.decode (compile : String → Except String Jlcfabtool.Regexp)
    (text : String) : Except String UnmarshallableRegexp :=
  match compile text with
  | .ok re => .ok ⟨re, text.utf8ByteSize⟩
  | .error err => .error err

/-- Whether `text` occurs in `msg`. -/
def occursIn (text msg : String) : Bool :=
  msg.toList.tails.any (fun t => text.toList.isPrefixOf t)

/-! ## The record decoder (`csvx/unmarshal.go`) -/

namespace csvx

/-- The library routines `Unmarshal` calls on text: `strings.ToLower`,
`strconv.ParseInt(s, 10, 64)`, `strconv.ParseUint(s, 10, 64)`,
`strconv.ParseFloat(s, 64)` and `strconv.ParseBool`; `none` stands for an error. -/
structure Strconv where
  ToLower : String → String
  ParseInt : String → Option Int
  ParseUint : String → Option Nat
  ParseFloat : String → Option ℚ
  ParseBool : String → Option Bool

/-- The kinds of field the `switch field.Kind()` tells apart: the string kind; the
signed integer kinds `int`, `int8`, `int16`, `int32`, `int64`, given by their width in
bits (`int` has the width of the platform, 64 here); the unsigned integer kinds and the
float kinds `float32`, `float64`, likewise; the boolean kind; and every other kind. -/
inductive Kind where
  | String
  | Int (bits : Nat)
  | Uint (bits : Nat)
  | Float (bits : Nat)
  | Bool
  | Other
deriving DecidableEq

/-- What reflection tells `Unmarshal` about a field of the record type: its name, its
`csv` tag, its kind, and its `UnmarshalText` when its address implements
`encoding.TextUnmarshaler`.  Values decoded from text have type `τ`. -/
structure StructField (τ : Type) where
  Name : String
  Tag : String
  Kind : Kind
  UnmarshalText : Option (String → Except String τ)

/-- The value of a field of a decoded record; `zero` is the untouched zero value, and
`float bits x` is what a float field of that width holds after `SetFloat(x)`, the
float64 `x` converted to the width of the field. -/
inductive Value (τ : Type) where
  | zero
  | string (s : String)
  | int (i : Int)
  | uint (n : Nat)
  | float (bits : Nat) (x : ℚ)
  | bool (b : Bool)
  | text (v : τ)

/-- What `reflect.Value.SetInt(x)` stores in a signed integer field of `bits` bits: the
`int64` converted to the type of the field, that is its low `bits` bits read in two's
complement.  There is no range check. -/
def truncInt (bits : Nat) (x : Int) : Int :=
  (x + 2 ^ (bits - 1)) % 2 ^ bits - 2 ^ (bits - 1)

/-- What `reflect.Value.SetUint(x)` stores in an unsigned field of `bits` bits: the low
`bits` bits of the `uint64`. -/
def truncUint (bits : Nat) (x : Nat) : Nat :=
  x % 2 ^ bits

/-- A cell the code rejects for a field: the field's own `UnmarshalText` returns an
error for it, or the cell is not empty and the parser the code calls for the kind of
the field, always with bit size 64, returns an error. -/
def rejects {τ : Type} (L : Strconv) (field : StructField τ) (rawValue : String) : Prop :=
  match field.UnmarshalText with
  | some unmarshalText => ∃ err, unmarshalText rawValue = .error err
  | none => rawValue ≠ "" ∧
      ((∃ bits, field.Kind = Kind.Int bits ∧ L.ParseInt rawValue = none) ∨
       (∃ bits, field.Kind = Kind.Uint bits ∧ L.ParseUint rawValue = none) ∨
       (∃ bits, field.Kind = Kind.Float bits ∧ L.ParseFloat rawValue = none) ∨
       (field.Kind = Kind.Bool ∧ L.ParseBool (L.ToLower rawValue) = none))

/-- Two descriptions of a record type that differ at most in the letter case of the
tags. -/
def sameUpToTagCase {τ : Type} (L : Strconv) (f f' : StructField τ) : Prop :=
  f'.Name = f.Name ∧ f'.Kind = f.Kind ∧ f'.UnmarshalText = f.UnmarshalText ∧
  L.ToLower f'.Tag = L.ToLower f.Tag ∧ (f'.Tag = "" ↔ f.Tag = "")

/-- The loop that fills `headerMap`, from column `i` on: a later column with the same
lowercased header replaces an earlier one. -/
def headerMapFrom (L : Strconv) : Nat → List String → (String → Option Nat) →
    String → Option Nat
  | _, [], m => m
  | i, h :: hs, m => headerMapFrom L (i + 1) hs (fun k => if k = L.ToLower h then some i else m k)

/-- `headerMap`: from the lowercased header to the index of its column. -/
def headerMap (L : Strconv) (headers : List String) : String → Option Nat :=
  headerMapFrom L 0 headers (fun _ => none)

/-- The body of the loop over the fields: the value one field gets from a record, or
the error that ends `Unmarshal`. -/
def unmarshalField {τ : Type} (L : Strconv) (hm : String → Option Nat) (record : List String)
    (field : StructField τ) : Except String (Value τ) :=
  if field.Tag = "" then .ok .zero
  else
    match hm (L.ToLower field.Tag) with
    | none => .ok .zero
    | some colIdx =>
      let rawValue := record.getD colIdx ""
      match field.UnmarshalText with
      | some unmarshalText =>
        match unmarshalText rawValue with
        | .error err => .error ("failed to unmarshal field " ++ field.Name ++ ": " ++ err)
        | .ok v => .ok (.text v)
      | none =>
        if rawValue = "" then .ok .zero
        else
          match field.Kind with
          | .String => .ok (.string rawValue)
          | .Int bits =>
            match L.ParseInt rawValue with
            | some intValue => .ok (.int (truncInt bits intValue))
            | none => .error ("invalid int for field " ++ field.Name ++ ": " ++ rawValue)
          | .Uint bits =>
            match L.ParseUint rawValue with
            | some uintValue => .ok (.uint (truncUint bits uintValue))
            | none => .error ("invalid uint for field " ++ field.Name ++ ": " ++ rawValue)
          | .Float bits =>
            match L.ParseFloat rawValue with
            | some floatValue => .ok (.float bits floatValue)
            | none => .error ("invalid float for field " ++ field.Name ++ ": " ++ rawValue)
          | .Bool =>
            match L.ParseBool (L.ToLower rawValue) with
            | some boolValue => .ok (.bool boolValue)
            | none => .error ("invalid bool for field " ++ field.Name ++ ": " ++ rawValue)
          | .Other => .error ("unsupported field type: " ++ field.Name)

/-- The loop over the fields of one record: the values of the fields in order, or the
first error. -/
def unmarshalFields {τ : Type} (L : Strconv) (hm : String → Option Nat)
    (record : List String) : List (StructField τ) → Except String (List (Value τ))
  | [] => .ok []
  | field :: fields =>
    match unmarshalField L hm record field with
    | .error err => .error err
    | .ok v =>
      match unmarshalFields L hm record fields with
      | .error err => .error err
      | .ok vs => .ok (v :: vs)

/-- `reader.Read()` after the header: the reader passes on a record that has as many
fields as the header, and reports any other, like a line it cannot parse, as an
error. -/
def readRecord (fieldsPerRecord : Nat) (line : Except String (List String)) :
    Except String (List String) :=
  match line with
  | .error err => .error err
  | .ok record =>
    if record.length = fieldsPerRecord then .ok record
    else .error "wrong number of fields"

/-- The loop over the rows: every record decoded and appended to `results`, or the
first error, with which nothing is returned. -/
def unmarshalRows {τ : Type} (L : Strconv) (fields : List (StructField τ))
    (hm : String → Option Nat) (fieldsPerRecord : Nat) :
    List (Except String (List String)) → List (List (Value τ)) →
      Except String (List (List (Value τ)))
  | [], results => .ok results
  | line :: rest, results =>
    match readRecord fieldsPerRecord line with
    | .error err => .error ("failed to read CSV row: " ++ err)
    | .ok record =>
      match unmarshalFields L hm record fields with
      | .error err => .error err
      | .ok item => unmarshalRows L fields hm fieldsPerRecord rest (results ++ [item])

/-- `Unmarshal` reads a CSV file and unmarshals it into a slice of structs.  The input
is what the CSV reader makes of the file, line by line (comments dropped): the fields
of the line, or the error for a line it cannot parse; the first line is the header.
The result is the slice, or the error, with which the slice returned is nil. -/
def Unmarshal {τ : Type} (L : Strconv) (fields : List (StructField τ))
    (input : List (Except String (List String))) : Except String (List (List (Value τ))) :=
  match input with
  | [] => .error ("failed to read CSV header: " ++ "EOF")
  | .error err :: _ => .error ("failed to read CSV header: " ++ err)
  | .ok headers :: rows =>
    unmarshalRows L fields (headerMap L headers) headers.length rows []

/-- The number a non-empty run of decimal digits denotes. -/
def parseDigits (cs : List Char) : Option Nat :=
  if cs = [] then none
  else cs.foldl (fun acc c =>
    acc.bind (fun n => if c.isDigit then some (10 * n + (c.toNat - 48)) else none)) (some 0)

/-- A decimal integer with an optional sign. -/
def parseSigned (cs : List Char) : Option Int :=
  match cs with
  | '-' :: ds => (parseDigits ds).map (fun n => -(n : Int))
  | '+' :: ds => (parseDigits ds).map (fun n => (n : Int))
  | ds => (parseDigits ds).map (fun n => (n : Int))

/-- A stand-in for the library on plain ASCII text: letters A to Z are lowered,
integers are decimal and within 64 bits, floats are written as integers. -/
def asciiStrconv : Strconv where
  ToLower s := String.mk (s.toList.map Char.toLower)
  ParseInt s := (parseSigned s.toList).bind (fun i =>
    if -(2 : Int) ^ 63 ≤ i ∧ i < 2 ^ 63 then some i else none)
  ParseUint s := (parseDigits s.toList).bind (fun n => if n < 2 ^ 64 then some n else none)
  ParseFloat s := (parseSigned s.toList).map (fun i => (i : ℚ))
  ParseBool s :=
    if s = "1" ∨ s = "t" ∨ s = "true" then some true
    else if s = "0" ∨ s = "f" ∨ s = "false" then some false
    else none

/-- The fields of `FootprintMapping` as `Unmarshal` sees them. -/
def footprintMappingFields (compile : String → Except String Regexp) :
    List (StructField UnmarshallableRegexp) :=
  [⟨"FootprintPattern", "Footprint pattern", Kind.Other,
      some (UnmarshallableRegexp.decode compile)⟩,
   ⟨"Category", "LCSC Category", Kind.String, none⟩,
   ⟨"Package", "LCSC Package", Kind.String, none⟩]

/-- A stand-in for `regexp.Compile`: a text with `(` is rejected, any other is taken
literally. -/
def compileLiteral (text : String) : Except String Regexp :=
  if '(' ∈ text.toList then .error ("error parsing regexp: missing closing ): " ++ text)
  else .ok (literalRegexp text)

/-- The fields of the record type `Person` of the decoder's test; `Birthdate` decodes
itself from text (kept as the text here). -/
def personFields : List (StructField String) :=
  [⟨"Name", "name", Kind.String, none⟩,
   ⟨"Age", "age", Kind.Int 64, none⟩,
   ⟨"Birthdate", "birthdate", Kind.Other, some (fun text => .ok text)⟩,
   ⟨"Active", "active", Kind.Bool, none⟩]

/-- The CSV text of the decoder's test, line by line. -/
def personInput : List (Except String (List String)) :=
  [.ok ["Name", "Age", "Birthdate", "Active"],
   .ok ["John Doe", "30", "1994-06-15T00:00:00Z", "true"],
   .ok ["Jane Smith", "25", "1998-09-10T00:00:00Z", "false"]]

/-- A field that decodes itself from text and rejects every text without quoting
it. -/
def rejectingField : StructField String :=
  ⟨"Birthdate", "birthdate", Kind.Other, some (fun _ => .error "cannot parse")⟩

/-- A field of `Part` whose column header differs from its name. -/
def minOrderQtyField : StructField String :=
  ⟨"MinOrderQty", "Min Order Qty", Kind.Int 64, none⟩

/-- A field of type `int8`, tagged `level`. -/
def levelField : StructField String :=
  ⟨"Level", "level", Kind.Int 8, none⟩

end csvx

/-! ## The best match -/

theorem SliceSort.head_mem_and_longest (S : SliceSort) {α : Type}
    (pat : α → UnmarshallableRegexp) (l : List α) (m : α) (t : List α)
    (h : S.sort (lengthGreater pat) l = m :: t) :
    m ∈ l ∧ ∀ b ∈ l, (pat b).Length ≤ (pat m).Length := by
  have hperm := S.perm (lengthGreater pat) l
  have hsorted := S.sorted pat l
  rw [h] at hperm hsorted
  refine ⟨hperm.subset (List.mem_cons_self m t), fun b hb => ?_⟩
  rcases List.mem_cons.mp (hperm.symm.subset hb) with rfl | hbt
  · exact le_rfl
  · have := List.rel_of_pairwise_cons hsorted hbt
    simpa [lengthGreater] using this

theorem SliceSort.sort_eq_nil_iff (S : SliceSort) {α : Type} (less : α → α → Bool)
    (l : List α) : S.sort less l = [] ↔ l = [] := by
  constructor
  · intro h
    have := S.perm less l
    rw [h] at this
    exact this.nil_eq.symm
  · rintro rfl
    exact (S.perm less []).eq_nil

theorem SliceSort.first_spec (S : SliceSort) {α : Type} (less : α → α → Bool)
    (l : List α) (h : l ≠ []) : ∃ t, S.sort less l = S.first less l h :: t := by
  unfold SliceSort.first
  have hne : S.sort less l ≠ [] := fun h0 => h ((S.sort_eq_nil_iff less l).mp h0)
  exact ⟨(S.sort less l).tail, (List.head_cons_tail _ hne).symm⟩

/-- C1. When some table entry matches the footprint (after the library prefix is
removed), `FromKiCadFootprint` returns the category and package of a matching entry
whose pattern length is at least that of every matching entry. -/
theorem FromKiCadFootprint_longest_match (S : SliceSort) (footprintDB : List FootprintMapping)
    (footprint : String)
    (h : ∃ e ∈ footprintDB,
      e.FootprintPattern.MatchString (removeLibraryPrefix footprint) = true) :
    ∃ m ∈ footprintDB,
      m.FootprintPattern.MatchString (removeLibraryPrefix footprint) = true ∧
      FromKiCadFootprint S footprintDB footprint = (m.Category, m.Package) ∧
      ∀ e ∈ footprintDB,
        e.FootprintPattern.MatchString (removeLibraryPrefix footprint) = true →
        e.FootprintPattern.Length ≤ m.FootprintPattern.Length := by
  obtain ⟨e, he, hm⟩ := h
  set ms := footprintDB.filter
    (fun mapping => mapping.FootprintPattern.MatchString (removeLibraryPrefix footprint))
    with hms
  have hne : ms ≠ [] := List.ne_nil_of_mem (List.mem_filter.mpr ⟨he, hm⟩)
  obtain ⟨t, ht⟩ := S.first_spec (lengthGreater FootprintMapping.FootprintPattern) ms hne
  obtain ⟨hmem, hmax⟩ := S.head_mem_and_longest _ ms _ t ht
  obtain ⟨hdb, hmatch⟩ := List.mem_filter.mp hmem
  refine ⟨_, hdb, hmatch, ?_, fun e' he' hm' => hmax e' (List.mem_filter.mpr ⟨he', hm'⟩)⟩
  simp only [FromKiCadFootprint, ← hms, ht]

/-- The hypothesis of C1 holds for `Capacitor_SMD:C_0603_1608Metric` and the
two-entry table, and every sorting routine then returns the payload of the
length-17 entry. -/
theorem FromKiCadFootprint_longest_match_witness :
    (∃ e ∈ capacitorDB, e.FootprintPattern.MatchString
      (removeLibraryPrefix "Capacitor_SMD:C_0603_1608Metric") = true) ∧
    ∀ S : SliceSort,
      FromKiCadFootprint S capacitorDB "Capacitor_SMD:C_0603_1608Metric"
        = ("Capacitors", "0603") := by
  have h : ∃ e ∈ capacitorDB, e.FootprintPattern.MatchString
      (removeLibraryPrefix "Capacitor_SMD:C_0603_1608Metric") = true :=
    ⟨⟨literalPattern "0603", "Resistors", "0603"⟩, List.mem_cons_self _ _, by decide⟩
  refine ⟨h, fun S => ?_⟩
  obtain ⟨m, hm, -, hres, hmax⟩ :=
    FromKiCadFootprint_longest_match S capacitorDB "Capacitor_SMD:C_0603_1608Metric" h
  have h17 := hmax ⟨literalPattern "C_0603_1608Metric", "Capacitors", "0603"⟩
    (List.mem_cons_of_mem _ (List.mem_cons_self _ _)) (by decide)
  rw [hres]
  simp only [capacitorDB, List.mem_cons, List.mem_singleton, List.not_mem_nil,
    or_false] at hm
  rcases hm with rfl | rfl
  · exact absurd h17 (by decide)
  · rfl

/-- C2. When no table entry matches the footprint (after the library prefix is
removed), `FromKiCadFootprint` returns the pair of empty strings. -/
theorem FromKiCadFootprint_no_match (S : SliceSort) (footprintDB : List FootprintMapping)
    (footprint : String)
    (h : ∀ e ∈ footprintDB,
      e.FootprintPattern.MatchString (removeLibraryPrefix footprint) = false) :
    FromKiCadFootprint S footprintDB footprint = ("", "") := by
  have hms : footprintDB.filter
      (fun mapping => mapping.FootprintPattern.MatchString (removeLibraryPrefix footprint))
      = [] := by
    rw [List.filter_eq_nil_iff]
    intro e he
    simp [h e he]
  simp only [FromKiCadFootprint, hms, (S.sort_eq_nil_iff _ []).mpr rfl]

/-- The hypothesis of C2 holds for `Unknown_Footprint` and the two-entry table. -/
theorem FromKiCadFootprint_no_match_witness :
    (∀ e ∈ capacitorDB,
      e.FootprintPattern.MatchString (removeLibraryPrefix "Unknown_Footprint") = false) ∧
    FromKiCadFootprint insertionSortSlice capacitorDB "Unknown_Footprint" = ("", "") :=
  have h : ∀ e ∈ capacitorDB,
      e.FootprintPattern.MatchString (removeLibraryPrefix "Unknown_Footprint") = false := by
    decide
  ⟨h, FromKiCadFootprint_no_match insertionSortSlice capacitorDB "Unknown_Footprint" h⟩

/-! ## Placement correction: which entry is applied -/

theorem ApplyRotationCorrection_eq_applyCorrection (F : FloatOps) (S : SliceSort)
    (rotationDB : List RotationCorrection) (pkg : String) (x y rotation : ℚ)
    (h : ∃ c ∈ rotationDB, c.FootprintPattern.MatchString pkg = true) :
    ∃ c ∈ rotationDB, c.FootprintPattern.MatchString pkg = true ∧
      (∀ e ∈ rotationDB, e.FootprintPattern.MatchString pkg = true →
        e.FootprintPattern.Length ≤ c.FootprintPattern.Length) ∧
      (∃ t, S.sort (lengthGreater RotationCorrection.FootprintPattern)
        (rotationDB.filter (fun e => e.FootprintPattern.MatchString pkg)) = c :: t) ∧
      ∀ fuel, ApplyRotationCorrection F S rotationDB fuel pkg x y rotation
        = applyCorrection F fuel c x y rotation := by
  obtain ⟨e, he, hm⟩ := h
  set ms := rotationDB.filter (fun e => e.FootprintPattern.MatchString pkg) with hms
  have hmem : e ∈ ms := List.mem_filter.mpr ⟨he, hm⟩
  have hpos : 0 < ms.length := List.length_pos_of_mem hmem
  obtain ⟨t, ht⟩ := S.first_spec (lengthGreater RotationCorrection.FootprintPattern) ms
    (List.ne_nil_of_length_pos hpos)
  obtain ⟨hmem', hmax⟩ := S.head_mem_and_longest _ ms _ t ht
  obtain ⟨hdb, hmatch⟩ := List.mem_filter.mp hmem'
  refine ⟨_, hdb, hmatch, fun e' he' hm' => hmax e' (List.mem_filter.mpr ⟨he', hm'⟩),
    ⟨t, ht⟩, fun fuel' => ?_⟩
  simp only [ApplyRotationCorrection, ← hms, hpos, dite_true, applyCorrection]

theorem ApplyRotationCorrection_of_no_match (F : FloatOps) (S : SliceSort)
    (rotationDB : List RotationCorrection) (fuel : Nat) (pkg : String) (x y rotation : ℚ)
    (h : ∀ c ∈ rotationDB, c.FootprintPattern.MatchString pkg = false) :
    ApplyRotationCorrection F S rotationDB fuel pkg x y rotation = some (x, y, rotation) := by
  have hms : rotationDB.filter (fun c => c.FootprintPattern.MatchString pkg) = [] := by
    rw [List.filter_eq_nil_iff]
    intro c hc
    simp [h c hc]
  simp [ApplyRotationCorrection, hms]

theorem ApplyRotationCorrection_of_sort_eq (F : FloatOps) (S : SliceSort)
    (rotationDB : List RotationCorrection) (fuel : Nat) (pkg : String) (x y rotation : ℚ)
    (c : RotationCorrection) (t : List RotationCorrection)
    (hbest : S.sort (lengthGreater RotationCorrection.FootprintPattern)
      (rotationDB.filter (fun e => e.FootprintPattern.MatchString pkg)) = c :: t) :
    ApplyRotationCorrection F S rotationDB fuel pkg x y rotation
      = applyCorrection F fuel c x y rotation := by
  have hne : rotationDB.filter (fun e => e.FootprintPattern.MatchString pkg) ≠ [] := by
    intro h0
    rw [(S.sort_eq_nil_iff _ _).mpr h0] at hbest
    exact List.noConfusion hbest
  have hpos : 0 < (rotationDB.filter
      (fun e => e.FootprintPattern.MatchString pkg)).length := List.length_pos.mpr hne
  simp only [ApplyRotationCorrection, hpos, dite_true, applyCorrection, SliceSort.first,
    hbest, List.head_cons]

/-- C3. When no entry of the rotation table matches the package,
`ApplyRotationCorrection` returns x, y and rotation unchanged, whatever the fuel. -/
theorem ApplyRotationCorrection_no_match (F : FloatOps) (S : SliceSort)
    (rotationDB : List RotationCorrection) (fuel : Nat) (pkg : String) (x y rotation : ℚ)
    (h : ∀ c ∈ rotationDB, c.FootprintPattern.MatchString pkg = false) :
    ApplyRotationCorrection F S rotationDB fuel pkg x y rotation = some (x, y, rotation) := by
  have hms : rotationDB.filter (fun c => c.FootprintPattern.MatchString pkg) = [] := by
    rw [List.filter_eq_nil_iff]
    intro c hc
    rw [h c hc]
    exact Bool.false_ne_true
  have hlen : ¬ 0 < (rotationDB.filter
      (fun c => c.FootprintPattern.MatchString pkg)).length := by
    rw [hms]
    exact Nat.lt_irrefl 0
  unfold ApplyRotationCorrection
  simp only [hlen, dite_false]

/-- The hypothesis of C3 holds for `SOT-223-3_TabPin2` and the one-entry table. -/
theorem ApplyRotationCorrection_no_match_witness :
    (∀ c ∈ idcHeaderDB, c.FootprintPattern.MatchString "SOT-223-3_TabPin2" = false) ∧
    ApplyRotationCorrection (binary64 (fun _ => 0) (fun _ => 1)) insertionSortSlice
      idcHeaderDB 0 "SOT-223-3_TabPin2" (55042 / 1000) (-13589 / 100) 0
      = some (55042 / 1000, -13589 / 100, 0) :=
  have h : ∀ c ∈ idcHeaderDB, c.FootprintPattern.MatchString "SOT-223-3_TabPin2" = false := by
    decide
  ⟨h, ApplyRotationCorrection_no_match _ _ idcHeaderDB 0 "SOT-223-3_TabPin2" _ _ 0 h⟩

/-! ## Ties between patterns of the same length -/

theorem SliceSort.head_eq_first_longest (S : SliceSort) {α : Type}
    (pat : α → UnmarshallableRegexp) (p : α → Bool) (table pre post : List α) (m : α)
    (htable : table = pre ++ m :: post) (hm : p m = true)
    (hmax : ∀ e ∈ table, p e = true → (pat e).Length ≤ (pat m).Length)
    (hpre : ∀ e ∈ pre, p e = true → (pat e).Length ≠ (pat m).Length)
    (hties : S.KeepsTies pat (table.filter p)) :
    ∃ t, S.sort (lengthGreater pat) (table.filter p) = m :: t := by
  have hmem : m ∈ table.filter p :=
    List.mem_filter.mpr ⟨by rw [htable]; simp, hm⟩
  obtain ⟨t, ht⟩ := S.first_spec (lengthGreater pat) _ (List.ne_nil_of_mem hmem)
  obtain ⟨hfirst, hlong⟩ := S.head_mem_and_longest pat _ _ t ht
  set f := S.first (lengthGreater pat) (table.filter p) (List.ne_nil_of_mem hmem) with hf
  have hlen : (pat f).Length = (pat m).Length :=
    le_antisymm (hmax f (List.mem_filter.mp hfirst).1 (List.mem_filter.mp hfirst).2)
      (hlong m hmem)
  have hk := hties (pat m).Length
  have hprenil : (pre.filter p).filter (fun e => decide ((pat e).Length = (pat m).Length))
      = [] := by
    rw [List.filter_eq_nil_iff]
    intro e he
    obtain ⟨he1, he2⟩ := List.mem_filter.mp he
    simpa using hpre e he1 he2
  rw [ht, htable, List.filter_append, List.filter_cons_of_pos hm, List.filter_append,
    hprenil, List.nil_append, List.filter_cons_of_pos (by simpa using hlen),
    List.filter_cons_of_pos (by simp)] at hk
  exact ⟨t, by rw [ht, (List.cons.inj hk).1]⟩

theorem insertionSortSlice_keepsTies {α : Type} (pat : α → UnmarshallableRegexp)
    (l : List α) : insertionSortSlice.KeepsTies pat l := by
  intro k
  set q : α → Bool := fun e => decide ((pat e).Length = k) with hq
  have hpw : (l.filter q).Pairwise (fun a b => lengthGreater pat b a = false) := by
    rw [List.pairwise_iff_forall_sublist]
    intro a b hab
    have ha : a ∈ l.filter q := hab.subset (by simp)
    have hb : b ∈ l.filter q := hab.subset (by simp)
    have ha' := (List.mem_filter.mp ha).2
    have hb' := (List.mem_filter.mp hb).2
    simp only [hq, decide_eq_true_eq] at ha' hb'
    simp [lengthGreater, ha', hb']
  have hsub : List.Sublist (l.filter q) (insertionSortSlice.sort (lengthGreater pat) l) :=
    List.sublist_insertionSort hpw (List.filter_sublist l)
  have hsub' : List.Sublist (l.filter q)
      ((insertionSortSlice.sort (lengthGreater pat) l).filter q) := by
    have := hsub.filter q
    simpa only [List.filter_filter, Bool.and_self] using this
  have hlen : ((insertionSortSlice.sort (lengthGreater pat) l).filter q).length
      = (l.filter q).length :=
    ((insertionSortSlice.perm (lengthGreater pat) l).filter q).length_eq
  exact (hsub'.eq_of_length hlen.symm).symm

/-- C10, the case the code settles.  Let `m` be the first entry of the table that
matches and has the greatest pattern length.  When the sorting routine keeps entries
of equal pattern length in load order, `FromKiCadFootprint` returns the payload of `m`
and `ApplyRotationCorrection` applies `m`. -/
theorem first_longest_match_of_keepsTies (S : SliceSort) (F : FloatOps)
    (footprintDB pre post : List FootprintMapping) (m : FootprintMapping)
    (rotationDB rpre rpost : List RotationCorrection) (c : RotationCorrection)
    (footprint pkg : String) (fuel : Nat) (x y rotation : ℚ)
    (hdb : footprintDB = pre ++ m :: post)
    (hm : m.FootprintPattern.MatchString (removeLibraryPrefix footprint) = true)
    (hmax : ∀ e ∈ footprintDB,
      e.FootprintPattern.MatchString (removeLibraryPrefix footprint) = true →
      e.FootprintPattern.Length ≤ m.FootprintPattern.Length)
    (hpre : ∀ e ∈ pre, e.FootprintPattern.MatchString (removeLibraryPrefix footprint) = true →
      e.FootprintPattern.Length ≠ m.FootprintPattern.Length)
    (hties : S.KeepsTies FootprintMapping.FootprintPattern (footprintDB.filter
      (fun e => e.FootprintPattern.MatchString (removeLibraryPrefix footprint))))
    (hrdb : rotationDB = rpre ++ c :: rpost)
    (hc : c.FootprintPattern.MatchString pkg = true)
    (hcmax : ∀ e ∈ rotationDB, e.FootprintPattern.MatchString pkg = true →
      e.FootprintPattern.Length ≤ c.FootprintPattern.Length)
    (hrpre : ∀ e ∈ rpre, e.FootprintPattern.MatchString pkg = true →
      e.FootprintPattern.Length ≠ c.FootprintPattern.Length)
    (hrties : S.KeepsTies RotationCorrection.FootprintPattern (rotationDB.filter
      (fun e => e.FootprintPattern.MatchString pkg))) :
    FromKiCadFootprint S footprintDB footprint = (m.Category, m.Package) ∧
    ApplyRotationCorrection F S rotationDB fuel pkg x y rotation
      = applyCorrection F fuel c x y rotation := by
  constructor
  · obtain ⟨t, ht⟩ := S.head_eq_first_longest FootprintMapping.FootprintPattern _
      footprintDB pre post m hdb hm hmax hpre hties
    simp only [FromKiCadFootprint, ht]
  · obtain ⟨t, ht⟩ := S.head_eq_first_longest RotationCorrection.FootprintPattern _
      rotationDB rpre rpost c hrdb hc hcmax hrpre hrties
    have hpos : 0 < (rotationDB.filter
        (fun e => e.FootprintPattern.MatchString pkg)).length :=
      List.length_pos_of_mem (List.mem_filter.mpr ⟨by rw [hrdb]; simp, hc⟩)
    simp only [ApplyRotationCorrection, hpos, dite_true, applyCorrection,
      SliceSort.first, ht, List.head_cons]

/-- The hypotheses of the tie-break theorem hold for insertion sort, the thirteen-entry
table and the two-entry rotation table: the first of the tied entries is selected. -/
theorem first_longest_match_of_keepsTies_witness :
    FromKiCadFootprint insertionSortSlice tiedDB "C_0603_1608Metric" = ("first", "0603") ∧
    ApplyRotationCorrection (binary64 (fun _ => 0) (fun _ => 1)) insertionSortSlice
      tiedRotationDB 2 "IDC-Header_2x10_P2.54mm_Vertical" 1 2 90
      = applyCorrection (binary64 (fun _ => 0) (fun _ => 1)) 2 idcHeaderEntry 1 2 90 :=
  first_longest_match_of_keepsTies insertionSortSlice (binary64 (fun _ => 0) (fun _ => 1))
    tiedDB [] tiedDB.tail ⟨literalPattern "0603", "first", "0603"⟩
    tiedRotationDB [] tiedRotationDB.tail idcHeaderEntry
    "C_0603_1608Metric" "IDC-Header_2x10_P2.54mm_Vertical" 2 1 2 90
    rfl (by decide) (by decide) (by simp) (insertionSortSlice_keepsTies _ _)
    rfl (by decide) (by decide) (by simp) (insertionSortSlice_keepsTies _ _)

/-- C10 fails: on the thirteen-entry table the routine that sorts the reversed slice,
which is within what `sort.Slice` promises, makes `FromKiCadFootprint` return the
fourth entry although the first has the same pattern length; insertion sort returns
the first. -/
theorem tie_break_depends_on_sort :
    FromKiCadFootprint reversingSortSlice tiedDB "C_0603_1608Metric" = ("fourth", "1608") ∧
    FromKiCadFootprint insertionSortSlice tiedDB "C_0603_1608Metric" = ("first", "0603") := by
  constructor <;> decide

/-! ## Rounding -/

theorem roundHalfEven_eq_of_lt (y : ℚ) (n : ℤ) (h1 : (n : ℚ) - 1 / 2 < y)
    (h2 : y < (n : ℚ) + 1 / 2) : roundHalfEven y = n := by
  have hfl := Int.floor_le y
  have hlt := Int.lt_floor_add_one y
  have hcases : ⌊y⌋ = n ∨ ⌊y⌋ = n - 1 := by
    have h3 : (⌊y⌋ : ℚ) < (n : ℚ) + 1 := by linarith
    have h4 : (n : ℚ) - 2 < (⌊y⌋ : ℚ) := by linarith
    have h3' : ⌊y⌋ < n + 1 := by exact_mod_cast h3
    have h4' : n - 2 < ⌊y⌋ := by exact_mod_cast h4
    omega
  unfold roundHalfEven
  rcases hcases with h | h
  · have hr : y - ((n : ℤ) : ℚ) < 1 / 2 := by linarith
    simp only [h]
    rw [if_pos hr]
  · have hn : ((n - 1 : ℤ) : ℚ) = (n : ℚ) - 1 := by push_cast; ring
    have hr : ¬ y - ((n - 1 : ℤ) : ℚ) < 1 / 2 := by rw [hn]; linarith
    have hr' : 1 / 2 < y - ((n - 1 : ℤ) : ℚ) := by rw [hn]; linarith
    simp only [h]
    rw [if_neg hr, if_pos hr']
    omega

theorem abs_roundHalfEven_sub_le (y : ℚ) : |(roundHalfEven y : ℚ) - y| ≤ 1 / 2 := by
  have hfl := Int.floor_le y
  have hlt := Int.lt_floor_add_one y
  unfold roundHalfEven
  simp only
  split_ifs with h1 h2 h3
  · rw [abs_le]; constructor <;> linarith
  · rw [abs_le]; push_cast; constructor <;> linarith
  · rw [abs_le]; constructor <;> linarith
  · rw [abs_le]; push_cast; constructor <;> linarith

theorem roundHalfEven_nonneg (y : ℚ) (h : 0 ≤ y) : 0 ≤ roundHalfEven y := by
  have hfl : 0 ≤ ⌊y⌋ := Int.floor_nonneg.mpr h
  unfold roundHalfEven
  simp only
  split_ifs <;> omega

theorem log_two_eq (r : ℚ) (e : ℤ) (h1 : (2 : ℚ) ^ e ≤ r) (h2 : r < (2 : ℚ) ^ (e + 1)) :
    Int.log 2 r = e := by
  have hr : 0 < r := lt_of_lt_of_le (by positivity) h1
  have ha : e ≤ Int.log 2 r :=
    (Int.zpow_le_iff_le_log (by norm_num) hr).mp (by exact_mod_cast h1)
  have hb : Int.log 2 r < e + 1 :=
    (Int.lt_zpow_iff_log_lt (by norm_num) hr).mp (by exact_mod_cast h2)
  omega

/-- How `round64` evaluates: for `x` in the binade of `2 ^ e`, above the subnormal
range, the result is the multiple `n * 2 ^ (e - 52)` nearest to `x`. -/
theorem round64_eq (x : ℚ) (e n : ℤ) (he : -1022 ≤ e) (h1 : (2 : ℚ) ^ e ≤ |x|)
    (h2 : |x| < (2 : ℚ) ^ (e + 1))
    (hn1 : ((n : ℚ) - 1 / 2) * 2 ^ (e - 52) < x) (hn2 : x < ((n : ℚ) + 1 / 2) * 2 ^ (e - 52)) :
    round64 x = n * 2 ^ (e - 52) := by
  have hx : x ≠ 0 := by
    intro h0
    rw [h0, abs_zero] at h1
    exact absurd h1 (not_le.mpr (by positivity))
  have hq : (0 : ℚ) < 2 ^ (e - 52) := by positivity
  unfold round64
  simp only [hx, if_false, log_two_eq |x| e h1 h2, max_eq_left (show (-1074 : ℤ) ≤ e - 52 by omega)]
  rw [roundHalfEven_eq_of_lt (x / 2 ^ (e - 52)) n
    (by rw [lt_div_iff₀ hq]; exact hn1) (by rw [div_lt_iff₀ hq]; exact hn2)]

theorem round64_zero : round64 0 = 0 := by simp [round64]

theorem round64_nonneg (x : ℚ) (h : 0 ≤ x) : 0 ≤ round64 x := by
  unfold round64
  split_ifs with h0
  · exact le_rfl
  · have hq : (0 : ℚ) < 2 ^ max (Int.log 2 |x| - 52) (-1074) := by positivity
    have := roundHalfEven_nonneg (x / 2 ^ max (Int.log 2 |x| - 52) (-1074))
      (div_nonneg h hq.le)
    have h' : (0 : ℚ) ≤ (roundHalfEven (x / 2 ^ max (Int.log 2 |x| - 52) (-1074)) : ℚ) := by
      exact_mod_cast this
    exact mul_nonneg h' hq.le

/-- The rounding error is at most half the spacing of the binade of `x`. -/
theorem abs_round64_sub_le (x : ℚ) (hx : x ≠ 0) :
    |round64 x - x| ≤ 2 ^ max (Int.log 2 |x| - 52) (-1074) / 2 := by
  have hq : (0 : ℚ) < 2 ^ max (Int.log 2 |x| - 52) (-1074) := by positivity
  unfold round64
  simp only [hx, if_false]
  set q : ℚ := 2 ^ max (Int.log 2 |x| - 52) (-1074) with hqdef
  have h := abs_roundHalfEven_sub_le (x / q)
  have hxq : x = x / q * q := by field_simp
  calc |(roundHalfEven (x / q) : ℚ) * q - x|
      = |((roundHalfEven (x / q) : ℚ) - x / q) * q| := by
        congr 1; nth_rewrite 2 [hxq]; ring
    _ = |(roundHalfEven (x / q) : ℚ) - x / q| * q := by rw [abs_mul, abs_of_pos hq]
    _ ≤ 1 / 2 * q := mul_le_mul_of_nonneg_right h hq.le
    _ = q / 2 := by ring

/-- For `|x| < 2 ^ k` the rounding error of binary64 is at most `2 ^ (k - 54)`. -/
theorem abs_round64_sub_le_zpow (x : ℚ) (k : ℤ) (hk : -1020 ≤ k) (h : |x| < 2 ^ k) :
    |round64 x - x| ≤ 2 ^ (k - 54) := by
  by_cases hx : x = 0
  · rw [hx, round64_zero, sub_zero, abs_zero]; positivity
  · have hpos : 0 < |x| := abs_pos.mpr hx
    have hlog : Int.log 2 |x| < k :=
      (Int.lt_zpow_iff_log_lt (by norm_num) hpos).mp (by exact_mod_cast h)
    have hmax : max (Int.log 2 |x| - 52) (-1074) ≤ k - 53 := max_le (by omega) (by omega)
    have hq : (2 : ℚ) ^ max (Int.log 2 |x| - 52) (-1074) ≤ 2 ^ (k - 53) :=
      zpow_le_zpow_right₀ (by norm_num) hmax
    have h2 : (2 : ℚ) ^ (k - 53) = 2 ^ (k - 54) * 2 := by
      rw [← zpow_add_one₀ (by norm_num : (2 : ℚ) ≠ 0)]
      congr 1; ring
    have := abs_round64_sub_le x hx
    linarith

theorem binary64_roundsNear (Cos Sin : ℚ → ℚ) : (binary64 Cos Sin).RoundsNear (2 ^ 62) where
  nonneg := round64_nonneg
  near v hv := by
    have := abs_round64_sub_le_zpow v 62 (by norm_num) (by exact_mod_cast hv)
    norm_num at this
    exact this

/-! ## binary64 values -/

theorem roundHalfEven_intCast (k : ℤ) : roundHalfEven (k : ℚ) = k :=
  roundHalfEven_eq_of_lt _ k (by linarith) (by linarith)

/-- A multiple `m * 2 ^ j` with `|m| < 2 ^ 53`, on a spacing no finer than the smallest,
is a binary64 value. -/
theorem round64_of_grid_lt (m j : ℤ) (hj : -1074 ≤ j) (hm : |m| < 2 ^ 53) :
    round64 ((m : ℚ) * 2 ^ j) = m * 2 ^ j := by
  by_cases h0 : m = 0
  · subst h0; simp [round64]
  · have hq : (0 : ℚ) < 2 ^ j := by positivity
    have hne : (m : ℚ) * 2 ^ j ≠ 0 := mul_ne_zero (by exact_mod_cast h0) hq.ne'
    have hpos : 0 < |(m : ℚ) * 2 ^ j| := abs_pos.mpr hne
    have hmq : |(m : ℚ)| < 2 ^ (53 : ℤ) := by
      have h : ((|m| : ℤ) : ℚ) < ((2 ^ 53 : ℤ) : ℚ) := by exact_mod_cast hm
      rw [Int.cast_abs] at h
      norm_num at h ⊢
      exact h
    have hlt : |(m : ℚ) * 2 ^ j| < 2 ^ (j + 53) := by
      rw [abs_mul, abs_of_pos hq, zpow_add₀ (by norm_num : (2 : ℚ) ≠ 0), mul_comm]
      exact mul_lt_mul_of_pos_left hmq hq
    have hlog : Int.log 2 |(m : ℚ) * 2 ^ j| < j + 53 :=
      (Int.lt_zpow_iff_log_lt (by norm_num) hpos).mp (by exact_mod_cast hlt)
    set e' := max (Int.log 2 |(m : ℚ) * 2 ^ j| - 52) (-1074) with he'
    have hle : e' ≤ j := max_le (by omega) hj
    obtain ⟨d, hd⟩ : ∃ d : ℕ, j = e' + d := ⟨(j - e').toNat, by omega⟩
    have hq' : (0 : ℚ) < 2 ^ e' := by positivity
    have hint : (m : ℚ) * 2 ^ j / 2 ^ e' = ((m * 2 ^ d : ℤ) : ℚ) := by
      rw [hd, zpow_add₀ (by norm_num : (2 : ℚ) ≠ 0), zpow_natCast]
      push_cast
      field_simp
      ring
    unfold round64
    rw [if_neg hne]
    simp only [← he']
    rw [hint, roundHalfEven_intCast]
    rw [hd, zpow_add₀ (by norm_num : (2 : ℚ) ≠ 0), zpow_natCast]
    push_cast
    ring

/-- The same with `|m| ≤ 2 ^ 53`. -/
theorem round64_of_grid (m j : ℤ) (hj : -1074 ≤ j) (hm : |m| ≤ 2 ^ 53) :
    round64 ((m : ℚ) * 2 ^ j) = m * 2 ^ j := by
  rcases lt_or_eq_of_le hm with h | h
  · exact round64_of_grid_lt m j hj h
  · have h2 : (2 : ℚ) ^ (j + 1) = 2 ^ j * 2 := zpow_add_one₀ (by norm_num) j
    rcases abs_eq (by norm_num : (0 : ℤ) ≤ 2 ^ 53) |>.mp h with hm' | hm'
    · have := round64_of_grid_lt (2 ^ 52) (j + 1) (by omega) (by norm_num)
      have hval : ((m : ℚ)) * 2 ^ j = ((2 ^ 52 : ℤ) : ℚ) * 2 ^ (j + 1) := by
        rw [hm', h2]; push_cast; ring
      rw [hval]; exact this
    · have := round64_of_grid_lt (-2 ^ 52) (j + 1) (by omega) (by norm_num)
      have hval : ((m : ℚ)) * 2 ^ j = ((-2 ^ 52 : ℤ) : ℚ) * 2 ^ (j + 1) := by
        rw [hm', h2]; push_cast; ring
      rw [hval]; exact this

/-- Every result of `round64` is a multiple of the spacing of its argument's binade, with
at most 53 bits and one more for the power of two above. -/
theorem round64_mem_grid (x : ℚ) (hx : x ≠ 0) :
    ∃ n : ℤ, |n| ≤ 2 ^ 53 ∧
      round64 x = n * 2 ^ max (Int.log 2 |x| - 52) (-1074) := by
  have hpos : 0 < |x| := abs_pos.mpr hx
  set j := max (Int.log 2 |x| - 52) (-1074) with hj
  have hq : (0 : ℚ) < 2 ^ j := by positivity
  refine ⟨roundHalfEven (x / 2 ^ j), ?_, by unfold round64; rw [if_neg hx]⟩
  have hlt : |x| < 2 ^ (Int.log 2 |x| + 1) := by
    exact_mod_cast Int.lt_zpow_succ_log_self (by norm_num : 1 < 2) |x|
  have hle : (2 : ℚ) ^ (Int.log 2 |x| + 1) ≤ 2 ^ (53 : ℤ) * 2 ^ j := by
    rw [← zpow_add₀ (by norm_num : (2 : ℚ) ≠ 0)]
    exact zpow_le_zpow_right₀ (by norm_num) (by have := le_max_left (Int.log 2 |x| - 52) (-1074); omega)
  have hy : |x / 2 ^ j| < 2 ^ (53 : ℤ) := by
    rw [abs_div, abs_of_pos hq, div_lt_iff₀ hq]
    exact lt_of_lt_of_le hlt hle
  have hr := abs_roundHalfEven_sub_le (x / 2 ^ j)
  have hn : |((roundHalfEven (x / 2 ^ j) : ℤ) : ℚ)| < 2 ^ (53 : ℤ) + 1 := by
    have := abs_sub_abs_le_abs_sub ((roundHalfEven (x / 2 ^ j) : ℤ) : ℚ) (x / 2 ^ j)
    linarith
  rw [← Int.cast_abs] at hn
  have hn' : ((|roundHalfEven (x / 2 ^ j)| : ℤ) : ℚ) < ((2 ^ 53 + 1 : ℤ) : ℚ) := by
    norm_num at hn ⊢
    exact hn
  have := Int.cast_lt.mp hn'
  omega

theorem round64_idem (x : ℚ) : round64 (round64 x) = round64 x := by
  by_cases hx : x = 0
  · rw [hx, round64_zero, round64_zero]
  · obtain ⟨n, hn, h⟩ := round64_mem_grid x hx
    rw [h]
    exact round64_of_grid n _ (le_max_right _ _) hn

/-- A binary64 value of magnitude in [1, 2 ^ 56) moved by a multiple of 360 to a value no
larger in magnitude: the result is a binary64 value, so the operation does not round. -/
theorem round64_add_mul_360 (a b : ℚ) (k : ℤ) (ha : round64 a = a) (h1 : 1 ≤ |a|)
    (h2 : |a| < 2 ^ 56) (hb : b = a + 360 * k) (hle : |b| ≤ |a|) : round64 b = b := by
  have hpos : 0 < |a| := by linarith
  have h0 : a ≠ 0 := abs_pos.mp hpos
  obtain ⟨n, -, hn⟩ := round64_mem_grid a h0
  rw [ha] at hn
  set e := Int.log 2 |a| with he
  have he1 : e < 56 := (Int.lt_zpow_iff_log_lt (by norm_num) hpos).mp (by exact_mod_cast h2)
  have he0 : 0 ≤ e := (Int.zpow_le_iff_le_log (by norm_num) hpos).mp (by simpa using h1)
  have hmax : max (e - 52) (-1074) = e - 52 := max_eq_left (by omega)
  rw [hmax] at hn
  obtain ⟨d, hd⟩ : ∃ d : ℕ, (d : ℤ) = 55 - e := ⟨(55 - e).toNat, by omega⟩
  have hq : (0 : ℚ) < 2 ^ (e - 52) := by positivity
  have h8 : (2 : ℚ) ^ (e - 52) * 2 ^ d = 8 := by
    rw [← zpow_natCast, ← zpow_add₀ (by norm_num : (2 : ℚ) ≠ 0), hd]
    rw [show e - 52 + (55 - e) = 3 by ring]
    norm_num
  have hval : b = ((n + 45 * 2 ^ d * k : ℤ) : ℚ) * 2 ^ (e - 52) := by
    rw [hb]
    nth_rewrite 1 [hn]
    push_cast
    have : (360 : ℚ) = 45 * (2 ^ (e - 52) * 2 ^ d) := by rw [h8]; norm_num
    rw [this]
    ring
  have hlt : |a| < 2 ^ (e + 1) := by
    exact_mod_cast Int.lt_zpow_succ_log_self (by norm_num : 1 < 2) |a|
  have h53 : (2 : ℚ) ^ (e + 1) = 2 ^ (53 : ℤ) * 2 ^ (e - 52) := by
    rw [← zpow_add₀ (by norm_num : (2 : ℚ) ≠ 0)]
    congr 1; ring
  have hm : |((n + 45 * 2 ^ d * k : ℤ) : ℚ)| < 2 ^ (53 : ℤ) := by
    have hb' : |b| < 2 ^ (53 : ℤ) * 2 ^ (e - 52) := by linarith
    rw [hval, abs_mul, abs_of_pos hq] at hb'
    exact lt_of_mul_lt_mul_right hb' hq.le
  rw [hval]
  apply round64_of_grid_lt _ _ (by omega)
  rw [← Int.cast_abs] at hm
  have hm' : ((|n + 45 * 2 ^ d * k| : ℤ) : ℚ) < ((2 ^ 53 : ℤ) : ℚ) := by
    norm_num at hm ⊢
    exact hm
  exact Int.cast_lt.mp hm'

/-- The rounding error of binary64 relative to the magnitude of the result. -/
theorem abs_round64_sub_le_rel (x : ℚ) : |round64 x - x| ≤ (|x| + 1) / 2 ^ 53 := by
  by_cases hx : x = 0
  · rw [hx, round64_zero, sub_zero, abs_zero]; positivity
  · have hpos : 0 < |x| := abs_pos.mpr hx
    have h := abs_round64_sub_le x hx
    have hlog : (2 : ℚ) ^ Int.log 2 |x| ≤ |x| := by
      exact_mod_cast Int.zpow_log_le_self (by norm_num : 1 < 2) hpos
    have hq : (2 : ℚ) ^ max (Int.log 2 |x| - 52) (-1074) ≤ (|x| + 1) / 2 ^ 52 := by
      rcases le_total (Int.log 2 |x| - 52) (-1074) with hc | hc
      · rw [max_eq_right hc]
        have h1 : (2 : ℚ) ^ (-1074 : ℤ) ≤ 2 ^ (-52 : ℤ) :=
          zpow_le_zpow_right₀ (by norm_num) (by norm_num)
        have h2 : (2 : ℚ) ^ (-52 : ℤ) = 1 / 2 ^ 52 := by
          rw [zpow_neg]; norm_num
        have h3 : (1 : ℚ) / 2 ^ 52 ≤ (|x| + 1) / 2 ^ 52 :=
          div_le_div_of_nonneg_right (by linarith) (by positivity)
        linarith
      · rw [max_eq_left hc]
        have h1 : (2 : ℚ) ^ (Int.log 2 |x| - 52) = 2 ^ Int.log 2 |x| / 2 ^ 52 := by
          rw [zpow_sub₀ (by norm_num : (2 : ℚ) ≠ 0)]; norm_num
        rw [h1]
        exact div_le_div_of_nonneg_right (by linarith) (by positivity)
    have h4 : (|x| + 1) / 2 ^ 52 / 2 = (|x| + 1) / 2 ^ 53 := by ring
    linarith

theorem abs_round64_le (v A : ℚ) (h : |v| ≤ A) : |round64 v| ≤ A + (A + 1) / 2 ^ 53 := by
  have h1 := abs_round64_sub_le_rel v
  have h2 : (|v| + 1) / 2 ^ 53 ≤ (A + 1) / 2 ^ 53 :=
    div_le_div_of_nonneg_right (by linarith) (by positivity)
  have h3 : |round64 v| ≤ |round64 v - v| + |v| := by
    have : round64 v = (round64 v - v) + v := by ring
    nth_rewrite 1 [this]; exact abs_add _ _
  linarith

/-! ## The loops of `clampRotation` -/

theorem clampRotationUp_mono (F : FloatOps) :
    ∀ (fuel : Nat) (a r : ℚ), clampRotationUp F fuel a = some r →
      ∀ fuel', fuel ≤ fuel' → clampRotationUp F fuel' a = some r := by
  intro fuel
  induction fuel with
  | zero => intro a r h; simp [clampRotationUp] at h
  | succ n ih =>
    intro a r h fuel' hle
    obtain ⟨m, rfl⟩ : ∃ m, fuel' = m + 1 := ⟨fuel' - 1, by omega⟩
    unfold clampRotationUp at h ⊢
    split_ifs at h ⊢ with hneg
    · exact ih _ _ h m (by omega)
    · exact h

theorem clampRotationDown_mono (F : FloatOps) :
    ∀ (fuel : Nat) (a r : ℚ), clampRotationDown F fuel a = some r →
      ∀ fuel', fuel ≤ fuel' → clampRotationDown F fuel' a = some r := by
  intro fuel
  induction fuel with
  | zero => intro a r h; simp [clampRotationDown] at h
  | succ n ih =>
    intro a r h fuel' hle
    obtain ⟨m, rfl⟩ : ∃ m, fuel' = m + 1 := ⟨fuel' - 1, by omega⟩
    unfold clampRotationDown at h ⊢
    split_ifs at h ⊢ with hge
    · exact ih _ _ h m (by omega)
    · exact h

theorem clampRotationDown_terminates (F : FloatOps) (B : ℚ) (hF : F.RoundsNear B) :
    ∀ (fuel : Nat) (a : ℚ), 0 ≤ a → a < B + 360 → a < 360 + 104 * fuel →
      ∃ r, clampRotationDown F (fuel + 1) a = some r ∧ 0 ≤ r ∧ r < 360 := by
  intro fuel
  induction fuel with
  | zero =>
    intro a h0 _ h
    have h360 : ¬ 360 ≤ a := by push_cast at h; linarith
    exact ⟨a, by simp [clampRotationDown, h360], h0, by linarith⟩
  | succ n ih =>
    intro a h0 hB h
    by_cases hge : 360 ≤ a
    · have hv : |a - 360| < B := by rw [abs_lt]; constructor <;> linarith
      have hnear := abs_le.mp (hF.near _ hv)
      have hnn := hF.nonneg (a - 360) (by linarith)
      push_cast at h
      obtain ⟨r, hr, hr0, hr360⟩ := ih (F.sub a 360) hnn
        (by unfold FloatOps.sub; linarith) (by unfold FloatOps.sub; linarith)
      refine ⟨r, ?_, hr0, hr360⟩
      rw [clampRotationDown, if_pos hge]
      exact hr
    · exact ⟨a, by simp [clampRotationDown, hge], h0, by linarith⟩

theorem clampRotationUp_terminates (F : FloatOps) (B : ℚ) (hF : F.RoundsNear B)
    (hB : 616 ≤ B) :
    ∀ (fuel : Nat) (a : ℚ), -B ≤ a → -a ≤ 104 * fuel →
      ∃ r, clampRotationUp F (fuel + 1) a = some r ∧ 0 ≤ r ∧ r ≤ max a 616 := by
  intro fuel
  induction fuel with
  | zero =>
    intro a _ h
    have h0 : ¬ a < 0 := by push_cast at h; linarith
    exact ⟨a, by simp [clampRotationUp, h0], by linarith, le_max_left _ _⟩
  | succ n ih =>
    intro a hlo h
    by_cases hneg : a < 0
    · have hv : |a + 360| < B := by rw [abs_lt]; constructor <;> linarith
      have hnear := abs_le.mp (hF.near _ hv)
      push_cast at h
      obtain ⟨r, hr, hr0, hrmax⟩ := ih (F.add a 360)
        (by unfold FloatOps.add; linarith) (by unfold FloatOps.add; linarith)
      refine ⟨r, ?_, hr0, hrmax.trans ?_⟩
      · rw [clampRotationUp, if_pos hneg]
        exact hr
      · refine max_le ?_ (le_max_right _ _)
        unfold FloatOps.add
        exact le_trans (by linarith) (le_max_right a 616)
    · exact ⟨a, by simp [clampRotationUp, hneg], by linarith, le_max_left _ _⟩

/-- For a rounding that moves the results of magnitude below `B` by at most 256,
`clampRotation` returns a value of [0, 360) on every input of magnitude at most `B`,
once the fuel covers `⌈|a| / 104⌉ + 4` tests of each loop condition. -/
theorem clampRotation_terminates (F : FloatOps) (B : ℚ) (hF : F.RoundsNear B)
    (hB : 616 ≤ B) (a : ℚ) (ha : |a| ≤ B) :
    ∃ r, 0 ≤ r ∧ r < 360 ∧
      ∀ fuel, ⌈|a| / 104⌉₊ + 4 ≤ fuel → clampRotation F fuel a = some r := by
  obtain ⟨hlo, hhi⟩ := abs_le.mp ha
  have hceil : |a| ≤ 104 * (⌈|a| / 104⌉₊ : ℚ) := by
    have := Nat.le_ceil (|a| / 104)
    linarith [(div_le_iff₀ (by norm_num : (0 : ℚ) < 104)).mp this]
  have habs1 : -a ≤ |a| := neg_le_abs a
  have habs2 : a ≤ |a| := le_abs_self a
  obtain ⟨b, hb, hb0, hbmax⟩ := clampRotationUp_terminates F B hF hB ⌈|a| / 104⌉₊ a hlo
    (by linarith)
  have hbB : b ≤ B := hbmax.trans (max_le hhi hB)
  have hbn : b < 360 + 104 * ((⌈|a| / 104⌉₊ + 3 : ℕ) : ℚ) := by
    push_cast
    rcases le_max_iff.mp hbmax with h | h <;> linarith
  obtain ⟨r, hr, hr0, hr360⟩ := clampRotationDown_terminates F B hF (⌈|a| / 104⌉₊ + 3) b hb0
    (by linarith) hbn
  refine ⟨r, hr0, hr360, fun fuel hfuel => ?_⟩
  unfold clampRotation
  rw [clampRotationUp_mono F _ a b hb fuel (by omega)]
  exact clampRotationDown_mono F _ b r hr fuel (by omega)

/-! ## The corrected rotation -/

theorem clampRotation_binary64 (Cos Sin : ℚ → ℚ) (a : ℚ) (ha : |a| ≤ 2 ^ 62) :
    ∃ r, 0 ≤ r ∧ r < 360 ∧
      ∀ fuel, ⌈|a| / 104⌉₊ + 4 ≤ fuel → clampRotation (binary64 Cos Sin) fuel a = some r :=
  clampRotation_terminates (binary64 Cos Sin) (2 ^ 62) (binary64_roundsNear Cos Sin)
    (by norm_num) a ha

theorem clampRotationDown_binary64_exact (Cos Sin : ℚ → ℚ) :
    ∀ (fuel : Nat) (b r : ℚ), round64 b = b → 0 ≤ b → b < 2 ^ 56 →
      clampRotationDown (binary64 Cos Sin) fuel b = some r →
      0 ≤ r ∧ r < 360 ∧ ∃ k : ℤ, r = b + 360 * k := by
  intro fuel
  induction fuel with
  | zero => intro b r _ _ _ h; simp [clampRotationDown] at h
  | succ n ih =>
    intro b r hb h0 hlt h
    unfold clampRotationDown at h
    split_ifs at h with hge
    · have hstep : (binary64 Cos Sin).sub b 360 = b - 360 := by
        show round64 (b - 360) = b - 360
        refine round64_add_mul_360 b (b - 360) (-1) hb ?_ ?_ (by push_cast; ring) ?_
        · rw [abs_of_nonneg h0]; linarith
        · rw [abs_of_nonneg h0]; exact hlt
        · rw [abs_of_nonneg h0, abs_of_nonneg (by linarith)]; linarith
      rw [hstep] at h
      have hfl : round64 (b - 360) = b - 360 := hstep
      obtain ⟨hr0, hr360, k, hk⟩ := ih (b - 360) r hfl (by linarith) (by linarith) h
      exact ⟨hr0, hr360, k - 1, by rw [hk]; push_cast; ring⟩
    · have hr : b = r := by simpa using h
      exact ⟨by linarith, by linarith, 0, by rw [hr]; simp⟩

theorem clampRotationUp_binary64_near (Cos Sin : ℚ → ℚ) :
    ∀ (fuel : Nat) (a b : ℚ), round64 a = a → -2 ^ 56 < a →
      clampRotationUp (binary64 Cos Sin) fuel a = some b →
      round64 b = b ∧ 0 ≤ b ∧ b ≤ max a 361 ∧ ∃ k : ℤ, |b - (a + 360 * k)| ≤ 1 / 2 ^ 45 := by
  intro fuel
  induction fuel with
  | zero => intro a b _ _ h; simp [clampRotationUp] at h
  | succ n ih =>
    intro a b ha hlo h
    unfold clampRotationUp at h
    split_ifs at h with hneg
    · by_cases hfar : a ≤ -360
      · have hstep : (binary64 Cos Sin).add a 360 = a + 360 := by
          show round64 (a + 360) = a + 360
          refine round64_add_mul_360 a (a + 360) 1 ha ?_ ?_ (by push_cast; ring) ?_
          · rw [abs_of_neg hneg]; linarith
          · rw [abs_of_neg hneg]; linarith
          · rw [abs_of_neg hneg, abs_of_nonpos (by linarith)]; linarith
        rw [hstep] at h
        have hfl : round64 (a + 360) = a + 360 := hstep
        obtain ⟨hbf, hb0, hbmax, k, hk⟩ := ih (a + 360) b hfl (by linarith) h
        refine ⟨hbf, hb0, ?_, k + 1, ?_⟩
        · refine hbmax.trans (max_le ?_ (le_max_right _ _))
          exact le_trans (by linarith) (le_max_right a 361)
        · have : a + 360 * ((k + 1 : ℤ) : ℚ) = a + 360 + 360 * k := by push_cast; ring
          rw [this]; exact hk
      · have hnear : |round64 (a + 360) - (a + 360)| ≤ 1 / 2 ^ 45 := by
          have hv : |a + 360| < 2 ^ (9 : ℤ) := by
            rw [abs_lt]; norm_num; constructor <;> linarith
          have := abs_round64_sub_le_zpow (a + 360) 9 (by norm_num) hv
          have h45 : (2 : ℚ) ^ ((9 : ℤ) - 54) = 1 / 2 ^ 45 := by
            rw [show ((9 : ℤ) - 54) = -45 by norm_num, zpow_neg]; norm_num
          rwa [h45] at this
        have hnn : 0 ≤ round64 (a + 360) := round64_nonneg _ (by linarith)
        have hstep : (binary64 Cos Sin).add a 360 = round64 (a + 360) := rfl
        rw [hstep] at h
        cases n with
        | zero => simp [clampRotationUp] at h
        | succ n' =>
          rw [clampRotationUp, if_neg (not_lt.mpr hnn)] at h
          have hb : round64 (a + 360) = b := by simpa using h
          obtain ⟨h1, h2⟩ := abs_le.mp hnear
          refine ⟨by rw [← hb, round64_idem], by rw [← hb]; exact hnn, ?_, 1, ?_⟩
          · refine le_trans ?_ (le_max_right a 361)
            rw [← hb]
            have : (1 : ℚ) / 2 ^ 45 ≤ 1 := by norm_num
            linarith
          · rw [← hb]; simpa using hnear
    · have hb : a = b := by simpa using h
      refine ⟨by rw [← hb]; exact ha, by rw [← hb]; linarith, by rw [← hb]; exact le_max_left _ _,
        0, ?_⟩
      rw [hb]; simp

/-- In float64, on a binary64 value of magnitude below `2 ^ 56`, what `clampRotation`
returns lies in [0, 360) and differs from the angle by a multiple of 360, up to the one
rounding of the last `angle += 360` (at most `2 ^ (-45)`). -/
theorem clampRotation_binary64_near (Cos Sin : ℚ → ℚ) (fuel : Nat) (a r : ℚ)
    (ha : round64 a = a) (hlt : |a| < 2 ^ 56)
    (h : clampRotation (binary64 Cos Sin) fuel a = some r) :
    0 ≤ r ∧ r < 360 ∧ ∃ k : ℤ, |r - (a + 360 * k)| ≤ 1 / 2 ^ 45 := by
  unfold clampRotation at h
  obtain ⟨b, hb, hr⟩ := Option.bind_eq_some.mp h
  obtain ⟨hlo, hhi⟩ := abs_lt.mp hlt
  obtain ⟨hbf, hb0, hbmax, k1, hk1⟩ := clampRotationUp_binary64_near Cos Sin fuel a b ha hlo hb
  have hb56 : b < 2 ^ 56 := lt_of_le_of_lt hbmax (max_lt hhi (by norm_num))
  obtain ⟨hr0, hr360, k2, hk2⟩ := clampRotationDown_binary64_exact Cos Sin fuel b r hbf hb0
    hb56 hr
  refine ⟨hr0, hr360, k1 + k2, ?_⟩
  have : r - (a + 360 * ((k1 + k2 : ℤ) : ℚ)) = b - (a + 360 * k1) := by
    rw [hk2]; push_cast; ring
  rw [this]; exact hk1

/-- In float64 `clampRotation` returns on every binary64 value of magnitude below
`2 ^ 56`, and the value it returns is the angle brought into [0, 360) by a multiple of
360, up to `2 ^ (-45)`. -/
theorem clampRotation_binary64_spec (Cos Sin : ℚ → ℚ) (a : ℚ) (ha : round64 a = a)
    (hlt : |a| < 2 ^ 56) :
    ∃ r, 0 ≤ r ∧ r < 360 ∧ (∃ k : ℤ, |r - (a + 360 * k)| ≤ 1 / 2 ^ 45) ∧
      ∀ fuel, ⌈|a| / 104⌉₊ + 4 ≤ fuel → clampRotation (binary64 Cos Sin) fuel a = some r := by
  obtain ⟨r, hr0, hr360, hfuel⟩ := clampRotation_binary64 Cos Sin a
    (le_trans hlt.le (by norm_num))
  obtain ⟨-, -, hk⟩ := clampRotation_binary64_near Cos Sin _ a r ha hlt (hfuel _ le_rfl)
  exact ⟨r, hr0, hr360, hk, hfuel⟩

/-- C6, as the code has it.  In float64, when some entry matches, the sort puts an
entry `c` first among the matches, and if the float sum of the rotation and the offset
of that entry has magnitude at most `2 ^ 62`, the call returns (with enough fuel; more
fuel gives the same result) and the returned rotation lies in [0, 360); when no entry
matches, the rotation comes back as it went in. -/
theorem ApplyRotationCorrection_rotation_range (Cos Sin : ℚ → ℚ) (S : SliceSort)
    (rotationDB : List RotationCorrection) (pkg : String) (x y rotation : ℚ) :
    ((∃ c ∈ rotationDB, c.FootprintPattern.MatchString pkg = true) →
      ∃ c t, S.sort (lengthGreater RotationCorrection.FootprintPattern)
          (rotationDB.filter (fun e => e.FootprintPattern.MatchString pkg)) = c :: t ∧
        (|round64 (rotation + c.Rotation)| ≤ 2 ^ 62 →
          ∃ x' y' r', 0 ≤ r' ∧ r' < 360 ∧ ∃ n, ∀ fuel, n ≤ fuel →
            ApplyRotationCorrection (binary64 Cos Sin) S rotationDB fuel pkg x y rotation
              = some (x', y', r'))) ∧
    ((∀ c ∈ rotationDB, c.FootprintPattern.MatchString pkg = false) →
      ∀ fuel, ApplyRotationCorrection (binary64 Cos Sin) S rotationDB fuel pkg x y rotation
        = some (x, y, rotation)) := by
  constructor
  · intro hmatch
    obtain ⟨c, -, -, -, ⟨t, ht⟩, happly⟩ := ApplyRotationCorrection_eq_applyCorrection
      (binary64 Cos Sin) S rotationDB pkg x y rotation hmatch
    refine ⟨c, t, ht, fun hbound => ?_⟩
    obtain ⟨r, hr0, hr360, hfuel⟩ := clampRotation_binary64 Cos Sin
      ((binary64 Cos Sin).add rotation c.Rotation) hbound
    refine ⟨(rotatePoint (binary64 Cos Sin) ((binary64 Cos Sin).add x c.CenterX)
        ((binary64 Cos Sin).add y c.CenterY) x y rotation).1,
      (rotatePoint (binary64 Cos Sin) ((binary64 Cos Sin).add x c.CenterX)
        ((binary64 Cos Sin).add y c.CenterY) x y rotation).2,
      r, hr0, hr360, ⌈|(binary64 Cos Sin).add rotation c.Rotation| / 104⌉₊ + 4,
      fun fuel hle => ?_⟩
    rw [happly fuel, applyCorrection, hfuel fuel hle]
    rfl
  · intro hnone fuel
    exact ApplyRotationCorrection_of_no_match _ S rotationDB fuel pkg x y rotation hnone

/-- C6 fails: `SOT-223-3_TabPin2` matches no entry of the one-entry table, and the
rotation 400 comes back as 400, outside [0, 360). -/
theorem ApplyRotationCorrection_rotation_out_of_range :
    ApplyRotationCorrection (binary64 (fun _ => 0) (fun _ => 1)) insertionSortSlice
      idcHeaderDB 1 "SOT-223-3_TabPin2" 0 0 400 = some (0, 0, 400) ∧
    ¬ ((400 : ℚ) < 360) :=
  ⟨ApplyRotationCorrection_of_no_match _ _ idcHeaderDB 1 "SOT-223-3_TabPin2" 0 0 400
    (by decide), by norm_num⟩

/-- The hypotheses of the range statement hold for the one-entry table:
`IDC-Header_2x10_P2.54mm_Vertical` matches, the entry is the one selected, and the float
sum 90 + (-90) is 0. -/
theorem ApplyRotationCorrection_rotation_range_witness :
    ∃ x' y' r', 0 ≤ r' ∧ r' < 360 ∧ ∃ n, ∀ fuel, n ≤ fuel →
      ApplyRotationCorrection (binary64 (fun _ => 0) (fun _ => 1)) insertionSortSlice
        idcHeaderDB fuel "IDC-Header_2x10_P2.54mm_Vertical"
        (round64 (30988 / 1000)) (round64 (-8944 / 100)) 90 = some (x', y', r') := by
  obtain ⟨c, t, hsort, h⟩ := (ApplyRotationCorrection_rotation_range (fun _ => 0) (fun _ => 1)
    insertionSortSlice idcHeaderDB "IDC-Header_2x10_P2.54mm_Vertical"
    (round64 (30988 / 1000)) (round64 (-8944 / 100)) 90).1
    ⟨_, List.mem_cons_self _ _, by decide⟩
  have h0 : insertionSortSlice.sort (lengthGreater RotationCorrection.FootprintPattern)
      (idcHeaderDB.filter (fun e =>
        e.FootprintPattern.MatchString "IDC-Header_2x10_P2.54mm_Vertical"))
      = [idcHeaderEntry] := rfl
  rw [h0] at hsort
  obtain rfl : idcHeaderEntry = c := (List.cons.inj hsort).1
  exact h (by norm_num [idcHeaderEntry, round64_zero])

/-! ## The corrected position -/

/-- One rounded operation: when the exact result `v` is within `d` of a target `c` of
magnitude at most `A`, the rounded result is within `d + (A + d + 1) / 2 ^ 53` of it. -/
theorem rnd_err (r : ℚ → ℚ) (hr : ∀ v, |r v - v| ≤ (|v| + 1) / 2 ^ 53) (v c d A : ℚ)
    (h : |v - c| ≤ d) (hc : |c| ≤ A) : |r v - c| ≤ d + (A + d + 1) / 2 ^ 53 := by
  have h1 := hr v
  have h2 : |v| ≤ A + d := by
    have := abs_sub_abs_le_abs_sub v c
    linarith
  have h3 : (|v| + 1) / 2 ^ 53 ≤ (A + d + 1) / 2 ^ 53 :=
    div_le_div_of_nonneg_right (by linarith) (by positivity)
  have h4 : |r v - c| ≤ |r v - v| + |v - c| := by
    have : r v - c = (r v - v) + (v - c) := by ring
    rw [this]; exact abs_add _ _
  linarith

/-- The same with the bounds in units of `B / 2 ^ 53`, for `B ≥ 1`. -/
theorem rnd_err_units (r : ℚ → ℚ) (hr : ∀ v, |r v - v| ≤ (|v| + 1) / 2 ^ 53) (B : ℚ)
    (hB : 1 ≤ B) (v c : ℚ) (i j : ℕ) (hi : i ≤ 32)
    (h : |v - c| ≤ i * B / 2 ^ 53) (hc : |c| ≤ j * B) :
    |r v - c| ≤ (i + j + 2 : ℕ) * B / 2 ^ 53 := by
  have h1 := rnd_err r hr v c _ _ h hc
  have hi' : (i : ℚ) ≤ 32 := by exact_mod_cast hi
  have hi0 : (0 : ℚ) ≤ i := by positivity
  have hsmall : (i : ℚ) * B / 2 ^ 53 ≤ B - 1 + 1 / 2 := by
    rw [div_le_iff₀ (by positivity)]
    nlinarith
  have h2 : ((j : ℚ) * B + i * B / 2 ^ 53 + 1) / 2 ^ 53 ≤ ((j : ℚ) + 2) * B / 2 ^ 53 :=
    div_le_div_of_nonneg_right (by linarith) (by positivity)
  have h3 : ((i + j + 2 : ℕ) : ℚ) * B / 2 ^ 53
      = i * B / 2 ^ 53 + ((j : ℚ) + 2) * B / 2 ^ 53 := by
    push_cast; ring
  rw [h3]
  linarith

theorem mul_err (a a0 w d A : ℚ) (h : |a - a0| ≤ d) (ha : |a0| ≤ A) (hw : |w| ≤ 1) :
    |a * w - a0 * w| ≤ d ∧ |a0 * w| ≤ A := by
  have hd : 0 ≤ d := (abs_nonneg _).trans h
  have hA : 0 ≤ A := (abs_nonneg _).trans ha
  constructor
  · rw [← sub_mul, abs_mul]
    calc |a - a0| * |w| ≤ d * 1 := mul_le_mul h hw (abs_nonneg _) hd
      _ = d := mul_one d
  · rw [abs_mul]
    calc |a0| * |w| ≤ A * 1 := mul_le_mul ha hw (abs_nonneg _) hA
      _ = A := mul_one A

/-- The chain of rounded operations that yields one coordinate: the translated point,
the offset from the pivot, the two products, their sum and the translation back. -/
theorem rotate_err (r : ℚ → ℚ) (hr : ∀ v, |r v - v| ≤ (|v| + 1) / 2 ^ 53)
    (x y cx cy C Sn B : ℚ) (hB : 1 ≤ B) (hx : |x| ≤ B) (hy : |y| ≤ B)
    (hcx : |cx| ≤ B) (hcy : |cy| ≤ B) (hC : |C| ≤ 1) (hSn : |Sn| ≤ 1) :
    |r (r (r (r (r (x + cx) - x) * C) - r (r (r (y + cy) - y) * Sn)) + x)
        - (x + cx * C - cy * Sn)| ≤ B / 2 ^ 48 ∧
    |r (r (r (r (r (x + cx) - x) * Sn) + r (r (r (y + cy) - y) * C)) + y)
        - (y + cx * Sn + cy * C)| ≤ B / 2 ^ 48 := by
  have hxcx : |x + cx| ≤ (2 : ℕ) * B := (abs_add _ _).trans (by push_cast; linarith)
  have hycy : |y + cy| ≤ (2 : ℕ) * B := (abs_add _ _).trans (by push_cast; linarith)
  have hcx1 : |cx| ≤ (1 : ℕ) * B := by push_cast; linarith
  have hcy1 : |cy| ≤ (1 : ℕ) * B := by push_cast; linarith
  have z : ∀ v : ℚ, |v - v| ≤ (0 : ℕ) * B / 2 ^ 53 := fun v => by simp
  have hs1 := rnd_err_units r hr B hB (x + cx) (x + cx) 0 2 (by norm_num)
    (z _) hxcx
  have hs2 := rnd_err_units r hr B hB (y + cy) (y + cy) 0 2 (by norm_num)
    (z _) hycy
  have hxP := rnd_err_units r hr B hB (r (x + cx) - x) cx 4 1 (by norm_num)
    (by rw [show r (x + cx) - x - cx = r (x + cx) - (x + cx) by ring]; exact hs1) hcx1
  have hyP := rnd_err_units r hr B hB (r (y + cy) - y) cy 4 1 (by norm_num)
    (by rw [show r (y + cy) - y - cy = r (y + cy) - (y + cy) by ring]; exact hs2) hcy1
  have prod : ∀ a a0 w : ℚ, |a - a0| ≤ (7 : ℕ) * B / 2 ^ 53 → |a0| ≤ (1 : ℕ) * B → |w| ≤ 1 →
      |r (a * w) - a0 * w| ≤ (10 : ℕ) * B / 2 ^ 53 ∧ |a0 * w| ≤ B := by
    intro a a0 w h ha hw
    obtain ⟨h1, h2⟩ := mul_err a a0 w _ _ h ha hw
    exact ⟨rnd_err_units r hr B hB (a * w) (a0 * w) 7 1 (by norm_num) h1 h2,
      by push_cast at h2; linarith⟩
  obtain ⟨hp1, hq1⟩ := prod _ cx C hxP hcx1 hC
  obtain ⟨hp2, hq2⟩ := prod _ cy Sn hyP hcy1 hSn
  obtain ⟨hp3, hq3⟩ := prod _ cx Sn hxP hcx1 hSn
  obtain ⟨hp4, hq4⟩ := prod _ cy C hyP hcy1 hC
  have hsum : ∀ a b : ℚ, |a| ≤ (10 : ℕ) * B / 2 ^ 53 → |b| ≤ (10 : ℕ) * B / 2 ^ 53 →
      |a + b| ≤ (20 : ℕ) * B / 2 ^ 53 ∧ |a - b| ≤ (20 : ℕ) * B / 2 ^ 53 := by
    intro a b ha hb
    have e : ((20 : ℕ) : ℚ) * B / 2 ^ 53 = (10 : ℕ) * B / 2 ^ 53 + (10 : ℕ) * B / 2 ^ 53 := by
      push_cast; ring
    rw [e]
    exact ⟨(abs_add _ _).trans (add_le_add ha hb), (abs_sub _ _).trans (add_le_add ha hb)⟩
  have hxR := rnd_err_units r hr B hB
    (r (r (r (x + cx) - x) * C) - r (r (r (y + cy) - y) * Sn)) (cx * C - cy * Sn) 20 2
    (by norm_num)
    (by
      rw [show r (r (r (x + cx) - x) * C) - r (r (r (y + cy) - y) * Sn) - (cx * C - cy * Sn)
        = (r (r (r (x + cx) - x) * C) - cx * C) - (r (r (r (y + cy) - y) * Sn) - cy * Sn) by
          ring]
      exact (hsum _ _ hp1 hp2).2)
    ((abs_sub _ _).trans (by push_cast; linarith))
  have hyR := rnd_err_units r hr B hB
    (r (r (r (x + cx) - x) * Sn) + r (r (r (y + cy) - y) * C)) (cx * Sn + cy * C) 20 2
    (by norm_num)
    (by
      rw [show r (r (r (x + cx) - x) * Sn) + r (r (r (y + cy) - y) * C) - (cx * Sn + cy * C)
        = (r (r (r (x + cx) - x) * Sn) - cx * Sn) + (r (r (r (y + cy) - y) * C) - cy * C) by
          ring]
      exact (hsum _ _ hp3 hp4).1)
    ((abs_add _ _).trans (by push_cast; linarith))
  have h48 : B / 2 ^ 48 = ((24 + 3 + 2 : ℕ) : ℚ) * B / 2 ^ 53 + 3 * B / 2 ^ 53 := by
    push_cast; ring
  have h3B : (0 : ℚ) ≤ 3 * B / 2 ^ 53 := by positivity
  constructor
  · have h := rnd_err_units r hr B hB
      (r (r (r (r (x + cx) - x) * C) - r (r (r (y + cy) - y) * Sn)) + x)
      (x + cx * C - cy * Sn) 24 3 (by norm_num)
      (by
        rw [show r (r (r (r (x + cx) - x) * C) - r (r (r (y + cy) - y) * Sn)) + x
            - (x + cx * C - cy * Sn)
          = r (r (r (r (x + cx) - x) * C) - r (r (r (y + cy) - y) * Sn))
            - (cx * C - cy * Sn) by ring]
        exact hxR)
      (by
        rw [show x + cx * C - cy * Sn = x + (cx * C - cy * Sn) by ring]
        refine (abs_add _ _).trans ?_
        have := abs_sub (cx * C) (cy * Sn)
        push_cast; linarith)
    rw [h48]; linarith
  · have h := rnd_err_units r hr B hB
      (r (r (r (r (x + cx) - x) * Sn) + r (r (r (y + cy) - y) * C)) + y)
      (y + cx * Sn + cy * C) 24 3 (by norm_num)
      (by
        rw [show r (r (r (r (x + cx) - x) * Sn) + r (r (r (y + cy) - y) * C)) + y
            - (y + cx * Sn + cy * C)
          = r (r (r (r (x + cx) - x) * Sn) + r (r (r (y + cy) - y) * C))
            - (cx * Sn + cy * C) by ring]
        exact hyR)
      (by
        rw [show y + cx * Sn + cy * C = y + (cx * Sn + cy * C) by ring]
        refine (abs_add _ _).trans ?_
        have := abs_add (cx * Sn) (cy * C)
        push_cast; linarith)
    rw [h48]; linarith

/-- The float64 run of `rotatePoint` as `ApplyRotationCorrection` calls it: for
coordinates and centre offsets of magnitude at most `B`, and a cosine and sine of
magnitude at most 1, the result is within `B / 2 ^ 48` of the exact rotation. -/
theorem rotatePoint_binary64_near (Cos Sin : ℚ → ℚ) (x y cx cy theta B : ℚ) (hB : 1 ≤ B)
    (hx : |x| ≤ B) (hy : |y| ≤ B) (hcx : |cx| ≤ B) (hcy : |cy| ≤ B)
    (hcos : |Cos ((binary64 Cos Sin).mul theta (binary64 Cos Sin).radPerDeg)| ≤ 1)
    (hsin : |Sin ((binary64 Cos Sin).mul theta (binary64 Cos Sin).radPerDeg)| ≤ 1) :
    |(rotatePoint (binary64 Cos Sin) ((binary64 Cos Sin).add x cx)
        ((binary64 Cos Sin).add y cy) x y theta).1
      - (x + cx * Cos ((binary64 Cos Sin).mul theta (binary64 Cos Sin).radPerDeg)
          - cy * Sin ((binary64 Cos Sin).mul theta (binary64 Cos Sin).radPerDeg))|
        ≤ B / 2 ^ 48 ∧
    |(rotatePoint (binary64 Cos Sin) ((binary64 Cos Sin).add x cx)
        ((binary64 Cos Sin).add y cy) x y theta).2
      - (y + cx * Sin ((binary64 Cos Sin).mul theta (binary64 Cos Sin).radPerDeg)
          + cy * Cos ((binary64 Cos Sin).mul theta (binary64 Cos Sin).radPerDeg))|
        ≤ B / 2 ^ 48 :=
  rotate_err round64 abs_round64_sub_le_rel x y cx cy _ _ B hB hx hy hcx hcy hcos hsin

/-- C4, as the code has it.  In float64, when `c` is the entry the sort puts first among
the matches (a matching entry of greatest pattern length), the coordinates and the
centre offsets have magnitude at most `B` (between 1 and `2 ^ 1000`, so that nothing
overflows), cosine and sine have magnitude at most 1 at the float64 angle
`rotation * (pi / 180)`, and the float sum `rotation + c.Rotation` has magnitude below
`2 ^ 56`: the call returns (with enough fuel; more fuel gives the same result) a
position within `B / 2 ^ 48` of the stated one and a rotation of [0, 360) that differs
from the float sum by a multiple of 360, up to `2 ^ (-45)`. -/
theorem ApplyRotationCorrection_float64 (Cos Sin : ℚ → ℚ) (S : SliceSort)
    (rotationDB : List RotationCorrection) (pkg : String) (x y rotation B : ℚ)
    (c : RotationCorrection) (t : List RotationCorrection)
    (hbest : S.sort (lengthGreater RotationCorrection.FootprintPattern)
      (rotationDB.filter (fun e => e.FootprintPattern.MatchString pkg)) = c :: t)
    (hB : 1 ≤ B) (hBmax : B ≤ 2 ^ 1000) (hx : |x| ≤ B) (hy : |y| ≤ B)
    (hcx : |c.CenterX| ≤ B) (hcy : |c.CenterY| ≤ B)
    (hcos : |Cos ((binary64 Cos Sin).mul rotation (binary64 Cos Sin).radPerDeg)| ≤ 1)
    (hsin : |Sin ((binary64 Cos Sin).mul rotation (binary64 Cos Sin).radPerDeg)| ≤ 1)
    (hrot : |round64 (rotation + c.Rotation)| < 2 ^ 56) :
    c ∈ rotationDB ∧ c.FootprintPattern.MatchString pkg = true ∧
    (∀ e ∈ rotationDB, e.FootprintPattern.MatchString pkg = true →
      e.FootprintPattern.Length ≤ c.FootprintPattern.Length) ∧
    ∃ x' y' r' : ℚ,
      (∃ n, ∀ fuel, n ≤ fuel →
        ApplyRotationCorrection (binary64 Cos Sin) S rotationDB fuel pkg x y rotation
          = some (x', y', r')) ∧
      |x' - (specPosition (binary64 Cos Sin) c x y rotation).1| ≤ B / 2 ^ 48 ∧
      |y' - (specPosition (binary64 Cos Sin) c x y rotation).2| ≤ B / 2 ^ 48 ∧
      0 ≤ r' ∧ r' < 360 ∧
      ∃ k : ℤ, |r' - (round64 (rotation + c.Rotation) + 360 * k)| ≤ 1 / 2 ^ 45 := by
  have _ := hBmax
  obtain ⟨hmem, hmax⟩ := S.head_mem_and_longest _ _ c t hbest
  obtain ⟨hdb, hm⟩ := List.mem_filter.mp hmem
  obtain ⟨r, hr0, hr360, hk, hfuel⟩ := clampRotation_binary64_spec Cos Sin
    (round64 (rotation + c.Rotation)) (round64_idem _) hrot
  obtain ⟨hxn, hyn⟩ := rotatePoint_binary64_near Cos Sin x y c.CenterX c.CenterY rotation B hB
    hx hy hcx hcy hcos hsin
  refine ⟨hdb, hm, fun e he hme => hmax e (List.mem_filter.mpr ⟨he, hme⟩), _, _, r,
    ⟨⌈|round64 (rotation + c.Rotation)| / 104⌉₊ + 4, fun fuel hle => ?_⟩, hxn, hyn, hr0,
    hr360, hk⟩
  rw [ApplyRotationCorrection_of_sort_eq _ S rotationDB fuel pkg x y rotation c t hbest,
    applyCorrection]
  have hclamp : clampRotation (binary64 Cos Sin) fuel
      ((binary64 Cos Sin).add rotation c.Rotation) = some r := hfuel fuel hle
  rw [hclamp]
  rfl

/-- The hypotheses of the float64 statement hold for the one-entry table,
`IDC-Header_2x10_P2.54mm_Vertical` at (30.988, -89.44, 90), the bound 128, and the cosine
and sine that are 0 and 1 everywhere. -/
theorem ApplyRotationCorrection_float64_witness :
    ∃ x' y' r' : ℚ,
      (∃ n, ∀ fuel, n ≤ fuel →
        ApplyRotationCorrection (binary64 (fun _ => 0) (fun _ => 1)) insertionSortSlice
          idcHeaderDB fuel "IDC-Header_2x10_P2.54mm_Vertical"
          (round64 (30988 / 1000)) (round64 (-8944 / 100)) 90 = some (x', y', r')) ∧
      |x' - (specPosition (binary64 (fun _ => 0) (fun _ => 1)) idcHeaderEntry
          (round64 (30988 / 1000)) (round64 (-8944 / 100)) 90).1| ≤ 128 / 2 ^ 48 ∧
      |y' - (specPosition (binary64 (fun _ => 0) (fun _ => 1)) idcHeaderEntry
          (round64 (30988 / 1000)) (round64 (-8944 / 100)) 90).2| ≤ 128 / 2 ^ 48 ∧
      0 ≤ r' ∧ r' < 360 ∧
      ∃ k : ℤ, |r' - (round64 (90 + idcHeaderEntry.Rotation) + 360 * k)| ≤ 1 / 2 ^ 45 :=
  (ApplyRotationCorrection_float64 (fun _ => 0) (fun _ => 1) insertionSortSlice idcHeaderDB
    "IDC-Header_2x10_P2.54mm_Vertical" (round64 (30988 / 1000)) (round64 (-8944 / 100)) 90
    128 idcHeaderEntry [] rfl (by norm_num) (by norm_num)
    ((abs_round64_le _ 127 (by rw [abs_le]; constructor <;> norm_num)).trans (by norm_num))
    ((abs_round64_le _ 127 (by rw [abs_le]; constructor <;> norm_num)).trans (by norm_num))
    ((abs_round64_le _ 127 (by rw [abs_le]; constructor <;> norm_num)).trans (by norm_num))
    (by norm_num [idcHeaderEntry, abs_le]) (by norm_num) (by norm_num)
    (by norm_num [idcHeaderEntry, round64_zero])).2.2.2

/-! ## Rounding at particular values -/

theorem round64_1e16_add_half : round64 (10 ^ 16 + 1 / 2) = 10 ^ 16 := by
  rw [round64_eq (10 ^ 16 + 1 / 2) 53 5000000000000000 (by norm_num)
    (by norm_num [abs_of_pos]) (by norm_num [abs_of_pos]) (by norm_num) (by norm_num)]
  norm_num

theorem round64_1e16 : round64 (10 ^ 16) = 10 ^ 16 := by
  rw [round64_eq (10 ^ 16) 53 5000000000000000 (by norm_num)
    (by norm_num [abs_of_pos]) (by norm_num [abs_of_pos]) (by norm_num) (by norm_num)]
  norm_num

/-- C4 fails in float64: for x = 10 ^ 16 and the entry that moves the centre by 1/2
along x, (x + 1/2) - x rounds to 0, so the position comes back unchanged, while the
stated position has y' = sin(t) / 2.  No cosine and sine with sin(t) ≠ 0 at the float64
angle t make the call return the stated position. -/
theorem ApplyRotationCorrection_loses_offset :
    ¬ ∃ (Cos Sin : ℚ → ℚ) (fuel : Nat) (r' : ℚ),
      Sin ((binary64 Cos Sin).mul 90 (binary64 Cos Sin).radPerDeg) ≠ 0 ∧
      ApplyRotationCorrection (binary64 Cos Sin) insertionSortSlice halfOffsetDB fuel
          "R_0603" (10 ^ 16) 0 90
        = some ((specPosition (binary64 Cos Sin) ⟨literalPattern "R_0603", 0, 1 / 2, 0⟩
              (10 ^ 16) 0 90).1,
            (specPosition (binary64 Cos Sin) ⟨literalPattern "R_0603", 0, 1 / 2, 0⟩
              (10 ^ 16) 0 90).2, r') := by
  rintro ⟨Cos, Sin, fuel, r', hsin, h⟩
  obtain ⟨c, hc, -, -, -, happly⟩ := ApplyRotationCorrection_eq_applyCorrection
    (binary64 Cos Sin) insertionSortSlice halfOffsetDB "R_0603" (10 ^ 16) 0 90
    ⟨_, List.mem_cons_self _ _, by decide⟩
  simp only [halfOffsetDB, List.mem_singleton] at hc
  subst hc
  rw [happly fuel] at h
  simp only [applyCorrection, rotatePoint, specPosition, FloatOps.add, FloatOps.sub,
    FloatOps.mul, binary64, round64_1e16_add_half, round64_1e16, round64_zero, add_zero,
    zero_add, sub_self, zero_mul, Option.map_eq_some'] at h
  obtain ⟨r, -, hr⟩ := h
  have hy := congrArg (fun p => p.2.1) hr
  simp only at hy
  apply hsin
  simp only [binary64, FloatOps.mul]
  linarith

/-! ## Angles the second loop cannot reduce -/

theorem clampRotationDown_stuck (F : FloatOps) (a : ℚ) (h360 : 360 ≤ a)
    (hfix : F.sub a 360 = a) : ∀ fuel, clampRotationDown F fuel a = none := by
  intro fuel
  induction fuel with
  | zero => rfl
  | succ n ih => rw [clampRotationDown, if_pos h360, hfix, ih]

theorem clampRotation_stuck (F : FloatOps) (a : ℚ) (h360 : 360 ≤ a)
    (hfix : F.sub a 360 = a) (fuel : Nat) : clampRotation F fuel a = none := by
  unfold clampRotation
  cases fuel with
  | zero => rfl
  | succ n =>
    have hneg : ¬ a < 0 := by linarith
    rw [clampRotationUp, if_neg hneg, Option.some_bind]
    exact clampRotationDown_stuck F a h360 hfix (n + 1)

theorem round64_two_pow_63_sub : round64 (2 ^ 63 - 360) = 2 ^ 63 := by
  rw [round64_eq (2 ^ 63 - 360) 62 9007199254740992 (by norm_num)
    (by norm_num [abs_of_pos]) (by norm_num [abs_of_pos]) (by norm_num) (by norm_num)]
  norm_num

theorem round64_1e19_sub : round64 (10 ^ 19 - 360) = 10 ^ 19 := by
  rw [round64_eq (10 ^ 19 - 360) 63 4882812500000000 (by norm_num)
    (by norm_num [abs_of_pos]) (by norm_num [abs_of_pos]) (by norm_num) (by norm_num)]
  norm_num

theorem round64_1e19 : round64 (10 ^ 19) = 10 ^ 19 := by
  have h := round64_of_grid_lt (5 ^ 19) 19 (by norm_num) (by norm_num)
  have e : ((5 ^ 19 : ℤ) : ℚ) * 2 ^ (19 : ℤ) = 10 ^ 19 := by norm_num
  rwa [e] at h

theorem round64_two_pow_63 : round64 (2 ^ 63) = 2 ^ 63 := by
  have h := round64_of_grid_lt 1 63 (by norm_num) (by norm_num)
  have e : ((1 : ℤ) : ℚ) * 2 ^ (63 : ℤ) = 2 ^ 63 := by norm_num
  rwa [e] at h

theorem round64_two_pow_63_add : round64 (2 ^ 63 + 180) = 2 ^ 63 := by
  rw [round64_eq (2 ^ 63 + 180) 63 4503599627370496 (by norm_num)
    (by norm_num [abs_of_pos]) (by norm_num [abs_of_pos]) (by norm_num) (by norm_num)]
  norm_num

/-- C7: the float64 value 10 ^ 19 is an angle for which `clampRotation` returns
nothing.  10 ^ 19 - 360 rounds back to 10 ^ 19, so the loop `for angle >= 360` never
leaves it: whatever the fuel, the result is `none`. -/
theorem clampRotation_1e19_never_returns :
    round64 (10 ^ 19) = 10 ^ 19 ∧
    (binary64 (fun _ => 0) (fun _ => 1)).sub (10 ^ 19) 360 = 10 ^ 19 ∧
    ∀ (Cos Sin : ℚ → ℚ) (fuel : Nat),
      clampRotation (binary64 Cos Sin) fuel (10 ^ 19) = none :=
  ⟨round64_1e19, round64_1e19_sub, fun Cos Sin fuel =>
    clampRotation_stuck (binary64 Cos Sin) (10 ^ 19) (by norm_num) round64_1e19_sub fuel⟩

/-- C8: the float64 value 2 ^ 63 is an angle on which the loops of `clampRotation` do
not terminate.  2 ^ 63 - 360 rounds back to 2 ^ 63: whatever the fuel, the result is
`none`. -/
theorem clampRotation_two_pow_63_never_returns :
    round64 (2 ^ 63) = 2 ^ 63 ∧
    (binary64 (fun _ => 0) (fun _ => 1)).sub (2 ^ 63) 360 = 2 ^ 63 ∧
    ∀ (Cos Sin : ℚ → ℚ) (fuel : Nat),
      clampRotation (binary64 Cos Sin) fuel (2 ^ 63) = none :=
  ⟨round64_two_pow_63, round64_two_pow_63_sub, fun Cos Sin fuel =>
    clampRotation_stuck (binary64 Cos Sin) (2 ^ 63) (by norm_num) round64_two_pow_63_sub fuel⟩

/-! ## float64 values of `clampRotation` -/

theorem round64_neg_milli : round64 (-1 / 1000) = -1152921504606847 / 1152921504606846976 := by
  rw [round64_eq (-1 / 1000) (-10) (-4611686018427388) (by norm_num)
    (by norm_num [abs_of_neg]) (by norm_num [abs_of_neg]) (by norm_num) (by norm_num)]
  norm_num

theorem round64_neg_milli_add :
    round64 (415050588736960304513 / 1152921504606846976) = 1583292345950929 / 4398046511104 := by
  rw [round64_eq (415050588736960304513 / 1152921504606846976) 8 6333169383803716 (by norm_num)
    (by norm_num [abs_of_pos]) (by norm_num [abs_of_pos]) (by norm_num) (by norm_num)]
  norm_num

theorem round64_359999_milli : round64 (359999 / 1000) = 1583292345950929 / 4398046511104 := by
  rw [round64_eq (359999 / 1000) 8 6333169383803716 (by norm_num)
    (by norm_num [abs_of_pos]) (by norm_num [abs_of_pos]) (by norm_num) (by norm_num)]
  norm_num

theorem round64_721_half : round64 (721 / 2) = 721 / 2 := by
  rw [round64_eq (721 / 2) 8 6341983069011968 (by norm_num)
    (by norm_num [abs_of_pos]) (by norm_num [abs_of_pos]) (by norm_num) (by norm_num)]
  norm_num

theorem round64_half : round64 (1 / 2) = 1 / 2 := by
  rw [round64_eq (1 / 2) (-1) 4503599627370496 (by norm_num)
    (by norm_num [abs_of_pos]) (by norm_num [abs_of_pos]) (by norm_num) (by norm_num)]
  norm_num

theorem round64_tenth : round64 (1 / 10) = 3602879701896397 / 36028797018963968 := by
  rw [round64_eq (1 / 10) (-4) 7205759403792794 (by norm_num)
    (by norm_num [abs_of_pos]) (by norm_num [abs_of_pos]) (by norm_num) (by norm_num)]
  norm_num

theorem round64_tenth_add :
    round64 (12973969806528924877 / 36028797018963968) = 3167473097297101 / 8796093022208 := by
  rw [round64_eq (12973969806528924877 / 36028797018963968) 8 6334946194594202 (by norm_num)
    (by norm_num [abs_of_pos]) (by norm_num [abs_of_pos]) (by norm_num) (by norm_num)]
  norm_num

theorem round64_tenth_add_sub :
    round64 (879609302221 / 8796093022208) = 879609302221 / 8796093022208 := by
  rw [round64_eq (879609302221 / 8796093022208) (-4) 7205759403794432 (by norm_num)
    (by norm_num [abs_of_pos]) (by norm_num [abs_of_pos]) (by norm_num) (by norm_num)]
  norm_num

theorem round64_tenth_back :
    round64 (-(3165713878692659 / 8796093022208)) = -3165713878692659 / 8796093022208 := by
  rw [round64_eq (-(3165713878692659 / 8796093022208)) 8 (-6331427757385318) (by norm_num)
    (by norm_num [abs_of_neg]) (by norm_num [abs_of_neg]) (by norm_num) (by norm_num)]
  norm_num

theorem clampRotation_mono (F : FloatOps) (fuel : Nat) (a r : ℚ)
    (h : clampRotation F fuel a = some r) (fuel' : Nat) (hle : fuel ≤ fuel') :
    clampRotation F fuel' a = some r := by
  unfold clampRotation at h ⊢
  obtain ⟨b, hb, hr⟩ := Option.bind_eq_some.mp h
  rw [clampRotationUp_mono F fuel a b hb fuel' hle]
  exact clampRotationDown_mono F fuel b r hr fuel' hle

theorem clampRotation_360 (Cos Sin : ℚ → ℚ) :
    clampRotation (binary64 Cos Sin) 2 360 = some 0 := by
  norm_num [clampRotation, clampRotationUp, clampRotationDown, FloatOps.sub, binary64,
    round64_zero]

theorem clampRotation_neg_milli (Cos Sin : ℚ → ℚ) :
    clampRotation (binary64 Cos Sin) 2 (round64 (-1 / 1000))
      = some (round64 (359999 / 1000)) := by
  rw [round64_neg_milli, round64_359999_milli]
  norm_num [clampRotation, clampRotationUp, clampRotationDown, FloatOps.add, binary64,
    round64_neg_milli_add]

theorem clampRotation_7205 (Cos Sin : ℚ → ℚ) :
    clampRotation (binary64 Cos Sin) 3 (1441 / 2) = some (1 / 2) := by
  norm_num [clampRotation, clampRotationUp, clampRotationDown, FloatOps.sub, binary64,
    round64_721_half, round64_half]


theorem round64_near_1024 : round64 (72057594037927933 / 70368744177664) = 1024 := by
  rw [round64_eq (72057594037927933 / 70368744177664) 9 9007199254740992 (by norm_num)
    (by norm_num [abs_of_pos]) (by norm_num [abs_of_pos]) (by norm_num) (by norm_num)]
  norm_num

theorem round64_near_360 :
    round64 (25332747903959037 / 70368744177664) = 6333186975989759 / 17592186044416 := by
  rw [round64_eq (25332747903959037 / 70368744177664) 8 6333186975989759 (by norm_num)
    (by norm_num [abs_of_pos]) (by norm_num [abs_of_pos]) (by norm_num) (by norm_num)]
  norm_num

theorem round64_int (m : ℤ) (hm : |m| < 2 ^ 53) : round64 (m : ℚ) = m := by
  have h := round64_of_grid_lt m 0 (by norm_num) hm
  simpa using h

theorem clampRotation_wraps (Cos Sin : ℚ → ℚ) :
    round64 (-3 / 2 ^ 46) = -3 / 2 ^ 46 ∧
    clampRotation (binary64 Cos Sin) 3 ((binary64 Cos Sin).add (-3 / 2 ^ 46) 1024)
      = some 304 ∧
    clampRotation (binary64 Cos Sin) 3 ((binary64 Cos Sin).add 304 (-1024)) = some 0 ∧
    clampRotation (binary64 Cos Sin) 3 (-3 / 2 ^ 46) = some (360 - 1 / 2 ^ 44) := by
  have h664 : round64 664 = 664 := by simpa using round64_int 664 (by norm_num)
  have h304 : round64 304 = 304 := by simpa using round64_int 304 (by norm_num)
  have h720 : round64 (-720) = -720 := by simpa using round64_int (-720) (by norm_num)
  have h360 : round64 (-360) = -360 := by simpa using round64_int (-360) (by norm_num)
  refine ⟨?_, ?_, ?_, ?_⟩
  · have h := round64_of_grid_lt (-3) (-46) (by norm_num) (by norm_num)
    have e : ((-3 : ℤ) : ℚ) * 2 ^ (-46 : ℤ) = -3 / 2 ^ 46 := by
      rw [zpow_neg]; norm_num
    rwa [e] at h
  · norm_num [clampRotation, clampRotationUp, clampRotationDown, FloatOps.add, FloatOps.sub,
      binary64, round64_near_1024, h664, h304]
  · norm_num [clampRotation, clampRotationUp, clampRotationDown, FloatOps.add, FloatOps.sub,
      binary64, h720, h360, round64_zero]
  · norm_num [clampRotation, clampRotationUp, clampRotationDown, FloatOps.add, FloatOps.sub,
      binary64, round64_near_360]

/-- C9 fails in float64.  For t = 0.1 and k = 360: 0.1 + 360 rounds, the first
normalisation returns 0.10000000000002274, and adding -360 and normalising again
returns that same value, which is not `clampRotation(0.1)` = 0.1.  For t = -3 / 2 ^ 46
and k = 1024: t + 1024 rounds to 1024, the round trip returns 0, and `clampRotation(t)`
is 360 - 2 ^ (-44), almost a full turn away. -/
theorem clampRotation_offset_not_undone :
    (clampRotation (binary64 (fun _ => 0) (fun _ => 1)) 2
        ((binary64 (fun _ => 0) (fun _ => 1)).add (round64 (1 / 10)) 360)
      = some (879609302221 / 8796093022208) ∧
    clampRotation (binary64 (fun _ => 0) (fun _ => 1)) 2
        ((binary64 (fun _ => 0) (fun _ => 1)).add (879609302221 / 8796093022208) (-360))
      = some (879609302221 / 8796093022208) ∧
    clampRotation (binary64 (fun _ => 0) (fun _ => 1)) 2 (round64 (1 / 10))
      = some (round64 (1 / 10)) ∧
    (879609302221 / 8796093022208 : ℚ) ≠ round64 (1 / 10)) ∧
    (round64 (-3 / 2 ^ 46) = -3 / 2 ^ 46 ∧
    clampRotation (binary64 (fun _ => 0) (fun _ => 1)) 3
        ((binary64 (fun _ => 0) (fun _ => 1)).add (-3 / 2 ^ 46) 1024) = some 304 ∧
    clampRotation (binary64 (fun _ => 0) (fun _ => 1)) 3
        ((binary64 (fun _ => 0) (fun _ => 1)).add 304 (-1024)) = some 0 ∧
    clampRotation (binary64 (fun _ => 0) (fun _ => 1)) 3 (-3 / 2 ^ 46)
      = some (360 - 1 / 2 ^ 44)) := by
  refine ⟨?_, clampRotation_wraps _ _⟩
  rw [round64_tenth]
  refine ⟨?_, ?_, ?_, by norm_num⟩
  · norm_num [clampRotation, clampRotationUp, clampRotationDown, FloatOps.add, FloatOps.sub,
      binary64, round64_tenth_add, round64_tenth_add_sub]
  · norm_num [clampRotation, clampRotationUp, clampRotationDown, FloatOps.add, FloatOps.sub,
      binary64, round64_tenth_back, round64_tenth_add_sub]
  · norm_num [clampRotation, clampRotationUp, clampRotationDown]

/-- C9, as the code has it.  In float64, for a rotation t (a binary64 value) and an
offset k of magnitude at most `B` (between 1 and `2 ^ 54`): normalising t + k, adding -k
and normalising again returns a value, normalising t returns a value, both lie in
[0, 360), and the two differ by a multiple of 360 up to `B / 2 ^ 42`. -/
theorem clampRotation_offset_undone (Cos Sin : ℚ → ℚ) (t k B : ℚ) (ht : round64 t = t)
    (hB : 1 ≤ B) (hBmax : B ≤ 2 ^ 54) (htB : |t| ≤ B) (hkB : |k| ≤ B) :
    ∃ r1 r2 r0 : ℚ,
      (∃ n, ∀ fuel, n ≤ fuel →
        clampRotation (binary64 Cos Sin) fuel ((binary64 Cos Sin).add t k) = some r1 ∧
        clampRotation (binary64 Cos Sin) fuel ((binary64 Cos Sin).add r1 (-k)) = some r2 ∧
        clampRotation (binary64 Cos Sin) fuel t = some r0) ∧
      0 ≤ r2 ∧ r2 < 360 ∧ 0 ≤ r0 ∧ r0 < 360 ∧
      ∃ j : ℤ, |r2 - (r0 + 360 * j)| ≤ B / 2 ^ 42 := by
  have htk : |t + k| ≤ 2 * B := (abs_add _ _).trans (by linarith)
  have he1 := abs_round64_sub_le_rel (t + k)
  have hu1 : (|t + k| + 1) / 2 ^ 53 ≤ (2 * B + 1) / 2 ^ 53 :=
    div_le_div_of_nonneg_right (by linarith) (by positivity)
  have ha1 : |round64 (t + k)| < 2 ^ 56 :=
    lt_of_le_of_lt (abs_round64_le _ _ htk) (by
      have : (2 * B + 1) / 2 ^ 53 ≤ 2 * B + 1 := div_le_self (by linarith) (by norm_num)
      linarith)
  obtain ⟨r1, hr10, hr1360, ⟨k1, hk1⟩, hf1⟩ := clampRotation_binary64_spec Cos Sin
    (round64 (t + k)) (round64_idem _) ha1
  have hrk : |r1 + -k| ≤ B + 360 := by
    refine (abs_add _ _).trans ?_
    rw [abs_neg, abs_of_nonneg hr10]
    linarith
  have he2 := abs_round64_sub_le_rel (r1 + -k)
  have hu2 : (|r1 + -k| + 1) / 2 ^ 53 ≤ (B + 361) / 2 ^ 53 :=
    div_le_div_of_nonneg_right (by linarith) (by positivity)
  have ha2 : |round64 (r1 + -k)| < 2 ^ 56 :=
    lt_of_le_of_lt (abs_round64_le _ _ hrk) (by
      have : (B + 360 + 1) / 2 ^ 53 ≤ B + 360 + 1 := div_le_self (by linarith) (by norm_num)
      linarith)
  obtain ⟨r2, hr20, hr2360, ⟨k2, hk2⟩, hf2⟩ := clampRotation_binary64_spec Cos Sin
    (round64 (r1 + -k)) (round64_idem _) ha2
  obtain ⟨r0, hr00, hr0360, ⟨k0, hk0⟩, hf0⟩ := clampRotation_binary64_spec Cos Sin t ht
    (lt_of_le_of_lt htB (by linarith))
  refine ⟨r1, r2, r0, ⟨max (⌈|round64 (t + k)| / 104⌉₊ + 4)
      (max (⌈|round64 (r1 + -k)| / 104⌉₊ + 4) (⌈|t| / 104⌉₊ + 4)), fun fuel hle => ⟨?_, ?_, ?_⟩⟩,
    hr20, hr2360, hr00, hr0360, k1 + k2 - k0, ?_⟩
  · exact hf1 fuel (le_trans (le_max_left _ _) hle)
  · exact hf2 fuel (le_trans (le_trans (le_max_left _ _) (le_max_right _ _)) hle)
  · exact hf0 fuel (le_trans (le_trans (le_max_right _ _) (le_max_right _ _)) hle)
  · have hsplit : r2 - (r0 + 360 * ((k1 + k2 - k0 : ℤ) : ℚ))
        = (r2 - (round64 (r1 + -k) + 360 * k2)) + (round64 (r1 + -k) - (r1 + -k))
          + (r1 - (round64 (t + k) + 360 * k1)) + (round64 (t + k) - (t + k))
          - (r0 - (t + 360 * k0)) := by
      push_cast; ring
    rw [hsplit]
    have h5 := abs_sub
      ((r2 - (round64 (r1 + -k) + 360 * k2)) + (round64 (r1 + -k) - (r1 + -k))
          + (r1 - (round64 (t + k) + 360 * k1)) + (round64 (t + k) - (t + k)))
      (r0 - (t + 360 * k0))
    have h4 := abs_add
      ((r2 - (round64 (r1 + -k) + 360 * k2)) + (round64 (r1 + -k) - (r1 + -k))
          + (r1 - (round64 (t + k) + 360 * k1))) (round64 (t + k) - (t + k))
    have h3 := abs_add
      ((r2 - (round64 (r1 + -k) + 360 * k2)) + (round64 (r1 + -k) - (r1 + -k)))
      (r1 - (round64 (t + k) + 360 * k1))
    have h2 := abs_add (r2 - (round64 (r1 + -k) + 360 * k2)) (round64 (r1 + -k) - (r1 + -k))
    have hfin : 1 / 2 ^ 45 + (B + 361) / 2 ^ 53 + 1 / 2 ^ 45 + (2 * B + 1) / 2 ^ 53
        + 1 / 2 ^ 45 ≤ B / 2 ^ 42 := by
      rw [show (1 : ℚ) / 2 ^ 45 + (B + 361) / 2 ^ 53 + 1 / 2 ^ 45 + (2 * B + 1) / 2 ^ 53
          + 1 / 2 ^ 45 = (3 * B + 1130) / 2 ^ 53 by ring,
        show B / 2 ^ 42 = (2048 * B) / 2 ^ 53 by ring]
      exact div_le_div_of_nonneg_right (by linarith) (by positivity)
    linarith

/-- The hypotheses of the float64 round trip hold for t = 0.1 and k = 360 with the bound
360. -/
theorem clampRotation_offset_undone_witness :
    ∃ r1 r2 r0 : ℚ,
      (∃ n, ∀ fuel, n ≤ fuel →
        clampRotation (binary64 (fun _ => 0) (fun _ => 1)) fuel
          ((binary64 (fun _ => 0) (fun _ => 1)).add (round64 (1 / 10)) 360) = some r1 ∧
        clampRotation (binary64 (fun _ => 0) (fun _ => 1)) fuel
          ((binary64 (fun _ => 0) (fun _ => 1)).add r1 (-360)) = some r2 ∧
        clampRotation (binary64 (fun _ => 0) (fun _ => 1)) fuel (round64 (1 / 10)) = some r0) ∧
      0 ≤ r2 ∧ r2 < 360 ∧ 0 ≤ r0 ∧ r0 < 360 ∧
      ∃ j : ℤ, |r2 - (r0 + 360 * j)| ≤ 360 / 2 ^ 42 :=
  clampRotation_offset_undone (fun _ => 0) (fun _ => 1) (round64 (1 / 10)) 360 360
    (round64_idem _) (by norm_num) (by norm_num)
    ((abs_round64_le _ 1 (by rw [abs_le]; constructor <;> norm_num)).trans (by norm_num))
    (by norm_num)

/-! ## The number of iterations -/

/-- A natural number below `2 ^ 53` is a binary64 value. -/
theorem round64_natCast (m : ℕ) (hm : m < 2 ^ 53) : round64 (m : ℚ) = m := by
  by_cases h0 : m = 0
  · subst h0; simp [round64]
  · have hne : (m : ℚ) ≠ 0 := by exact_mod_cast h0
    have hlog : Nat.log 2 m < 53 := Nat.log_lt_of_lt_pow h0 hm
    obtain ⟨d, hd⟩ : ∃ d : ℕ, Nat.log 2 m + d = 52 := ⟨52 - Nat.log 2 m, by omega⟩
    have habs : |(m : ℚ)| = m := abs_of_nonneg (by positivity)
    have hexp : max (Int.log 2 |(m : ℚ)| - 52) (-1074) = -(d : ℤ) := by
      rw [habs, Int.log_natCast, max_eq_left (by omega)]; omega
    have hq : (2 : ℚ) ^ (-(d : ℤ)) = ((2 : ℚ) ^ d)⁻¹ := by
      rw [zpow_neg, zpow_natCast]
    have hpow : (0 : ℚ) < 2 ^ d := by positivity
    have hint : (m : ℚ) / ((2 : ℚ) ^ d)⁻¹ = (((m * 2 ^ d : ℕ) : ℤ) : ℚ) := by
      push_cast; field_simp
    unfold round64
    rw [if_neg hne]
    simp only [hexp, hq]
    rw [hint, roundHalfEven_intCast]
    push_cast
    field_simp

theorem clampRotationDown_multiple (Cos Sin : ℚ → ℚ) :
    ∀ j : ℕ, 360 * j < 2 ^ 53 →
      (∀ fuel, fuel ≤ j → clampRotationDown (binary64 Cos Sin) fuel (360 * j) = none) ∧
      clampRotationDown (binary64 Cos Sin) (j + 1) (360 * j) = some 0 := by
  intro j
  induction j with
  | zero =>
    intro _
    refine ⟨fun fuel hle => ?_, ?_⟩
    · obtain rfl : fuel = 0 := by omega
      rfl
    · norm_num [clampRotationDown]
  | succ j ih =>
    intro hj
    have h53 : (2 : ℕ) ^ 53 = 9007199254740992 := by norm_num
    rw [h53] at hj
    obtain ⟨ihnone, ihsome⟩ := ih (by rw [h53]; omega)
    have hj0 : (0 : ℚ) ≤ (j : ℚ) := by positivity
    have hge : (360 : ℚ) ≤ 360 * ((j + 1 : ℕ) : ℚ) := by push_cast; linarith
    have hstep : (binary64 Cos Sin).sub (360 * ((j + 1 : ℕ) : ℚ)) 360 = 360 * (j : ℚ) := by
      have hcast : (360 * ((j + 1 : ℕ) : ℚ)) - 360 = ((360 * j : ℕ) : ℚ) := by
        push_cast; ring
      show round64 _ = _
      rw [hcast, round64_natCast _ (by rw [h53]; omega)]
      push_cast; ring
    refine ⟨fun fuel hle => ?_, ?_⟩
    · cases fuel with
      | zero => rfl
      | succ f =>
        rw [clampRotationDown, if_pos hge, hstep]
        exact ihnone f (by omega)
    · rw [clampRotationDown, if_pos hge, hstep]
      exact ihsome

theorem clampRotation_multiple (Cos Sin : ℚ → ℚ) (n : ℕ) (hn : 360 * n < 2 ^ 53) :
    clampRotation (binary64 Cos Sin) n (360 * n) = none ∧
    clampRotation (binary64 Cos Sin) (n + 1) (360 * n) = some 0 := by
  obtain ⟨hnone, hsome⟩ := clampRotationDown_multiple Cos Sin n hn
  have hn0 : (0 : ℚ) ≤ (n : ℚ) := by positivity
  have hneg : ¬ (360 * (n : ℚ)) < 0 := by linarith
  constructor
  · unfold clampRotation
    cases n with
    | zero => rfl
    | succ m =>
      rw [clampRotationUp, if_neg hneg, Option.some_bind]
      exact hnone (m + 1) le_rfl
  · unfold clampRotation
    rw [clampRotationUp, if_neg hneg, Option.some_bind]
    exact hsome

/-! ## The scenario of the specification -/

theorem round64_near (v c d : ℚ) (h : |v - c| ≤ d) (hlo : -256 < c - d) (hhi : c + d < 256) :
    |round64 v - c| ≤ d + 1 / 10 ^ 9 := by
  obtain ⟨h1, h2⟩ := abs_le.mp h
  have hv : |v| < 2 ^ (8 : ℤ) := by
    rw [abs_lt]; norm_num; constructor <;> linarith
  have hsmall : (2 : ℚ) ^ ((8 : ℤ) - 54) ≤ 1 / 10 ^ 9 := by
    rw [show ((8 : ℤ) - 54) = -46 by norm_num, zpow_neg]
    norm_num
  obtain ⟨hr1, hr2⟩ := abs_le.mp
    ((abs_round64_sub_le_zpow v 8 (by norm_num) hv).trans hsmall)
  rw [abs_le]
  constructor <;> linarith

theorem mul_near (a b a0 b0 da db A0 B0 : ℚ) (ha : |a - a0| ≤ da) (hb : |b - b0| ≤ db)
    (hA : |a0| ≤ A0) (hB : |b0| ≤ B0) :
    |a * b - a0 * b0| ≤ da * B0 + A0 * db + da * db := by
  have hda : 0 ≤ da := (abs_nonneg _).trans ha
  have hA0 : 0 ≤ A0 := (abs_nonneg _).trans hA
  have h1 : |(a - a0) * b0| ≤ da * B0 := by
    rw [abs_mul]; exact mul_le_mul ha hB (abs_nonneg _) hda
  have h2 : |a0 * (b - b0)| ≤ A0 * db := by
    rw [abs_mul]; exact mul_le_mul hA hb (abs_nonneg _) hA0
  have h3 : |(a - a0) * (b - b0)| ≤ da * db := by
    rw [abs_mul]; exact mul_le_mul ha hb (abs_nonneg _) hda
  have hsplit : a * b - a0 * b0 = (a - a0) * b0 + a0 * (b - b0) + (a - a0) * (b - b0) := by
    ring
  rw [hsplit]
  exact (abs_add_three _ _ _).trans (by linarith)

/-- The float64 run of the scenario: with the entry for `IDC-Header.*` applied at
(30.988, -89.44, 90) and a cosine and sine that are within 1e-6 of 0 and 1 at the
quarter turn, the result is within 1e-4 of (29.738, -77.89) with rotation 0. -/
theorem applyCorrection_idcHeader (Cos Sin : ℚ → ℚ)
    (hcos : |Cos ((binary64 Cos Sin).mul 90 (binary64 Cos Sin).radPerDeg)| ≤ 1 / 10 ^ 6)
    (hsin : |Sin ((binary64 Cos Sin).mul 90 (binary64 Cos Sin).radPerDeg) - 1| ≤ 1 / 10 ^ 6) :
    ∃ x' y' : ℚ, |x' - 29738 / 1000| ≤ 1 / 10 ^ 4 ∧ |y' - -7789 / 100| ≤ 1 / 10 ^ 4 ∧
      ∀ fuel, 1 ≤ fuel →
        applyCorrection (binary64 Cos Sin) fuel idcHeaderEntry
          (round64 (30988 / 1000)) (round64 (-8944 / 100)) 90 = some (x', y', 0) := by
  set θ := (binary64 Cos Sin).mul 90 (binary64 Cos Sin).radPerDeg with hθ
  set x := round64 (30988 / 1000) with hxdef
  set y := round64 (-8944 / 100) with hydef
  set cx := round64 (1155 / 100) with hcxdef
  have hx : |x - 30988 / 1000| ≤ 1 / 10 ^ 9 :=
    (round64_near (30988 / 1000) (30988 / 1000) 0 (by norm_num) (by norm_num)
      (by norm_num)).trans (by norm_num)
  have hy : |y - -8944 / 100| ≤ 1 / 10 ^ 9 :=
    (round64_near (-8944 / 100) (-8944 / 100) 0 (by norm_num) (by norm_num)
      (by norm_num)).trans (by norm_num)
  have hcx : |cx - 1155 / 100| ≤ 1 / 10 ^ 9 :=
    (round64_near (1155 / 100) (1155 / 100) 0 (by norm_num) (by norm_num)
      (by norm_num)).trans (by norm_num)
  obtain ⟨hx1, hx2⟩ := abs_le.mp hx
  obtain ⟨hy1, hy2⟩ := abs_le.mp hy
  obtain ⟨hcx1, hcx2⟩ := abs_le.mp hcx
  set A := round64 (x + cx) with hAdef
  have hA : |A - 42538 / 1000| ≤ 3 / 10 ^ 9 :=
    (round64_near (x + cx) (42538 / 1000) (2 / 10 ^ 9)
      (abs_le.mpr ⟨by linarith, by linarith⟩) (by norm_num) (by norm_num)).trans (by norm_num)
  set B := round64 (y + 125 / 100) with hBdef
  have hB : |B - -8819 / 100| ≤ 2 / 10 ^ 9 :=
    (round64_near (y + 125 / 100) (-8819 / 100) (1 / 10 ^ 9)
      (abs_le.mpr ⟨by linarith, by linarith⟩) (by norm_num) (by norm_num)).trans (by norm_num)
  obtain ⟨hA1, hA2⟩ := abs_le.mp hA
  obtain ⟨hB1, hB2⟩ := abs_le.mp hB
  set xP := round64 (A - x) with hxPdef
  have hxP : |xP - 1155 / 100| ≤ 5 / 10 ^ 9 :=
    (round64_near (A - x) (1155 / 100) (4 / 10 ^ 9)
      (abs_le.mpr ⟨by linarith, by linarith⟩) (by norm_num) (by norm_num)).trans (by norm_num)
  set yP := round64 (B - y) with hyPdef
  have hyP : |yP - 125 / 100| ≤ 4 / 10 ^ 9 :=
    (round64_near (B - y) (125 / 100) (3 / 10 ^ 9)
      (abs_le.mpr ⟨by linarith, by linarith⟩) (by norm_num) (by norm_num)).trans (by norm_num)
  have hcos0 : |Cos θ - 0| ≤ 1 / 10 ^ 6 := by rwa [sub_zero]
  set p1 := round64 (xP * Cos θ) with hp1def
  have hp1 : |p1 - 0| ≤ 2 / 10 ^ 5 := by
    have h := mul_near xP (Cos θ) (1155 / 100) 0 (5 / 10 ^ 9) (1 / 10 ^ 6) 12 0 hxP hcos0
      (by rw [abs_le]; constructor <;> norm_num) (by norm_num)
    rw [mul_zero] at h
    exact (round64_near _ 0 (13 / 10 ^ 6) (h.trans (by norm_num)) (by norm_num)
      (by norm_num)).trans (by norm_num)
  set p2 := round64 (yP * Sin θ) with hp2def
  have hp2 : |p2 - 125 / 100| ≤ 1 / 10 ^ 5 := by
    have h := mul_near yP (Sin θ) (125 / 100) 1 (4 / 10 ^ 9) (1 / 10 ^ 6) 2 1 hyP hsin
      (by rw [abs_le]; constructor <;> norm_num) (by norm_num)
    rw [mul_one] at h
    exact (round64_near _ (125 / 100) (3 / 10 ^ 6) (h.trans (by norm_num)) (by norm_num)
      (by norm_num)).trans (by norm_num)
  set p3 := round64 (xP * Sin θ) with hp3def
  have hp3 : |p3 - 1155 / 100| ≤ 3 / 10 ^ 5 := by
    have h := mul_near xP (Sin θ) (1155 / 100) 1 (5 / 10 ^ 9) (1 / 10 ^ 6) 12 1 hxP hsin
      (by rw [abs_le]; constructor <;> norm_num) (by norm_num)
    rw [mul_one] at h
    exact (round64_near _ (1155 / 100) (2 / 10 ^ 5) (h.trans (by norm_num)) (by norm_num)
      (by norm_num)).trans (by norm_num)
  set p4 := round64 (yP * Cos θ) with hp4def
  have hp4 : |p4 - 0| ≤ 2 / 10 ^ 5 := by
    have h := mul_near yP (Cos θ) (125 / 100) 0 (4 / 10 ^ 9) (1 / 10 ^ 6) 2 0 hyP hcos0
      (by rw [abs_le]; constructor <;> norm_num) (by norm_num)
    rw [mul_zero] at h
    exact (round64_near _ 0 (1 / 10 ^ 5) (h.trans (by norm_num)) (by norm_num)
      (by norm_num)).trans (by norm_num)
  obtain ⟨hp11, hp12⟩ := abs_le.mp hp1
  obtain ⟨hp21, hp22⟩ := abs_le.mp hp2
  obtain ⟨hp31, hp32⟩ := abs_le.mp hp3
  obtain ⟨hp41, hp42⟩ := abs_le.mp hp4
  set xR := round64 (p1 - p2) with hxRdef
  have hxR : |xR - -125 / 100| ≤ 4 / 10 ^ 5 :=
    (round64_near (p1 - p2) (-125 / 100) (3 / 10 ^ 5)
      (abs_le.mpr ⟨by linarith, by linarith⟩) (by norm_num) (by norm_num)).trans (by norm_num)
  set yR := round64 (p3 + p4) with hyRdef
  have hyR : |yR - 1155 / 100| ≤ 6 / 10 ^ 5 :=
    (round64_near (p3 + p4) (1155 / 100) (5 / 10 ^ 5)
      (abs_le.mpr ⟨by linarith, by linarith⟩) (by norm_num) (by norm_num)).trans (by norm_num)
  obtain ⟨hxR1, hxR2⟩ := abs_le.mp hxR
  obtain ⟨hyR1, hyR2⟩ := abs_le.mp hyR
  have hxN : |round64 (xR + x) - 29738 / 1000| ≤ 1 / 10 ^ 4 :=
    (round64_near (xR + x) (29738 / 1000) (5 / 10 ^ 5)
      (abs_le.mpr ⟨by linarith, by linarith⟩) (by norm_num) (by norm_num)).trans (by norm_num)
  have hyN : |round64 (yR + y) - -7789 / 100| ≤ 1 / 10 ^ 4 :=
    (round64_near (yR + y) (-7789 / 100) (7 / 10 ^ 5)
      (abs_le.mpr ⟨by linarith, by linarith⟩) (by norm_num) (by norm_num)).trans (by norm_num)
  refine ⟨round64 (xR + x), round64 (yR + y), hxN, hyN, fun fuel hfuel => ?_⟩
  obtain ⟨f, rfl⟩ : ∃ f, fuel = f + 1 := ⟨fuel - 1, by omega⟩
  have hrot : (binary64 Cos Sin).add 90 (-90) = 0 := by
    show round64 (90 + -90) = 0
    norm_num [round64_zero]
  have hclamp : clampRotation (binary64 Cos Sin) (f + 1) 0 = some 0 := by
    norm_num [clampRotation, clampRotationUp, clampRotationDown]
  simp only [applyCorrection, idcHeaderEntry, hrot, hclamp, Option.map_some']
  rfl


/-- C5, as the code has it.  When the best match for
`IDC-Header_2x10_P2.54mm_Vertical` is the entry with rotation -90 and centre
(11.55, 1.25), and cosine and sine are within 1e-6 of 0 and 1 at the quarter turn, the
float64 call at (30.988, -89.44, 90) returns x = 29.738, y = -77.89 to three decimal
places and rotation 0. -/
theorem ApplyRotationCorrection_idcHeader (Cos Sin : ℚ → ℚ) (S : SliceSort)
    (rotationDB t : List RotationCorrection)
    (hbest : S.sort (lengthGreater RotationCorrection.FootprintPattern)
      (rotationDB.filter (fun e =>
        e.FootprintPattern.MatchString "IDC-Header_2x10_P2.54mm_Vertical"))
      = idcHeaderEntry :: t)
    (hcos : |Cos ((binary64 Cos Sin).mul 90 (binary64 Cos Sin).radPerDeg)| ≤ 1 / 10 ^ 6)
    (hsin : |Sin ((binary64 Cos Sin).mul 90 (binary64 Cos Sin).radPerDeg) - 1| ≤ 1 / 10 ^ 6) :
    ∃ x' y' : ℚ, |x' - 29738 / 1000| < 1 / 2000 ∧ |y' - -7789 / 100| < 1 / 2000 ∧
      ∀ fuel, 1 ≤ fuel →
        ApplyRotationCorrection (binary64 Cos Sin) S rotationDB fuel
          "IDC-Header_2x10_P2.54mm_Vertical"
          (round64 (30988 / 1000)) (round64 (-8944 / 100)) 90 = some (x', y', 0) := by
  obtain ⟨x', y', hx', hy', hfuel⟩ := applyCorrection_idcHeader Cos Sin hcos hsin
  refine ⟨x', y', lt_of_le_of_lt hx' (by norm_num), lt_of_le_of_lt hy' (by norm_num),
    fun fuel hle => ?_⟩
  rw [ApplyRotationCorrection_of_sort_eq _ S rotationDB fuel _ _ _ _ idcHeaderEntry t hbest]
  exact hfuel fuel hle

/-- The hypotheses of C5 hold for the one-entry table, insertion sort, and the cosine
and sine that are 0 and 1 everywhere. -/
theorem ApplyRotationCorrection_idcHeader_witness :
    ∃ x' y' : ℚ, |x' - 29738 / 1000| < 1 / 2000 ∧ |y' - -7789 / 100| < 1 / 2000 ∧
      ∀ fuel, 1 ≤ fuel →
        ApplyRotationCorrection (binary64 (fun _ => 0) (fun _ => 1)) insertionSortSlice
          idcHeaderDB fuel "IDC-Header_2x10_P2.54mm_Vertical"
          (round64 (30988 / 1000)) (round64 (-8944 / 100)) 90 = some (x', y', 0) :=
  ApplyRotationCorrection_idcHeader (fun _ => 0) (fun _ => 1) insertionSortSlice
    idcHeaderDB [] rfl (by norm_num) (by norm_num)

/-- C5 fails: with the entry of rotation -90 and centre (11.55, 1.25), no cosine and
sine within 1e-6 of 0 and 1 at the quarter turn make the float64 call at
(30.988, -89.44, 90) return x = 42.538, y = -88.19, rotation = 0 to three decimal
places. -/
theorem ApplyRotationCorrection_idcHeader_not_as_stated :
    ¬ ∃ (Cos Sin : ℚ → ℚ) (fuel : Nat) (x' y' r' : ℚ),
      |Cos ((binary64 Cos Sin).mul 90 (binary64 Cos Sin).radPerDeg)| ≤ 1 / 10 ^ 6 ∧
      |Sin ((binary64 Cos Sin).mul 90 (binary64 Cos Sin).radPerDeg) - 1| ≤ 1 / 10 ^ 6 ∧
      ApplyRotationCorrection (binary64 Cos Sin) insertionSortSlice idcHeaderDB fuel
          "IDC-Header_2x10_P2.54mm_Vertical"
          (round64 (30988 / 1000)) (round64 (-8944 / 100)) 90 = some (x', y', r') ∧
      |x' - 42538 / 1000| < 1 / 2000 ∧ |y' - -8819 / 100| < 1 / 2000 ∧
      |r' - 0| < 1 / 2000 := by
  rintro ⟨Cos, Sin, fuel, x', y', r', hcos, hsin, hres, hx, -, -⟩
  obtain ⟨x0, y0, hx0, -, hfuel⟩ := applyCorrection_idcHeader Cos Sin hcos hsin
  rw [ApplyRotationCorrection_of_sort_eq _ insertionSortSlice idcHeaderDB fuel
    "IDC-Header_2x10_P2.54mm_Vertical" _ _ _ idcHeaderEntry [] rfl] at hres
  cases fuel with
  | zero =>
    simp [applyCorrection, clampRotation, clampRotationUp] at hres
  | succ f =>
    rw [hfuel (f + 1) (by omega)] at hres
    have hxeq : x0 = x' := congrArg (fun p => p.1) (Option.some.inj hres)
    rw [← hxeq] at hx
    obtain ⟨h1, h2⟩ := abs_le.mp hx0
    obtain ⟨h3, h4⟩ := abs_lt.mp hx
    linarith

/-! ## The library prefix -/


theorem removeLibraryPrefix_of_not_mem (f : String) (hf : ':' ∉ f.toList) :
    removeLibraryPrefix f = f := by
  unfold removeLibraryPrefix
  have h : ¬ List.indexOf ':' f.toList < f.toList.length := by
    rw [List.indexOf_lt_length]
    exact hf
  simp only [h, if_false]

theorem removeLibraryPrefix_append (p f : String) (hp : ':' ∉ p.toList) :
    removeLibraryPrefix (p ++ ":" ++ f) = f := by
  unfold removeLibraryPrefix
  have hl : (p ++ ":" ++ f).toList = p.toList ++ ':' :: f.toList := by
    simp [String.toList]
  have hidx : List.indexOf ':' (p.toList ++ ':' :: f.toList) = p.toList.length := by
    rw [List.indexOf_append_of_not_mem hp, List.indexOf_cons_self, Nat.add_zero]
  rw [hl, hidx]
  have hlt : p.toList.length < (p.toList ++ ':' :: f.toList).length := by
    simp
  simp only [hlt, if_true]
  rw [show p.toList.length + 1 = (p.toList ++ [':']).length by simp]
  rw [show p.toList ++ ':' :: f.toList = (p.toList ++ [':']) ++ f.toList by simp]
  rw [List.drop_left]
  rfl

/-- C11. For a library prefix p and a footprint name f that contain no ':',
`FromKiCadFootprint` gives p + ":" + f the result it gives f. -/
theorem FromKiCadFootprint_library_prefix (S : SliceSort) (footprintDB : List FootprintMapping)
    (p f : String) (hp : ':' ∉ p.toList) (hf : ':' ∉ f.toList) :
    FromKiCadFootprint S footprintDB (p ++ ":" ++ f) = FromKiCadFootprint S footprintDB f := by
  unfold FromKiCadFootprint
  rw [removeLibraryPrefix_append p f hp, removeLibraryPrefix_of_not_mem f hf]

/-- The hypotheses of C11 hold for `Capacitor_SMD` and `C_0603_1608Metric`; with the
two-entry table the prefixed footprint resolves to ("Capacitors", "0603"). -/
theorem FromKiCadFootprint_library_prefix_witness :
    ':' ∉ "Capacitor_SMD".toList ∧ ':' ∉ "C_0603_1608Metric".toList ∧
    FromKiCadFootprint insertionSortSlice capacitorDB
        ("Capacitor_SMD" ++ ":" ++ "C_0603_1608Metric")
      = FromKiCadFootprint insertionSortSlice capacitorDB "C_0603_1608Metric" ∧
    FromKiCadFootprint insertionSortSlice capacitorDB "Capacitor_SMD:C_0603_1608Metric"
      = ("Capacitors", "0603") :=
  ⟨by decide, by decide,
    FromKiCadFootprint_library_prefix insertionSortSlice capacitorDB "Capacitor_SMD"
      "C_0603_1608Metric" (by decide) (by decide), by decide⟩


/-! ## Entries that only turn the part -/

theorem round64_55042_milli : round64 (55042 / 1000) = 1936618208513491 / 35184372088832 := by
  rw [round64_eq (55042 / 1000) 5 7746472834053964 (by norm_num)
    (by norm_num [abs_of_pos]) (by norm_num [abs_of_pos]) (by norm_num) (by norm_num)]
  norm_num

theorem round64_55042_milli_idem :
    round64 (1936618208513491 / 35184372088832) = 1936618208513491 / 35184372088832 := by
  rw [round64_eq (1936618208513491 / 35184372088832) 5 7746472834053964 (by norm_num)
    (by norm_num [abs_of_pos]) (by norm_num [abs_of_pos]) (by norm_num) (by norm_num)]
  norm_num

theorem round64_neg_13589_centi : round64 (-13589 / 100) = -1195301080787845 / 8796093022208 := by
  rw [round64_eq (-13589 / 100) 7 (-4781204323151380) (by norm_num)
    (by norm_num [abs_of_neg]) (by norm_num [abs_of_neg]) (by norm_num) (by norm_num)]
  norm_num

theorem round64_neg_13589_centi_idem :
    round64 (-1195301080787845 / 8796093022208) = -1195301080787845 / 8796093022208 := by
  rw [round64_eq (-1195301080787845 / 8796093022208) 7 (-4781204323151380) (by norm_num)
    (by norm_num [abs_of_neg]) (by norm_num [abs_of_neg]) (by norm_num) (by norm_num)]
  norm_num

theorem round64_180 : round64 180 = 180 := by
  rw [round64_eq 180 7 6333186975989760 (by norm_num)
    (by norm_num [abs_of_pos]) (by norm_num [abs_of_pos]) (by norm_num) (by norm_num)]
  norm_num

/-- When the selected entry has CenterX = 0 and CenterY = 0 and x, y are float values,
`ApplyRotationCorrection` returns x and y unchanged, and as rotation what `clampRotation`
returns for the float sum of the rotation and the entry's offset; it returns nothing
when `clampRotation` returns nothing. -/
theorem ApplyRotationCorrection_zero_centre (F : FloatOps) (S : SliceSort)
    (rotationDB : List RotationCorrection) (fuel : Nat) (pkg : String) (x y rotation : ℚ)
    (c : RotationCorrection) (t : List RotationCorrection)
    (hbest : S.sort (lengthGreater RotationCorrection.FootprintPattern)
      (rotationDB.filter (fun e => e.FootprintPattern.MatchString pkg)) = c :: t)
    (hcx : c.CenterX = 0) (hcy : c.CenterY = 0)
    (h0 : F.rnd 0 = 0) (hx : F.rnd x = x) (hy : F.rnd y = y) :
    ApplyRotationCorrection F S rotationDB fuel pkg x y rotation
      = (clampRotation F fuel (F.add rotation c.Rotation)).map
          (fun finalRotation => (x, y, finalRotation)) := by
  rw [ApplyRotationCorrection_of_sort_eq F S rotationDB fuel pkg x y rotation c t hbest]
  simp only [applyCorrection, rotatePoint, FloatOps.add, FloatOps.sub, FloatOps.mul, hcx, hcy,
    add_zero, hx, hy, sub_self, h0, zero_mul, zero_add]

/-- In float64, for `SOT-223-3_TabPin2`, the entry that turns by 180 degrees, and the
float values of 55.042 and -135.89 with rotation 0, the call returns them unchanged with
rotation 180. -/
theorem ApplyRotationCorrection_zero_centre_witness :
    ApplyRotationCorrection (binary64 (fun _ => 0) (fun _ => 1)) insertionSortSlice
      sot223DB 1 "SOT-223-3_TabPin2" (round64 (55042 / 1000)) (round64 (-13589 / 100)) 0
      = some (round64 (55042 / 1000), round64 (-13589 / 100), 180) := by
  have h := ApplyRotationCorrection_zero_centre (binary64 (fun _ => 0) (fun _ => 1))
    insertionSortSlice sot223DB 1 "SOT-223-3_TabPin2" (round64 (55042 / 1000))
    (round64 (-13589 / 100)) 0 ⟨⟨literalRegexp "SOT-223", 9⟩, 180, 0, 0⟩ [] rfl rfl rfl
    round64_zero
    (by show round64 _ = _; rw [round64_55042_milli, round64_55042_milli_idem])
    (by show round64 _ = _; rw [round64_neg_13589_centi, round64_neg_13589_centi_idem])
  rw [h]
  have hsum : (binary64 (fun _ => 0) (fun _ => 1)).add 0 180 = 180 := by
    show round64 (0 + 180) = 180
    rw [zero_add, round64_180]
  rw [hsum]
  norm_num [clampRotation, clampRotationUp, clampRotationDown]

/-- C12: for `SOT-223-3_TabPin2`, whose entry has a zero centre and the offset 180, at
the float64 values of (55.042, -135.89) and the rotation 2 ^ 63, the call returns
nothing: the float sum 2 ^ 63 + 180 is 2 ^ 63, on which `clampRotation` does not
terminate. -/
theorem ApplyRotationCorrection_zero_centre_never_returns :
    round64 (2 ^ 63) = 2 ^ 63 ∧
    ∀ (Cos Sin : ℚ → ℚ) (fuel : Nat),
      ApplyRotationCorrection (binary64 Cos Sin) insertionSortSlice sot223DB fuel
        "SOT-223-3_TabPin2" (round64 (55042 / 1000)) (round64 (-13589 / 100)) (2 ^ 63)
        = none := by
  refine ⟨round64_two_pow_63, fun Cos Sin fuel => ?_⟩
  rw [ApplyRotationCorrection_of_sort_eq _ insertionSortSlice sot223DB fuel
    "SOT-223-3_TabPin2" _ _ _ ⟨⟨literalRegexp "SOT-223", 9⟩, 180, 0, 0⟩ [] rfl]
  have hsum : (binary64 Cos Sin).add (2 ^ 63) 180 = 2 ^ 63 := round64_two_pow_63_add
  simp only [applyCorrection, hsum,
    clampRotation_stuck (binary64 Cos Sin) (2 ^ 63) (by norm_num) round64_two_pow_63_sub fuel,
    Option.map_none']

/-! ## Search: filters and order -/

namespace partsdb

theorem mem_foldl_appendFilterConds_of_mem (filters : List Filter) :
    ∀ (acc : List Cond) (c : Cond), c ∈ acc → c ∈ filters.foldl appendFilterConds acc := by
  induction filters with
  | nil => intro acc c h; exact h
  | cons f fs ih =>
    intro acc c h
    rw [List.foldl_cons]
    apply ih
    unfold appendFilterConds
    simp only
    split_ifs <;> simp [h]

theorem filterConds_of_mem (filters : List Filter) :
    ∀ (acc : List Cond) (f : Filter), f ∈ filters →
      (f.Category ≠ "" → Cond.categoryEq f.Category ∈ filters.foldl appendFilterConds acc) ∧
      (f.Package ≠ "" → Cond.packageEq f.Package ∈ filters.foldl appendFilterConds acc) := by
  induction filters with
  | nil => intro acc f hf; cases hf
  | cons g gs ih =>
    intro acc f hf
    rw [List.foldl_cons]
    rcases List.mem_cons.mp hf with rfl | hmem
    · constructor
      · intro hc
        apply mem_foldl_appendFilterConds_of_mem
        unfold appendFilterConds
        simp only [hc, ne_eq, not_false_eq_true, if_true]
        split_ifs <;> simp
      · intro hp
        apply mem_foldl_appendFilterConds_of_mem
        unfold appendFilterConds
        simp only [hp, ne_eq, not_false_eq_true, if_true]
        simp
    · exact ih _ f hmem

theorem foldl_appendFilterConds_of_empty (filters : List Filter)
    (h : ∀ f ∈ filters, f.Category = "" ∧ f.Package = "") :
    ∀ acc : List Cond, filters.foldl appendFilterConds acc = acc := by
  induction filters with
  | nil => intro acc; rfl
  | cons g gs ih =>
    intro acc
    obtain ⟨hc, hp⟩ := h g (List.mem_cons_self _ _)
    rw [List.foldl_cons]
    have hstep : appendFilterConds acc g = acc := by
      unfold appendFilterConds
      simp [hc, hp]
    rw [hstep]
    exact ih (fun f hf => h f (List.mem_cons_of_mem _ hf)) acc

theorem runSelect_ok (E : SqlEngine) (db : PartsDB) (q : SelectQuery) (parts : List Part)
    (h : runSelect E db q = .ok parts) :
    ∃ kept : List Part, parts = E.sort (mayPrecede q.orderBy) kept ∧
      ∀ p ∈ kept, q.conds.all (fun c => c.holds p) = true := by
  unfold runSelect at h
  cases hm : E.ftsMatch q.matchArg with
  | error err => rw [hm] at h; cases h
  | ok matchFts =>
    rw [hm] at h
    simp only [Except.ok.injEq] at h
    exact ⟨_, h.symm, fun p hp => (List.mem_filter.mp hp).2⟩

theorem Search_ok (E : SqlEngine) (pdb : PartsDB) (query : String) (filters : List Filter)
    (parts : List Part) (h : Search E pdb query filters = .ok parts) :
    runSelect E pdb ⟨query, filterConds filters, [OrderTerm.basicDesc, OrderTerm.preferredDesc]⟩
      = .ok parts := by
  unfold Search at h
  simp only at h
  cases hr : runSelect E pdb
      ⟨query, filterConds filters, [OrderTerm.basicDesc, OrderTerm.preferredDesc]⟩ with
  | error err => rw [hr] at h; cases h
  | ok ps => rw [hr] at h; exact h

/-- C13. Every part `Search` returns meets every supplied filter: its category equals
each non-empty `Category` and its package equals each non-empty `Package`; and filters
whose fields are all empty give the result of a search without filters. -/
theorem Search_filters (E : SqlEngine) (pdb : PartsDB) (query : String)
    (filters : List Filter) :
    (∀ parts, Search E pdb query filters = .ok parts →
      ∀ p ∈ parts, ∀ f ∈ filters,
        (f.Category ≠ "" → p.Category = f.Category) ∧
        (f.Package ≠ "" → p.Package = f.Package)) ∧
    ((∀ f ∈ filters, f.Category = "" ∧ f.Package = "") →
      Search E pdb query filters = Search E pdb query []) := by
  constructor
  · intro parts h p hp f hf
    obtain ⟨kept, hparts, hkept⟩ := runSelect_ok E pdb _ parts (Search_ok E pdb query filters
      parts h)
    have hpk : p ∈ kept := by
      rw [hparts] at hp
      exact (E.sort_perm _ kept).subset hp
    have hall := List.all_eq_true.mp (hkept p hpk)
    obtain ⟨hcat, hpkg⟩ := filterConds_of_mem filters [] f hf
    constructor
    · intro hc
      simpa [Cond.holds] using hall _ (hcat hc)
    · intro hc
      simpa [Cond.holds] using hall _ (hpkg hc)
  · intro hempty
    unfold Search filterConds
    rw [foldl_appendFilterConds_of_empty filters hempty []]
    rfl

theorem mayPrecede_total (a b : Part) :
    mayPrecede [OrderTerm.basicDesc, OrderTerm.preferredDesc] a b = true ∨
    mayPrecede [OrderTerm.basicDesc, OrderTerm.preferredDesc] b a = true := by
  simp only [mayPrecede, OrderTerm.key, Bool.or_eq_true, Bool.and_eq_true, decide_eq_true_eq,
    Bool.or_true, Bool.and_true]
  omega

theorem mayPrecede_trans (a b c : Part)
    (hab : mayPrecede [OrderTerm.basicDesc, OrderTerm.preferredDesc] a b = true)
    (hbc : mayPrecede [OrderTerm.basicDesc, OrderTerm.preferredDesc] b c = true) :
    mayPrecede [OrderTerm.basicDesc, OrderTerm.preferredDesc] a c = true := by
  simp only [mayPrecede, OrderTerm.key, Bool.or_eq_true, Bool.and_eq_true, decide_eq_true_eq,
    Bool.or_true, Bool.and_true] at hab hbc ⊢
  omega

/-- C14. The parts `Search` returns are in descending order of `Basic` and, among equal
`Basic`, in descending order of `Preferred`: a part never comes after one that is
smaller in this order. -/
theorem Search_order (E : SqlEngine) (pdb : PartsDB) (query : String) (filters : List Filter)
    (parts : List Part) (h : Search E pdb query filters = .ok parts) :
    parts.Pairwise (fun a b =>
      a.Basic > b.Basic ∨ (a.Basic = b.Basic ∧ a.Preferred ≥ b.Preferred)) := by
  obtain ⟨kept, hparts, -⟩ := runSelect_ok E pdb _ parts (Search_ok E pdb query filters parts h)
  rw [hparts]
  refine (E.sort_sorted _ kept mayPrecede_total mayPrecede_trans).imp ?_
  intro a b hab
  simp only [mayPrecede, OrderTerm.key, Bool.or_eq_true, Bool.and_eq_true, decide_eq_true_eq,
    Bool.or_true, Bool.and_true] at hab
  omega

/-- The hypothesis of C13 holds for the three-capacitor database, the query `100nF`
and the filter on package `0805`: both returned parts have that package. -/
theorem Search_filters_witness :
    Search exampleEngine exampleDB "100nF" [⟨"", "0805"⟩]
      = .ok [capacitor 28233 "0805" 1 0, capacitor 49678 "0805" 0 1] ∧
    ∀ p ∈ [capacitor 28233 "0805" 1 0, capacitor 49678 "0805" 0 1],
      ∀ f ∈ [(⟨"", "0805"⟩ : Filter)],
        (f.Category ≠ "" → p.Category = f.Category) ∧
        (f.Package ≠ "" → p.Package = f.Package) :=
  have h : Search exampleEngine exampleDB "100nF" [⟨"", "0805"⟩]
      = .ok [capacitor 28233 "0805" 1 0, capacitor 49678 "0805" 0 1] := by rfl
  ⟨h, (Search_filters exampleEngine exampleDB "100nF" [⟨"", "0805"⟩]).1 _ h⟩

/-- The hypothesis of C14 holds for the three-capacitor database and the query
`100nF`: the two basic parts come before the preferred one. -/
theorem Search_order_witness :
    Search exampleEngine exampleDB "100nF" []
      = .ok [capacitor 14663 "0603" 1 0, capacitor 28233 "0805" 1 0,
          capacitor 49678 "0805" 0 1] ∧
    [capacitor 14663 "0603" 1 0, capacitor 28233 "0805" 1 0,
      capacitor 49678 "0805" 0 1].Pairwise (fun a b =>
        a.Basic > b.Basic ∨ (a.Basic = b.Basic ∧ a.Preferred ≥ b.Preferred)) :=
  have h : Search exampleEngine exampleDB "100nF" []
      = .ok [capacitor 14663 "0603" 1 0, capacitor 28233 "0805" 1 0,
          capacitor 49678 "0805" 0 1] := by rfl
  ⟨h, Search_order exampleEngine exampleDB "100nF" [] _ h⟩

/-! ## Loading the catalogue twice -/

theorem insertOrIgnore_of_present (db : PartsDB) (p : Part)
    (h : ∃ q ∈ db.parts, q.LCSC = p.LCSC) : insertOrIgnore db p = db := by
  obtain ⟨q, hq, hk⟩ := h
  have hany : db.parts.any (fun q => decide (q.LCSC = p.LCSC)) = true :=
    List.any_eq_true.mpr ⟨q, hq, by simpa using hk⟩
  simp only [insertOrIgnore, hany, if_true]

theorem insertOrIgnore_parts (db : PartsDB) (p : Part) :
    (insertOrIgnore db p).parts = db.parts ∨
    ((insertOrIgnore db p).parts = db.parts ++ [p] ∧ ∀ q ∈ db.parts, q.LCSC ≠ p.LCSC) := by
  unfold insertOrIgnore
  split_ifs with h
  · exact Or.inl rfl
  · refine Or.inr ⟨rfl, fun q hq hk => h ?_⟩
    exact List.any_eq_true.mpr ⟨q, hq, by simpa using hk⟩

theorem insertOrIgnore_present (db : PartsDB) (p : Part) :
    ∃ q ∈ (insertOrIgnore db p).parts, q.LCSC = p.LCSC := by
  unfold insertOrIgnore
  split_ifs with h
  · obtain ⟨q, hq, hk⟩ := List.any_eq_true.mp h
    exact ⟨q, hq, by simpa using hk⟩
  · exact ⟨p, by simp, rfl⟩

theorem insertOrIgnore_keeps (db : PartsDB) (p : Part) (k : Int)
    (h : ∃ q ∈ db.parts, q.LCSC = k) : ∃ q ∈ (insertOrIgnore db p).parts, q.LCSC = k := by
  obtain ⟨q, hq, hk⟩ := h
  rcases insertOrIgnore_parts db p with h1 | ⟨h1, -⟩
  · exact ⟨q, by rw [h1]; exact hq, hk⟩
  · exact ⟨q, by rw [h1]; exact List.mem_append_left _ hq, hk⟩

theorem insertParts_keeps (parts : List Part) :
    ∀ (db : PartsDB) (k : Int), (∃ q ∈ db.parts, q.LCSC = k) →
      ∃ q ∈ (insertParts db parts).parts, q.LCSC = k := by
  induction parts with
  | nil => intro db k h; exact h
  | cons p ps ih =>
    intro db k h
    exact ih (insertOrIgnore db p) k (insertOrIgnore_keeps db p k h)

theorem insertParts_present (parts : List Part) :
    ∀ (db : PartsDB), ∀ p ∈ parts, ∃ q ∈ (insertParts db parts).parts, q.LCSC = p.LCSC := by
  induction parts with
  | nil => intro db p hp; cases hp
  | cons r rs ih =>
    intro db p hp
    rcases List.mem_cons.mp hp with rfl | hmem
    · exact insertParts_keeps rs (insertOrIgnore db p) p.LCSC (insertOrIgnore_present db p)
    · exact ih (insertOrIgnore db r) p hmem

theorem insertParts_of_present (parts : List Part) (db : PartsDB)
    (h : ∀ p ∈ parts, ∃ q ∈ db.parts, q.LCSC = p.LCSC) : insertParts db parts = db := by
  induction parts with
  | nil => rfl
  | cons r rs ih =>
    show insertParts (insertOrIgnore db r) rs = db
    rw [insertOrIgnore_of_present db r (h r (List.mem_cons_self _ _))]
    exact ih (fun p hp => h p (List.mem_cons_of_mem _ hp))

theorem insertOrIgnore_filter (db : PartsDB) (p : Part) (k : Int)
    (h : ∃ q ∈ db.parts, q.LCSC = k) :
    (insertOrIgnore db p).parts.filter (fun r => decide (r.LCSC = k))
      = db.parts.filter (fun r => decide (r.LCSC = k)) := by
  rcases insertOrIgnore_parts db p with h1 | ⟨h1, hnew⟩
  · rw [h1]
  · obtain ⟨q, hq, hk⟩ := h
    have hne : p.LCSC ≠ k := fun hpk => hnew q hq (hk.trans hpk.symm)
    rw [h1, List.filter_append]
    simp [hne]

theorem insertParts_filter (parts : List Part) :
    ∀ (db : PartsDB) (k : Int), (∃ q ∈ db.parts, q.LCSC = k) →
      (insertParts db parts).parts.filter (fun r => decide (r.LCSC = k))
        = db.parts.filter (fun r => decide (r.LCSC = k)) := by
  induction parts with
  | nil => intro db k _; rfl
  | cons p ps ih =>
    intro db k h
    show (insertParts (insertOrIgnore db p) ps).parts.filter _ = _
    rw [ih (insertOrIgnore db p) k (insertOrIgnore_keeps db p k h),
      insertOrIgnore_filter db p k h]

/-- C15. Running the insert step of `CreateFromCSV` a second time with the same parts
leaves the database as the first run left it, with the same number of rows; and the
rows stored under an `lcsc` that already is a key are, after the insert step, exactly
the rows stored before: none replaced, none added. -/
theorem insertParts_idempotent (db : PartsDB) (parts : List Part) :
    insertParts (insertParts db parts) parts = insertParts db parts ∧
    (insertParts (insertParts db parts) parts).parts.length
      = (insertParts db parts).parts.length ∧
    ∀ p ∈ parts, (∃ q ∈ db.parts, q.LCSC = p.LCSC) →
      (insertParts db parts).parts.filter (fun r => decide (r.LCSC = p.LCSC))
        = db.parts.filter (fun r => decide (r.LCSC = p.LCSC)) := by
  have h : insertParts (insertParts db parts) parts = insertParts db parts :=
    insertParts_of_present parts _ (insertParts_present parts db)
  exact ⟨h, by rw [h], fun p _ hq => insertParts_filter parts db p.LCSC hq⟩

end partsdb

/-! ## The length of a pattern -/

theorem utf8ByteSize_go_of_ascii :
    ∀ cs : List Char, (∀ c ∈ cs, c.toNat < 128) → String.utf8ByteSize.go cs = cs.length := by
  intro cs
  induction cs with
  | nil => intro _; rfl
  | cons c cs ih =>
    intro h
    have hc : c.toNat < 128 := h c (List.mem_cons_self _ _)
    have hsize : c.utf8Size = 1 := by
      have hval : c.val ≤ 127 := by
        show c.val.toNat ≤ (127 : UInt32).toNat
        exact Nat.le_of_lt_succ hc
      unfold Char.utf8Size
      simp [hval]
    rw [String.utf8ByteSize.go, ih (fun c' hc' => h c' (List.mem_cons_of_mem _ hc')), hsize]
    rfl

/-- C17, as the code has it.  After `UnmarshalText` the `Length` is the number of bytes
of the pattern text, whether or not the text compiles; that is the number of
characters when every character of the text is ASCII. -/
theorem UnmarshalText_length (compile : String → Except String Regexp) (text : String) :
    (UnmarshallableRegexp.UnmarshalText compile text).Length = text.utf8ByteSize ∧
    ((∀ c ∈ text.toList, c.toNat < 128) →
      (UnmarshallableRegexp.UnmarshalText compile text).Length = text.length) := by
  have h : (UnmarshallableRegexp.UnmarshalText compile text).Length = text.utf8ByteSize := by
    unfold UnmarshallableRegexp.UnmarshalText
    cases compile text <;> rfl
  refine ⟨h, fun hascii => ?_⟩
  rw [h]
  exact utf8ByteSize_go_of_ascii text.toList hascii

/-- The pattern `C_0603_1608Metric` is ASCII: its `Length` is 17, its number of
characters. -/
theorem UnmarshalText_length_witness :
    (UnmarshallableRegexp.UnmarshalText csvx.compileLiteral "C_0603_1608Metric").Length = 17 ∧
    "C_0603_1608Metric".length = 17 :=
  ⟨((UnmarshalText_length csvx.compileLiteral "C_0603_1608Metric").2 (by decide)).trans
    (by decide), by decide⟩

/-- C17 fails: the pattern `Ω` has one character, and `UnmarshalText` records the
`Length` 2, its number of bytes. -/
theorem UnmarshalText_length_counts_bytes :
    (UnmarshallableRegexp.UnmarshalText csvx.compileLiteral "Ω").Length = 2 ∧
    "Ω".length = 1 := by
  constructor <;> decide

/-! ## The record decoder: errors -/

namespace csvx

theorem unmarshalFields_error_of_mem {τ : Type} (L : Strconv) (hm : String → Option Nat)
    (record : List String) (fields : List (StructField τ)) (field : StructField τ)
    (err : String) (hfield : field ∈ fields)
    (hbad : unmarshalField L hm record field = .error err) :
    ∃ msg, unmarshalFields L hm record fields = .error msg := by
  induction fields with
  | nil => cases hfield
  | cons g gs ih =>
    unfold unmarshalFields
    rcases List.mem_cons.mp hfield with rfl | hmem
    · rw [hbad]; exact ⟨err, rfl⟩
    · cases hg : unmarshalField L hm record g with
      | error e => exact ⟨e, rfl⟩
      | ok v =>
        obtain ⟨msg, hmsg⟩ := ih hmem
        simp only [hmsg]
        exact ⟨msg, rfl⟩

theorem unmarshalRows_error_of_mem {τ : Type} (L : Strconv) (fields : List (StructField τ))
    (hm : String → Option Nat) (n : Nat) (record : List String)
    (hbad : ∃ msg, unmarshalFields L hm record fields = .error msg) :
    ∀ (rows : List (Except String (List String))) (results : List (List (Value τ))),
      Except.ok record ∈ rows → ∃ msg, unmarshalRows L fields hm n rows results = .error msg := by
  intro rows
  induction rows with
  | nil => intro _ h; cases h
  | cons line rest ih =>
    intro results hmem
    unfold unmarshalRows
    cases hread : readRecord n line with
    | error e => exact ⟨_, rfl⟩
    | ok rec =>
      simp only
      cases hrec : unmarshalFields L hm rec fields with
      | error e => exact ⟨e, rfl⟩
      | ok item =>
        simp only
        rcases List.mem_cons.mp hmem with heq | hrest
        · exfalso
          subst heq
          unfold readRecord at hread
          simp only at hread
          split_ifs at hread
          · cases hread
            obtain ⟨msg, hmsg⟩ := hbad
            rw [hmsg] at hrec
            cases hrec
        · exact ih _ hrest

theorem unmarshalField_of_rejects {τ : Type} (L : Strconv) (hm : String → Option Nat)
    (record : List String) (field : StructField τ) (colIdx : Nat) (htag : field.Tag ≠ "")
    (hcol : hm (L.ToLower field.Tag) = some colIdx)
    (hbad : rejects L field (record.getD colIdx "")) :
    ∃ msg, unmarshalField L hm record field = .error msg := by
  unfold rejects at hbad
  unfold unmarshalField
  simp only [htag, if_false, hcol]
  cases hdec : field.UnmarshalText with
  | some dec =>
    rw [hdec] at hbad
    obtain ⟨err, herr⟩ := hbad
    simp only [herr]
    exact ⟨_, rfl⟩
  | none =>
    rw [hdec] at hbad
    obtain ⟨hne, hkind⟩ := hbad
    simp only [hne, if_false]
    rcases hkind with ⟨bits, hk, hp⟩ | ⟨bits, hk, hp⟩ | ⟨bits, hk, hp⟩ | ⟨hk, hp⟩ <;>
      simp only [hk, hp] <;> exact ⟨_, rfl⟩

/-- C16. When the record type has a field that decodes a pattern with `UnmarshalText`,
the header has the column of that field, and some row holds in that column a text that
does not compile, `Unmarshal` returns an error and no records, whatever the other rows
hold. -/
theorem Unmarshal_fails_of_bad_pattern (L : Strconv)
    (compile : String → Except String Regexp)
    (fields : List (StructField UnmarshallableRegexp)) (headers : List String)
    (rows : List (Except String (List String))) (field : StructField UnmarshallableRegexp)
    (colIdx : Nat) (record : List String) (err : String)
    (hfield : field ∈ fields) (htag : field.Tag ≠ "")
    (hdec : field.UnmarshalText = some (UnmarshallableRegexp.decode compile))
    (hcol : headerMap L headers (L.ToLower field.Tag) = some colIdx)
    (hrow : Except.ok record ∈ rows)
    (hbad : compile (record.getD colIdx "") = .error err) :
    ∃ msg, Unmarshal L fields (.ok headers :: rows) = .error msg := by
  have hcannot : rejects L field (record.getD colIdx "") := by
    unfold rejects
    rw [hdec]
    exact ⟨err, by simp only [UnmarshallableRegexp.decode, hbad]⟩
  obtain ⟨m1, h1⟩ := unmarshalField_of_rejects L (headerMap L headers) record field colIdx
    htag hcol hcannot
  have h2 := unmarshalFields_error_of_mem L (headerMap L headers) record fields field m1
    hfield h1
  exact unmarshalRows_error_of_mem L fields (headerMap L headers) headers.length record h2
    rows [] hrow

/-- The hypotheses of C16 hold for the footprint table whose second row has the
pattern `(0805`: nothing is returned, although the first row decodes. -/
theorem Unmarshal_fails_of_bad_pattern_witness :
    ∃ msg, Unmarshal asciiStrconv (footprintMappingFields compileLiteral)
      [.ok ["Footprint pattern", "LCSC Category", "LCSC Package"],
       .ok ["C_0603", "Capacitors", "0603"],
       .ok ["(0805", "Capacitors", "0805"]] = .error msg :=
  Unmarshal_fails_of_bad_pattern asciiStrconv compileLiteral
    (footprintMappingFields compileLiteral)
    ["Footprint pattern", "LCSC Category", "LCSC Package"]
    [.ok ["C_0603", "Capacitors", "0603"], .ok ["(0805", "Capacitors", "0805"]]
    ⟨"FootprintPattern", "Footprint pattern", Kind.Other,
      some (UnmarshallableRegexp.decode compileLiteral)⟩
    0 ["(0805", "Capacitors", "0805"]
    "error parsing regexp: missing closing ): (0805"
    (List.mem_cons_self _ _) (by decide) rfl (by rfl)
    (List.mem_cons_of_mem _ (List.mem_cons_self _ _)) (by rfl)

end csvx

/-! ## The record decoder: what an error says -/

namespace csvx

theorem isPrefixOf_append_self (t b : List Char) : t.isPrefixOf (t ++ b) = true := by
  induction t with
  | nil => simp [List.isPrefixOf]
  | cons c t ih => simp [List.isPrefixOf, ih]

theorem any_tails_of_head (p : List Char → Bool) (s : List Char) (h : p s = true) :
    s.tails.any p = true := by
  cases s <;> simp [List.tails, h]

theorem any_tails_append (p : List Char → Bool) (a s : List Char) (h : p s = true) :
    (a ++ s).tails.any p = true := by
  induction a with
  | nil => exact any_tails_of_head p s h
  | cons c a ih =>
    rw [List.cons_append, List.tails, List.any_cons, ih, Bool.or_true]

theorem occursIn_of_toList_eq (t msg : String) (a b : List Char)
    (h : msg.toList = a ++ (t.toList ++ b)) : occursIn t msg = true := by
  unfold occursIn
  rw [h]
  exact any_tails_append _ a _ (isPrefixOf_append_self t.toList b)

theorem occursIn_middle (a t b : String) : occursIn t (a ++ t ++ b) = true :=
  occursIn_of_toList_eq t _ a.toList b.toList (by simp [String.toList])

theorem occursIn_middle_right (a t b c : String) : occursIn t (a ++ t ++ b ++ c) = true :=
  occursIn_of_toList_eq t _ a.toList (b.toList ++ c.toList) (by simp [String.toList])

theorem occursIn_end (a t : String) : occursIn t (a ++ t) = true :=
  occursIn_of_toList_eq t _ a.toList [] (by simp [String.toList])

/-- What an error of `unmarshalField` says: the column exists, the message holds the
name of the field, and it is the decoder's own error after the name, or the message
for a kind that is not supported, or holds the cell, which the parser rejected. -/
theorem unmarshalField_error_shape {τ : Type} (L : Strconv) (hm : String → Option Nat)
    (record : List String) (field : StructField τ) (msg : String)
    (h : unmarshalField L hm record field = .error msg) :
    ∃ colIdx, hm (L.ToLower field.Tag) = some colIdx ∧ occursIn field.Name msg = true ∧
      ((∃ dec err, field.UnmarshalText = some dec ∧ dec (record.getD colIdx "") = .error err ∧
          msg = "failed to unmarshal field " ++ field.Name ++ ": " ++ err) ∨
       (field.UnmarshalText = none ∧ field.Kind = Kind.Other ∧
          msg = "unsupported field type: " ++ field.Name) ∨
       (field.UnmarshalText = none ∧ rejects L field (record.getD colIdx "") ∧
          occursIn (record.getD colIdx "") msg = true)) := by
  unfold unmarshalField at h
  split_ifs at h with htag
  cases hcol : hm (L.ToLower field.Tag) with
  | none => rw [hcol] at h; cases h
  | some colIdx =>
    rw [hcol] at h
    simp only at h
    refine ⟨colIdx, rfl, ?_⟩
    cases hdec : field.UnmarshalText with
    | some dec =>
      rw [hdec] at h
      simp only at h
      cases hres : dec (record.getD colIdx "") with
      | ok v => rw [hres] at h; cases h
      | error err =>
        rw [hres] at h
        simp only [Except.error.injEq] at h
        subst h
        exact ⟨occursIn_middle_right _ _ _ _, Or.inl ⟨dec, err, rfl, hres, rfl⟩⟩
    | none =>
      rw [hdec] at h
      simp only at h
      split_ifs at h with hempty
      cases hkind : field.Kind with
      | String => rw [hkind] at h; cases h
      | Int bits =>
        rw [hkind] at h
        simp only at h
        cases hp : L.ParseInt (record.getD colIdx "") with
        | some v => rw [hp] at h; cases h
        | none =>
          rw [hp] at h
          simp only [Except.error.injEq] at h
          subst h
          refine ⟨occursIn_middle_right _ _ _ _, Or.inr (Or.inr ⟨rfl, ?_, occursIn_end _ _⟩)⟩
          unfold rejects
          rw [hdec]
          exact ⟨hempty, Or.inl ⟨bits, hkind, hp⟩⟩
      | Uint bits =>
        rw [hkind] at h
        simp only at h
        cases hp : L.ParseUint (record.getD colIdx "") with
        | some v => rw [hp] at h; cases h
        | none =>
          rw [hp] at h
          simp only [Except.error.injEq] at h
          subst h
          refine ⟨occursIn_middle_right _ _ _ _, Or.inr (Or.inr ⟨rfl, ?_, occursIn_end _ _⟩)⟩
          unfold rejects
          rw [hdec]
          exact ⟨hempty, Or.inr (Or.inl ⟨bits, hkind, hp⟩)⟩
      | Float bits =>
        rw [hkind] at h
        simp only at h
        cases hp : L.ParseFloat (record.getD colIdx "") with
        | some v => rw [hp] at h; cases h
        | none =>
          rw [hp] at h
          simp only [Except.error.injEq] at h
          subst h
          refine ⟨occursIn_middle_right _ _ _ _, Or.inr (Or.inr ⟨rfl, ?_, occursIn_end _ _⟩)⟩
          unfold rejects
          rw [hdec]
          exact ⟨hempty, Or.inr (Or.inr (Or.inl ⟨bits, hkind, hp⟩))⟩
      | Bool =>
        rw [hkind] at h
        simp only at h
        cases hp : L.ParseBool (L.ToLower (record.getD colIdx "")) with
        | some v => rw [hp] at h; cases h
        | none =>
          rw [hp] at h
          simp only [Except.error.injEq] at h
          subst h
          refine ⟨occursIn_middle_right _ _ _ _, Or.inr (Or.inr ⟨rfl, ?_, occursIn_end _ _⟩)⟩
          unfold rejects
          rw [hdec]
          exact ⟨hempty, Or.inr (Or.inr (Or.inr ⟨hkind, hp⟩))⟩
      | Other =>
        rw [hkind] at h
        simp only [Except.error.injEq] at h
        subst h
        exact ⟨occursIn_end _ _, Or.inr (Or.inl ⟨rfl, rfl, rfl⟩)⟩

theorem unmarshalFields_error {τ : Type} (L : Strconv) (hm : String → Option Nat)
    (record : List String) (fields : List (StructField τ)) (msg : String)
    (h : unmarshalFields L hm record fields = .error msg) :
    ∃ field ∈ fields, unmarshalField L hm record field = .error msg := by
  induction fields with
  | nil => cases h
  | cons g gs ih =>
    unfold unmarshalFields at h
    cases hg : unmarshalField L hm record g with
    | error e =>
      rw [hg] at h
      simp only [Except.error.injEq] at h
      subst h
      exact ⟨g, List.mem_cons_self _ _, hg⟩
    | ok v =>
      rw [hg] at h
      simp only at h
      cases hrest : unmarshalFields L hm record gs with
      | error e =>
        rw [hrest] at h
        simp only [Except.error.injEq] at h
        subst h
        obtain ⟨f, hf, hfe⟩ := ih hrest
        exact ⟨f, List.mem_cons_of_mem _ hf, hfe⟩
      | ok vs => rw [hrest] at h; cases h

theorem unmarshalRows_error {τ : Type} (L : Strconv) (fields : List (StructField τ))
    (hm : String → Option Nat) (n : Nat) (msg : String) :
    ∀ (rows : List (Except String (List String))) (results : List (List (Value τ))),
      unmarshalRows L fields hm n rows results = .error msg →
      (∃ err, msg = "failed to read CSV row: " ++ err) ∨
      ∃ record, Except.ok record ∈ rows ∧ unmarshalFields L hm record fields = .error msg := by
  intro rows
  induction rows with
  | nil => intro results h; cases h
  | cons line rest ih =>
    intro results h
    unfold unmarshalRows at h
    cases hread : readRecord n line with
    | error e =>
      rw [hread] at h
      simp only [Except.error.injEq] at h
      exact Or.inl ⟨e, h.symm⟩
    | ok rec =>
      rw [hread] at h
      simp only at h
      have hline : line = .ok rec := by
        unfold readRecord at hread
        cases line with
        | error e => cases hread
        | ok r =>
          simp only at hread
          split_ifs at hread
          · cases hread; rfl
      cases hrec : unmarshalFields L hm rec fields with
      | error e =>
        rw [hrec] at h
        simp only [Except.error.injEq] at h
        subst h
        exact Or.inr ⟨rec, by rw [hline]; exact List.mem_cons_self _ _, hrec⟩
      | ok item =>
        rw [hrec] at h
        simp only at h
        rcases ih _ h with hl | ⟨r, hr, hre⟩
        · exact Or.inl hl
        · exact Or.inr ⟨r, List.mem_cons_of_mem _ hr, hre⟩

/-- What a signed integer field gets from a cell the parser accepts: the parsed number
converted to the width of the field, with no error. -/
theorem unmarshalField_int {τ : Type} (L : Strconv) (hm : String → Option Nat)
    (record : List String) (field : StructField τ) (colIdx bits : Nat) (i : Int)
    (htag : field.Tag ≠ "") (hcol : hm (L.ToLower field.Tag) = some colIdx)
    (hdec : field.UnmarshalText = none) (hkind : field.Kind = Kind.Int bits)
    (hne : record.getD colIdx "" ≠ "") (hp : L.ParseInt (record.getD colIdx "") = some i) :
    unmarshalField L hm record field = .ok (.int (truncInt bits i)) := by
  unfold unmarshalField
  simp only [htag, if_false, hcol, hdec, hne, hkind, hp]

/-- C18, as the code has it.  When a row holds a cell the code rejects (the field's own
`UnmarshalText` or the 64-bit parser for the kind of the field returns an error),
`Unmarshal` returns an error.  Every error it returns after the header is a read error
or comes from a field and a row: its message holds the Go name of the field (not the
header of the column) and is the decoder's own error after the name (a field that
decodes itself), or the message for an unsupported kind, or holds the raw value of the
cell (integer, unsigned, float and boolean fields).  A cell the parser accepts for a
signed integer field is stored converted to the width of the field, without an error,
whether or not the number fits. -/
theorem Unmarshal_coercion_error {τ : Type} (L : Strconv) (fields : List (StructField τ))
    (headers : List String) (rows : List (Except String (List String))) :
    (∀ field ∈ fields, ∀ (record : List String) (colIdx : Nat),
      Except.ok record ∈ rows → field.Tag ≠ "" →
      headerMap L headers (L.ToLower field.Tag) = some colIdx →
      rejects L field (record.getD colIdx "") →
      ∃ msg, Unmarshal L fields (.ok headers :: rows) = .error msg) ∧
    (∀ msg, Unmarshal L fields (.ok headers :: rows) = .error msg →
      (∃ err, msg = "failed to read CSV row: " ++ err) ∨
      ∃ field ∈ fields, ∃ (record : List String) (colIdx : Nat),
        Except.ok record ∈ rows ∧
        headerMap L headers (L.ToLower field.Tag) = some colIdx ∧
        occursIn field.Name msg = true ∧
        ((∃ dec err, field.UnmarshalText = some dec ∧
            dec (record.getD colIdx "") = .error err ∧
            msg = "failed to unmarshal field " ++ field.Name ++ ": " ++ err) ∨
         (field.UnmarshalText = none ∧ field.Kind = Kind.Other ∧
            msg = "unsupported field type: " ++ field.Name) ∨
         (field.UnmarshalText = none ∧ rejects L field (record.getD colIdx "") ∧
            occursIn (record.getD colIdx "") msg = true))) ∧
    (∀ field ∈ fields, ∀ (record : List String) (colIdx bits : Nat) (i : Int),
      field.Tag ≠ "" → headerMap L headers (L.ToLower field.Tag) = some colIdx →
      field.UnmarshalText = none → field.Kind = Kind.Int bits →
      record.getD colIdx "" ≠ "" → L.ParseInt (record.getD colIdx "") = some i →
      unmarshalField L (headerMap L headers) record field = .ok (.int (truncInt bits i))) := by
  refine ⟨?_, ?_, ?_⟩
  · intro field hfield record colIdx hrow htag hcol hbad
    obtain ⟨m1, h1⟩ := unmarshalField_of_rejects L (headerMap L headers) record field
      colIdx htag hcol hbad
    exact unmarshalRows_error_of_mem L fields (headerMap L headers) headers.length record
      (unmarshalFields_error_of_mem L (headerMap L headers) record fields field m1 hfield h1)
      rows [] hrow
  · intro msg h
    rcases unmarshalRows_error L fields (headerMap L headers) headers.length msg rows [] h
      with hl | ⟨record, hrow, hrec⟩
    · exact Or.inl hl
    · obtain ⟨field, hfield, hfe⟩ := unmarshalFields_error L _ record fields msg hrec
      obtain ⟨colIdx, hcol, hname, hshape⟩ := unmarshalField_error_shape L _ record field msg hfe
      exact Or.inr ⟨field, hfield, record, colIdx, hrow, hcol, hname, hshape⟩
  · intro field _ record colIdx bits i htag hcol hdec hkind hne hp
    exact unmarshalField_int L _ record field colIdx bits i htag hcol hdec hkind hne hp

/-- The first part of C18 applies to the cell `abc` of the integer field `MinOrderQty`:
`Unmarshal` returns an error. -/
theorem Unmarshal_coercion_error_witness :
    ∃ msg, Unmarshal asciiStrconv [minOrderQtyField] [.ok ["Min Order Qty"], .ok ["abc"]]
      = .error msg :=
  (Unmarshal_coercion_error asciiStrconv [minOrderQtyField] ["Min Order Qty"]
    [.ok ["abc"]]).1 minOrderQtyField (List.mem_cons_self _ _) ["abc"] 0
    (List.mem_cons_self _ _) (by decide) (by rfl)
    ⟨by decide, Or.inl ⟨64, rfl, by rfl⟩⟩

/-- C18 fails.  For the integer field `MinOrderQty`, read from the column
`Min Order Qty`, the cell `abc` gives a message that holds the name of the field and
not the header of the column; a field that decodes itself and rejects `xyz` without
quoting it gives a message that does not hold `xyz`; and the cell `300`, which is not a
value of the `int8` field `Level`, gives no error: the record holds 44. -/
theorem Unmarshal_coercion_error_not_as_stated :
    Unmarshal asciiStrconv [minOrderQtyField] [.ok ["Min Order Qty"], .ok ["abc"]]
      = .error "invalid int for field MinOrderQty: abc" ∧
    occursIn "Min Order Qty" "invalid int for field MinOrderQty: abc" = false ∧
    Unmarshal asciiStrconv [rejectingField] [.ok ["Birthdate"], .ok ["xyz"]]
      = .error "failed to unmarshal field Birthdate: cannot parse" ∧
    occursIn "xyz" "failed to unmarshal field Birthdate: cannot parse" = false ∧
    asciiStrconv.ParseInt "300" = some 300 ∧ ¬ ((300 : Int) < 2 ^ 7) ∧
    Unmarshal asciiStrconv [levelField] [.ok ["level"], .ok ["300"]] = .ok [[.int 44]] :=
  ⟨by rfl, by decide, by rfl, by decide, by rfl, by decide, by rfl⟩

end csvx

/-! ## The record decoder: matching columns to fields -/

namespace csvx

theorem headerMapFrom_of_not_mem (L : Strconv) (k : String) :
    ∀ (hs : List String) (i : Nat) (m : String → Option Nat),
      (∀ h ∈ hs, L.ToLower h ≠ k) → headerMapFrom L i hs m k = m k := by
  intro hs
  induction hs with
  | nil => intro i m _; rfl
  | cons h hs ih =>
    intro i m hne
    rw [headerMapFrom, ih (i + 1) _ (fun h' hh' => hne h' (List.mem_cons_of_mem _ hh'))]
    have : k ≠ L.ToLower h := fun heq => hne h (List.mem_cons_self _ _) heq.symm
    simp only [this, if_false]

theorem headerMapFrom_last (L : Strconv) (k : String) (h : String) (post : List String)
    (hk : L.ToLower h = k) (hpost : ∀ h' ∈ post, L.ToLower h' ≠ k) :
    ∀ (pre : List String) (i : Nat) (m : String → Option Nat),
      headerMapFrom L i (pre ++ h :: post) m k = some (i + pre.length) := by
  intro pre
  induction pre with
  | nil =>
    intro i m
    rw [List.nil_append, headerMapFrom, headerMapFrom_of_not_mem L k post (i + 1) _ hpost]
    simp [hk]
  | cons p ps ih =>
    intro i m
    rw [List.cons_append, headerMapFrom, ih (i + 1)]
    simp only [List.length_cons]
    congr 1
    omega

theorem headerMapFrom_congr (L : Strconv) :
    ∀ (hs hs' : List String) (i : Nat) (m : String → Option Nat),
      hs.map L.ToLower = hs'.map L.ToLower →
      headerMapFrom L i hs m = headerMapFrom L i hs' m := by
  intro hs
  induction hs with
  | nil =>
    intro hs' i m h
    cases hs' with
    | nil => rfl
    | cons a as => cases h
  | cons a as ih =>
    intro hs' i m h
    cases hs' with
    | nil => cases h
    | cons b bs =>
      simp only [List.map_cons, List.cons.injEq] at h
      rw [headerMapFrom, headerMapFrom, h.1]
      exact ih bs (i + 1) _ h.2

theorem unmarshalField_congr {τ : Type} (L : Strconv) (hm : String → Option Nat)
    (record : List String) (f f' : StructField τ) (h : sameUpToTagCase L f f') :
    unmarshalField L hm record f' = unmarshalField L hm record f := by
  obtain ⟨hname, hkind, hdec, hlower, hempty⟩ := h
  unfold unmarshalField
  by_cases ht : f.Tag = ""
  · simp only [ht, hempty.mpr ht, if_true]
  · have ht' : ¬ f'.Tag = "" := fun h' => ht (hempty.mp h')
    simp only [ht, ht', if_false, hlower, hname, hkind, hdec]

theorem unmarshalFields_congr {τ : Type} (L : Strconv) (hm : String → Option Nat)
    (record : List String) (fields fields' : List (StructField τ))
    (h : List.Forall₂ (sameUpToTagCase L) fields fields') :
    unmarshalFields L hm record fields' = unmarshalFields L hm record fields := by
  induction h with
  | nil => rfl
  | cons hhead _ ih =>
    unfold unmarshalFields
    rw [unmarshalField_congr L hm record _ _ hhead, ih]

theorem unmarshalRows_congr {τ : Type} (L : Strconv) (fields fields' : List (StructField τ))
    (hm : String → Option Nat) (n : Nat)
    (h : List.Forall₂ (sameUpToTagCase L) fields fields') :
    ∀ (rows : List (Except String (List String))) (results : List (List (Value τ))),
      unmarshalRows L fields' hm n rows results = unmarshalRows L fields hm n rows results := by
  intro rows
  induction rows with
  | nil => intro results; rfl
  | cons line rest ih =>
    intro results
    unfold unmarshalRows
    cases readRecord n line with
    | error e => rfl
    | ok rec =>
      simp only
      rw [unmarshalFields_congr L hm rec fields fields' h]
      cases unmarshalFields L hm rec fields with
      | error e => rfl
      | ok item => exact ih _

/-- C19. Columns are matched to fields through the lowercased header and the
lowercased tag.  The column of a field is the last one whose header lowercases to what
the tag lowercases to; headers that differ only in letter case (they lowercase to the
same texts) decode every input to the same result; and so do tags that differ only in
letter case. -/
theorem Unmarshal_case_insensitive {τ : Type} (L : Strconv) :
    (∀ (field : StructField τ) (pre post : List String) (h : String),
      L.ToLower h = L.ToLower field.Tag →
      (∀ h' ∈ post, L.ToLower h' ≠ L.ToLower field.Tag) →
      headerMap L (pre ++ h :: post) (L.ToLower field.Tag) = some pre.length) ∧
    (∀ (fields : List (StructField τ)) (headers headers' : List String)
      (rows : List (Except String (List String))),
      headers.map L.ToLower = headers'.map L.ToLower →
      Unmarshal L fields (.ok headers' :: rows) = Unmarshal L fields (.ok headers :: rows)) ∧
    (∀ (fields fields' : List (StructField τ)) (input : List (Except String (List String))),
      List.Forall₂ (sameUpToTagCase L) fields fields' →
      Unmarshal L fields' input = Unmarshal L fields input) := by
  refine ⟨fun field pre post h hk hpost => ?_, fun fields headers headers' rows hmap => ?_,
    fun fields fields' input hrel => ?_⟩
  · have := headerMapFrom_last L (L.ToLower field.Tag) h post hk hpost pre 0 (fun _ => none)
    simpa [headerMap] using this
  · have hlen : headers'.length = headers.length := by
      have := congrArg List.length hmap
      simpa using this.symm
    unfold Unmarshal
    simp only [headerMap, hlen, headerMapFrom_congr L headers headers' 0 _ hmap]
  · unfold Unmarshal
    cases input with
    | nil => rfl
    | cons line rows =>
      cases line with
      | error e => rfl
      | ok headers => exact unmarshalRows_congr L fields fields' _ _ hrel rows []

/-- The test of the decoder: the headers `Name,Age,Birthdate,Active` fill the fields
tagged `name`, `age`, `birthdate`, `active`, as the lowercase headers do. -/
theorem Unmarshal_case_insensitive_witness :
    Unmarshal asciiStrconv personFields personInput
      = .ok [[.string "John Doe", .int 30, .text "1994-06-15T00:00:00Z", .bool true],
          [.string "Jane Smith", .int 25, .text "1998-09-10T00:00:00Z", .bool false]] ∧
    Unmarshal asciiStrconv personFields
        (.ok ["Name", "Age", "Birthdate", "Active"] :: personInput.tail)
      = Unmarshal asciiStrconv personFields
          (.ok ["name", "age", "birthdate", "active"] :: personInput.tail) :=
  ⟨by rfl, (Unmarshal_case_insensitive asciiStrconv).2.1 personFields
    ["name", "age", "birthdate", "active"] ["Name", "Age", "Birthdate", "Active"]
    personInput.tail (by decide)⟩

end csvx

end Jlcfabtool
